import Mathlib

/-!
# Block-wise file signatures: the pipeline of `FileSignatureCreator.cpp`

A shallow embedding of `VeeamTestTask/FileSignatureCreator.cpp`, `FileSignatureCreator.h` and
`HashWrappers.cpp`.

* Machine integers are natural numbers; every unsigned 64-bit expression of the source is
  reduced modulo `U64` where the source computes it.
* A byte (`unsigned char`) is a natural number; the header fields are serialised little-endian,
  the byte order of the platform the project targets (`stdafx.h`, `wmain`).
* The output stream is a pair of the file content as the stream sees it and the put position.
  Opening a `std::ofstream` with `ios_base::out | ios_base::binary` creates the file or
  truncates it to length zero; a write past the end of the file fills the gap with zero bytes;
  `seekp` takes a signed 64-bit `std::streamoff`, so seeking to an unsigned offset of `2^63` or
  more fails.
* The stream is buffered: the bytes of a `write` stay in the stream buffer until the next
  `seekp`, or until the stream is closed or destroyed.  The state records what has reached the
  disk (`flushed`).  A digest and the header fit into the buffer.  When the stream is destroyed
  after `finalize()`, a flush that fails is swallowed by the destructor of the file buffer.
* The stream throws on `failbit` and `badbit` (line 58), also from the `m_ofs.close()` of
  `~OutputFileWriter` (line 75): an exception that leaves this destructor ends the process
  (`std::terminate`).
* The threads of `launch` are interleaved by a schedule: a list of actions, one per critical
  section of the source.  A blocked thread has no enabled action.  Faults of the environment
  (a failed read, a digest that throws, a failed write, a failed flush or close) are actions
  of their own.
* The input and the output path name different files.  Removing the output file in the
  destructor of the writer is taken to succeed.
-/

namespace VeeamTestTask

/-! ## Machine integers and bytes -/

/-- Modulus of `uint32_t` and `unsigned int`. -/
def U32 : Nat := 4294967296

/-- Modulus of `uint64_t`. -/
def U64 : Nat := 18446744073709551616

/-- First offset `seekp` cannot reach: `std::streamoff` is a signed 64-bit integer. -/
def streamoffLimit : Nat := 9223372036854775808

/-- One `unsigned char`. -/
abbrev Byte := Nat

/-- The type `buffer_t` of `types.h`. -/
abbrev buffer_t := List Byte

/-- The type `hash_t` of `types.h`. -/
abbrev hash_t := List Byte

/-- Exceptions that leave `launch`. -/
inductive Error where
  | invalid_argument (what : String)
  | runtime_error (what : String)
  | ios_failure
  | filesystem_error
  | bad_alloc
  deriving DecidableEq, Repr

deriving instance DecidableEq for Except

/-- How a call of `launch` ends for its caller. -/
inductive Result where
  /-- The call returns normally. -/
  | ok
  /-- The call raises `e`. -/
  | error (e : Error)
  /-- The process ends in `std::terminate`: an exception left the destructor of the writer. -/
  | terminate
  deriving DecidableEq, Repr

/-- Message of the `std::runtime_error` raised for a `bad_flag_error` (line 316). -/
def workerErrorMessage : String := "Worker thread error (most probably I/O related)"

/-- `std::vector::resize(n)` on a byte vector: cut, or pad with zero bytes. -/
def vresize (v : List Byte) (n : Nat) : List Byte :=
  v.take n ++ List.replicate (n - v.length) 0

/-- The object representation of an unsigned integer of `width` bytes (little-endian). -/
def rawBytes (width v : Nat) : List Byte :=
  (List.range width).map (fun i => v / 256 ^ i % 256)

/-! ## Files and streams -/

/-- File content after writing `bs` at position `pos`; a gap before `pos` is zero-filled, and
writing no bytes leaves the file as it is. -/
def writeAt (f : List Byte) (pos : Nat) (bs : List Byte) : List Byte :=
  if bs = [] then f
  else (f ++ List.replicate (pos - f.length) 0).take pos ++ bs ++ f.drop (pos + bs.length)

/-- An open `std::ofstream`: the content of its file and the put position. -/
structure ofstream where
  file : List Byte
  pos : Nat
  deriving DecidableEq, Repr

/-- `seekp(off, ios_base::beg)` with an unsigned 64-bit argument; `none` when the stream fails. -/
def ofstream.seekp (s : ofstream) (off : Nat) : Option ofstream :=
  if off < streamoffLimit then some { s with pos := off } else none

/-- `write(data, size)` at the put position. -/
def ofstream.write (s : ofstream) (bs : List Byte) : ofstream :=
  { file := writeAt s.file s.pos bs, pos := s.pos + bs.length }

/-! ## The signature header (`FileSignatureCreator.h`) -/

/-- The struct `SignatureHeader` with its default member initialisers. -/
structure SignatureHeader where
  fileMark : Nat := 0x53464D56
  formatVersion : Nat := 1
  hashFunctionId : Nat := 0
  originalFileSize : Nat := 0
  blockSize : Nat := 0
  reserved1 : Nat := 0
  reserved2 : Nat := 0
  reserved3 : Nat := 0
  deriving DecidableEq, Repr

/-- `SignatureHeaderTraits::size()`. -/
def SignatureHeaderTraits.size : Nat := 32

/-! ## `InputFileReader` -/

/-- The input stream: the content of the input file and the get position. -/
structure InputFileReader where
  file : List Byte
  pos : Nat
  deriving DecidableEq, Repr

/-- `readNextChunk(buffer)`: fills the whole buffer from the get position; `none` when fewer
bytes are left than the buffer holds (the stream then throws). -/
def InputFileReader.readNextChunk (r : InputFileReader) (buffer : buffer_t) :
    Option (InputFileReader × buffer_t) :=
  if r.pos + buffer.length ≤ r.file.length then
    some ({ r with pos := r.pos + buffer.length }, (r.file.drop r.pos).take buffer.length)
  else none

/-! ## `OutputFileWriter` -/

/-- The writer: its stream and the finalisation mark (`m_path` is the one output path). -/
structure OutputFileWriter where
  m_ofs : ofstream
  m_isFinalized : Bool
  deriving DecidableEq, Repr

/-- The step of the constructor of `OutputFileWriter` that throws, when one does. -/
inductive CtorFault where
  | firstOpen
  | resize
  | secondOpen
  deriving DecidableEq, Repr

/-- Argument of `resize_file` (line 68), an unsigned 64-bit expression. -/
def OutputFileWriter.presetSize (hashSize blockCount : Nat) : Nat :=
  (SignatureHeaderTraits.size + hashSize * blockCount) % U64

/-- The file at the output path after lines 63-65 (`open`, `write("x", 1)`, `close`). -/
def OutputFileWriter.afterPlaceholder : List Byte := [120]

/-- The file at the output path after `resize_file` (line 68). -/
def OutputFileWriter.afterResize (hashSize blockCount : Nat) : List Byte :=
  vresize OutputFileWriter.afterPlaceholder (OutputFileWriter.presetSize hashSize blockCount)

/-- The file at the output path after the second `open` (line 70): `out | binary` truncates. -/
def OutputFileWriter.afterReopen : List Byte := []

/-- The constructor (lines 57-71).  Takes the file at the output path (`none`: no such file)
and returns that file afterwards, with the writer or the exception.  When the constructor
throws, the destructor does not run. -/
def OutputFileWriter.create (disk : Option (List Byte)) (fault : Option CtorFault)
    (hashSize blockCount : Nat) : Option (List Byte) × Except Error OutputFileWriter :=
  match fault with
  | some .firstOpen => (disk, .error .ios_failure)
  | some .resize => (some OutputFileWriter.afterPlaceholder, .error .filesystem_error)
  | some .secondOpen =>
      (some (OutputFileWriter.afterResize hashSize blockCount), .error .ios_failure)
  | none =>
      (some OutputFileWriter.afterReopen,
        .ok { m_ofs := { file := OutputFileWriter.afterReopen, pos := 0 },
              m_isFinalized := false })

/-- The content of the output file while the writer is alive. -/
def OutputFileWriter.content (w : OutputFileWriter) : List Byte := w.m_ofs.file

/-- `writeHeader(header)` (lines 84-95): one `write` per field, in declared order. -/
def OutputFileWriter.writeHeader (w : OutputFileWriter) (header : SignatureHeader) :
    Option OutputFileWriter :=
  match w.m_ofs.seekp 0 with
  | none => none
  | some s =>
      some { w with
        m_ofs := (((((((s.write (rawBytes 4 header.fileMark)).write
          (rawBytes 2 header.formatVersion)).write
          (rawBytes 2 header.hashFunctionId)).write
          (rawBytes 8 header.originalFileSize)).write
          (rawBytes 4 header.blockSize)).write
          (rawBytes 4 header.reserved1)).write
          (rawBytes 4 header.reserved2)).write
          (rawBytes 4 header.reserved3) }

/-- Offset `writeHash` seeks to (line 98), an unsigned 64-bit expression. -/
def OutputFileWriter.hashOffset (hashSize blockNumber : Nat) : Nat :=
  (SignatureHeaderTraits.size + hashSize * blockNumber) % U64

/-- `writeHash(blockNumber, hash)` (lines 97-101); `none` when the seek fails. -/
def OutputFileWriter.writeHash (w : OutputFileWriter) (blockNumber : Nat) (hash : hash_t) :
    Option OutputFileWriter :=
  match w.m_ofs.seekp (OutputFileWriter.hashOffset hash.length blockNumber) with
  | none => none
  | some s => some { w with m_ofs := s.write hash }

/-- `finalize()` (line 103). -/
def OutputFileWriter.finalize (w : OutputFileWriter) : OutputFileWriter :=
  { w with m_isFinalized := true }

/-! ## The block plan (line 203 and the loop header of line 246) -/

/-- The value `inputSize / blockSize + (inputSize % blockSize > 0)` of line 203. -/
def blockCount (inputSize blockSize : Nat) : Nat :=
  (inputSize / blockSize + (if inputSize % blockSize > 0 then 1 else 0)) % U64

/-- The loop step `bytesToRead -= blockSize` on `uint64_t`. -/
def nextBytesToRead (bytesToRead blockSize : Nat) : Nat :=
  (bytesToRead + U64 - blockSize % U64) % U64

/-- Lines 267-271: the buffer handed to `readNextChunk`. -/
def trimBuffer (buffer : buffer_t) (bytesToRead blockSize : Nat) : buffer_t :=
  if bytesToRead < blockSize then vresize buffer bytesToRead else buffer

/-! ## The digest capability (`HashWrappers.cpp`) -/

/-- A digest class of the CryptoPP library: its `DIGESTSIZE` and `CalculateDigest`.  The
digest sizes of the library are positive constants (4 for `CRC32`, 16 for `Weak::MD5`). -/
structure HashAlgorithm where
  DIGESTSIZE : Nat
  CalculateDigest : List Byte → List Byte
  DIGESTSIZE_pos : 0 < DIGESTSIZE

/-- `HashTraits::digestSize(id)`; `none` for the `default:` branch, which throws. -/
def HashTraits.digestSize (crc32 md5 : HashAlgorithm) (id : Nat) : Option Nat :=
  match id with
  | 0 => some crc32.DIGESTSIZE
  | 1 => some md5.DIGESTSIZE
  | _ => none

/-- `HashWrapperFactory::createHashWrapper(id)`; `none` for the `default:` branch. -/
def HashWrapperFactory.createHashWrapper (crc32 md5 : HashAlgorithm) (id : Nat) :
    Option HashAlgorithm :=
  match id with
  | 0 => some crc32
  | 1 => some md5
  | _ => none

/-- `createDigest(input, hash)`: the digest overwrites the slot, which has its size. -/
def HashAlgorithm.createDigest (h : HashAlgorithm) (input : buffer_t) (_hash : hash_t) : hash_t :=
  h.CalculateDigest input

/-! ## The shared state of `FileSignatureCreatorImpl` and the threads of `launch` -/

/-- An owned input buffer (`buffer_ptr_t`): the identity of the allocation and its content. -/
structure Buf where
  id : Nat
  data : buffer_t
  deriving DecidableEq, Repr

/-- The tuple `job_t`: input buffer, digest slot, block number. -/
structure job_t where
  buffer : Buf
  hash : hash_t
  blockNumber : Nat
  deriving DecidableEq, Repr

/-- The pair `result_t`: filled digest slot and block number. -/
abbrev result_t := hash_t × Nat

/-- Where the thread that runs `launch` stands in the producer loop (lines 246-314). -/
inductive Producer where
  /-- About to lock `m_mbpGuard` (line 250). -/
  | atBufferPool
  /-- Holds a buffer, before the trim and `readNextChunk` (line 267). -/
  | atRead (buffer : Buf)
  /-- Holds the filled buffer, about to lock `m_hpGuard` (line 278). -/
  | atHashPool (buffer : Buf)
  /-- Holds buffer and digest slot, about to lock `m_jobGuard` (line 293). -/
  | atJobs (buffer : Buf) (hash : hash_t)
  /-- Left the loop, in `waitForWorkers` (line 301). -/
  | atJoin
  /-- Passed `finalize` (line 314): `launch` returns normally. -/
  | returned
  /-- An exception left the `try` block: `launch` raises `e`. -/
  | thrown (e : Error)
  deriving DecidableEq, Repr

/-- Where one thread running `runHasher` stands (lines 326-380). -/
inductive Hasher where
  /-- About to lock `m_jobGuard` (line 332). -/
  | atJobs
  /-- Holds a job, before `createDigest` (line 359). -/
  | atDigest (job : job_t)
  /-- Published the result, holds the input buffer (line 370). -/
  | atRelease (data : Buf)
  /-- Returned from `runHasher`. -/
  | exited
  deriving DecidableEq, Repr

/-- Where the thread running `runResultWriter` stands (lines 384-423). -/
inductive ResultWriter where
  /-- About to lock `m_resGuard` (line 390). -/
  | atResults
  /-- Holds a result, before `writeHash` (line 412). -/
  | atWrite (result : result_t)
  /-- Returned from `runResultWriter`. -/
  | exited
  deriving DecidableEq, Repr

/-- The values `launch` computes once and never changes. -/
structure Plan where
  inputSize : Nat
  blockSize : Nat
  id : Nat
  digestSize : Nat
  blockCount : Nat
  hasherThreadCount : Nat
  hasher : HashAlgorithm

/-- The members of `FileSignatureCreatorImpl`, the locals of the three thread functions, the
output file as it is on disk, whether the process was terminated, and three history variables
(`freed`, `dequeued`, `written`) that no transition reads. -/
structure State where
  m_memoryBufferPool : List Buf
  m_hashPool : List hash_t
  m_jobs : List job_t
  m_results : List result_t
  m_badFlag : Bool
  m_blocksToHash : Nat
  producer : Producer
  blockNumber : Nat
  bytesToRead : Nat
  reader : InputFileReader
  /-- The local `writer` of `launch`; `none` once destroyed unfinalised (file removed). -/
  writer : Option OutputFileWriter
  /-- The output file on disk while it exists: the writes that have left the stream buffer. -/
  flushed : List Byte
  /-- The process ended in `std::terminate`; no thread takes a step any more. -/
  aborted : Bool
  hashers : List Hasher
  resultWriter : ResultWriter
  blocksToWrite : Nat
  /-- History: input buffers destroyed with the job or local that owned them. -/
  freed : List Buf
  /-- History: block numbers of the jobs dequeued by hashers, in order. -/
  dequeued : List Nat
  /-- History: block numbers `writeHash` was completed for, in order. -/
  written : List Nat
  deriving DecidableEq, Repr

/-- One atomic transition of one thread. -/
inductive Action where
  /-- Producer, lines 250-265: wait for a buffer, check the flag, take the last buffer. -/
  | acquire
  /-- Producer, lines 267-273: trim the buffer and read the chunk. -/
  | read
  /-- Producer: `readNextChunk` throws. -/
  | readFail
  /-- Producer, lines 275-290: take a digest slot from the pool or allocate one. -/
  | getHash
  /-- Producer, lines 292-299 and the loop step of line 246: enqueue the job. -/
  | enqueue
  /-- Producer, lines 301-314: join the workers, check the flag, write the header, finalise;
  the header reaches the disk when `m_ofs` is destroyed. -/
  | join
  /-- Producer: `writeHeader` throws. -/
  | headerFail
  /-- Producer, lines 301-314 as in `join` with the flag unset, but the flush of the header
  fails when `m_ofs` is destroyed; the destructor of the file buffer swallows the failure. -/
  | joinFlushFail
  /-- Producer: an exception leaves the `try` block (lines 260, 273, 304 or 313) and
  `m_ofs.close()` throws in the destructor of the writer (line 75): `std::terminate` ends the
  process before the file is removed and before a `catch` handler runs.  The state stays as
  it was when the exception was thrown. -/
  | closeFail
  /-- Hasher `i`, lines 332-353: wait for a job, check the flag, dequeue. -/
  | take (i : Nat)
  /-- Hasher `i`, lines 355-367: compute the digest and publish the result. -/
  | publish (i : Nat)
  /-- Hasher `i`: an exception before the result is published (lines 377-379). -/
  | digestFail (i : Nat)
  /-- Hasher `i`, lines 369-375: return the input buffer to the pool. -/
  | release (i : Nat)
  /-- Result writer, lines 390-407: wait for a result, check the flag, dequeue. -/
  | wtake
  /-- Result writer, lines 409-418: `writeHash` (its `seekp` flushes the digest written
  before), return the slot, count the block. -/
  | wwrite
  /-- Result writer: `writeHash` throws (lines 420-422). -/
  | wwriteFail
  deriving DecidableEq, Repr

/-- The header `launch` fills in (lines 307-311). -/
def Plan.header (p : Plan) : SignatureHeader :=
  { hashFunctionId := p.id % 65536, originalFileSize := p.inputSize, blockSize := p.blockSize }

/-- Every worker thread has returned, so `waitForWorkers` returns. -/
def State.workersDone (s : State) : Bool :=
  s.hashers.all (fun h => decide (h = Hasher.exited)) && decide (s.resultWriter = .exited)

/-- The transitions of the producer. -/
def stepProducer (p : Plan) (a : Action) (s : State) : Option State :=
  match a, s.producer with
  | .acquire, .atBufferPool =>
      if s.m_badFlag then
        some { s with producer := .thrown (.runtime_error workerErrorMessage), writer := none }
      else
        match s.m_memoryBufferPool.getLast? with
        | none => none
        | some buffer =>
            some { s with m_memoryBufferPool := s.m_memoryBufferPool.dropLast,
                          producer := .atRead buffer }
  | .read, .atRead buffer =>
      match s.reader.readNextChunk (trimBuffer buffer.data s.bytesToRead p.blockSize) with
      | none => none
      | some (r, d) => some { s with reader := r, producer := .atHashPool { buffer with data := d } }
  | .readFail, .atRead buffer =>
      some { s with producer := .thrown .ios_failure, m_badFlag := true, writer := none,
                    freed := buffer :: s.freed }
  | .getHash, .atHashPool buffer =>
      match s.m_hashPool.getLast? with
      | some hash =>
          some { s with m_hashPool := s.m_hashPool.dropLast, producer := .atJobs buffer hash }
      | none =>
          some { s with producer := .atJobs buffer (List.replicate p.digestSize 0) }
  | .enqueue, .atJobs buffer hash =>
      let next := (s.blockNumber + 1) % U64
      some { s with m_jobs := s.m_jobs ++ [⟨buffer, hash, s.blockNumber⟩],
                    bytesToRead := nextBytesToRead s.bytesToRead p.blockSize,
                    blockNumber := next,
                    producer := if next < p.blockCount then .atBufferPool else .atJoin }
  | .join, .atJoin =>
      if s.workersDone then
        if s.m_badFlag then
          some { s with producer := .thrown (.runtime_error workerErrorMessage), writer := none }
        else
          match s.writer with
          | none => none
          | some w =>
              match w.writeHeader p.header with
              | none => none
              | some w1 =>
                  some { s with producer := .returned, writer := some w1.finalize,
                                flushed := w1.m_ofs.file }
      else none
  | .headerFail, .atJoin =>
      if s.workersDone && !s.m_badFlag then
        some { s with producer := .thrown .ios_failure, m_badFlag := true, writer := none }
      else none
  | .joinFlushFail, .atJoin =>
      if s.workersDone && !s.m_badFlag then
        match s.writer with
        | none => none
        | some w =>
            match w.writeHeader p.header with
            | none => none
            | some w1 =>
                some { s with producer := .returned, writer := some w1.finalize,
                              flushed := w.m_ofs.file }
      else none
  | _, _ => none

/-- The transitions of hasher thread `i`. -/
def stepHasher (p : Plan) (a : Action) (i : Nat) (s : State) : Option State :=
  match a, s.hashers[i]? with
  | .take _, some .atJobs =>
      if s.m_badFlag then some { s with hashers := s.hashers.set i .exited }
      else
        match s.m_jobs with
        | [] =>
            if s.m_blocksToHash = 0 then some { s with hashers := s.hashers.set i .exited }
            else none
        | job :: rest =>
            some { s with m_jobs := rest,
                          m_blocksToHash := (s.m_blocksToHash + U64 - 1) % U64,
                          hashers := s.hashers.set i (.atDigest job),
                          dequeued := s.dequeued ++ [job.blockNumber] }
  | .publish _, some (.atDigest job) =>
      some { s with m_results :=
                      s.m_results ++ [(p.hasher.createDigest job.buffer.data job.hash,
                                       job.blockNumber)],
                    hashers := s.hashers.set i (.atRelease job.buffer) }
  | .digestFail _, some (.atDigest job) =>
      some { s with m_badFlag := true, hashers := s.hashers.set i .exited,
                    freed := job.buffer :: s.freed }
  | .release _, some (.atRelease data) =>
      some { s with m_memoryBufferPool := s.m_memoryBufferPool ++ [data],
                    hashers := s.hashers.set i .atJobs }
  | _, _ => none

/-- The transitions of the result writer thread. -/
def stepResultWriter (a : Action) (s : State) : Option State :=
  match a, s.resultWriter with
  | .wtake, .atResults =>
      if s.m_badFlag then some { s with resultWriter := .exited }
      else
        match s.m_results with
        | [] => none
        | result :: rest => some { s with m_results := rest, resultWriter := .atWrite result }
  | .wwrite, .atWrite result =>
      match s.writer with
      | none => none
      | some w =>
          match w.writeHash result.2 result.1 with
          | none => none
          | some w1 =>
              let left := (s.blocksToWrite + U64 - 1) % U64
              some { s with writer := some w1,
                            flushed := w.m_ofs.file,
                            m_hashPool := s.m_hashPool ++ [result.1],
                            blocksToWrite := left,
                            written := s.written ++ [result.2],
                            resultWriter := if left > 0 then .atResults else .exited }
  | .wwriteFail, .atWrite _ =>
      some { s with m_badFlag := true, resultWriter := .exited }
  | _, _ => none

/-- A throwing transition of the producer is enabled: `bad_flag_error` at the pool or after
the join, a `readNextChunk` or a `writeHeader` that fails. -/
def State.mayThrow (s : State) : Bool :=
  match s.producer with
  | .atBufferPool => s.m_badFlag
  | .atRead _ => true
  | .atJoin => s.workersDone
  | _ => false

/-- One transition of a thread of the running process. -/
def stepThread (p : Plan) (a : Action) (s : State) : Option State :=
  match a with
  | .acquire | .read | .readFail | .getHash | .enqueue | .join | .headerFail
  | .joinFlushFail =>
      stepProducer p a s
  | .closeFail => if s.mayThrow then some { s with aborted := true } else none
  | .take i | .publish i | .digestFail i | .release i => stepHasher p a i s
  | .wtake | .wwrite | .wwriteFail => stepResultWriter a s

/-- One transition of the pipeline; `none` when the action is not enabled in `s`. -/
def step (p : Plan) (a : Action) (s : State) : Option State :=
  if s.aborted then none else stepThread p a s

/-- Runs a schedule; `none` when one of its actions is not enabled. -/
def run (p : Plan) : List Action → State → Option State
  | [], s => some s
  | a :: rest, s =>
      match step p a s with
      | none => none
      | some s1 => run p rest s1

/-- The state once the pools are filled and the threads are started (lines 207-244). -/
def initialState (p : Plan) (input : List Byte) (writer : OutputFileWriter) : State :=
  { m_memoryBufferPool :=
      (List.range (p.hasherThreadCount * 2 % U32)).map
        (fun i => ⟨i, List.replicate p.blockSize 0⟩),
    m_hashPool := List.replicate (p.hasherThreadCount * 2 % U32) (List.replicate p.digestSize 0),
    m_jobs := [],
    m_results := [],
    m_badFlag := false,
    m_blocksToHash := p.blockCount,
    producer := if 0 < p.blockCount then .atBufferPool else .atJoin,
    blockNumber := 0,
    bytesToRead := p.inputSize,
    reader := { file := input, pos := 0 },
    writer := some writer,
    flushed := writer.m_ofs.file,
    aborted := false,
    hashers := List.replicate p.hasherThreadCount .atJobs,
    resultWriter := if p.blockCount > 0 then .atResults else .exited,
    blocksToWrite := p.blockCount,
    freed := [],
    dequeued := [],
    written := [] }

/-- All threads are through: the process was terminated, or `launch` has returned or raised
and the workers are joined. -/
def State.terminated (s : State) : Bool :=
  s.aborted ||
    (s.workersDone &&
      (match s.producer with
       | .returned => true
       | .thrown _ => true
       | _ => false))

/-! ## `launch` -/

/-- What `launch` is called with and what the environment holds. -/
structure Env where
  /-- Content of the file at the input path; `none` when it cannot be opened. -/
  input : Option (List Byte)
  /-- Content of the file at the output path before the call; `none` when there is none. -/
  output : Option (List Byte)
  blockSize : Nat
  id : Nat
  /-- The class `CryptoPP::CRC32`. -/
  crc32 : HashAlgorithm
  /-- The class `CryptoPP::Weak::MD5`. -/
  md5 : HashAlgorithm
  /-- `std::thread::hardware_concurrency()`. -/
  hardware_concurrency : Nat
  /-- The step of the writer's constructor that fails, if any. -/
  ctorFault : Option CtorFault
  /-- Allocating the pools (lines 218-224) throws `std::bad_alloc`. -/
  allocFault : Bool

/-- What the caller observes. -/
structure Outcome where
  /-- Normal return, the exception raised, or the end of the process. -/
  result : Result
  /-- The file at the output path after the call. -/
  output : Option (List Byte)
  /-- The writer was constructed (line 205 completed). -/
  writerConstructed : Bool
  /-- The last state of the pipeline; `none` when no pool or thread was ever set up. -/
  final : Option State
  deriving DecidableEq, Repr

/-- Lines 191-203: the argument checks and the block plan. -/
def validate (env : Env) : Except Error (Plan × List Byte) :=
  if env.blockSize = 0 then .error (.invalid_argument "Block size is zero")
  else
    match env.input with
    | none => .error .filesystem_error
    | some input =>
        if input.length % U64 = 0 then .error (.invalid_argument "Input file is empty")
        else
          match HashTraits.digestSize env.crc32 env.md5 env.id,
                HashWrapperFactory.createHashWrapper env.crc32 env.md5 env.id with
          | some digestSize, some hasher =>
              .ok ({ inputSize := input.length % U64,
                     blockSize := env.blockSize,
                     id := env.id,
                     digestSize := digestSize,
                     blockCount := blockCount (input.length % U64) env.blockSize,
                     hasherThreadCount :=
                       if env.hardware_concurrency = 0 then 4 else env.hardware_concurrency,
                     hasher := hasher }, input)
          | _, _ => .error (.runtime_error "Hashing algorithm not supported")

/-- The result of `launch` read off the producer. -/
def State.result (s : State) : Result :=
  if s.aborted then .terminate
  else
    match s.producer with
    | .thrown e => .error e
    | _ => .ok

/-- The file at the output path: none once the writer was destroyed unfinalised, else what
has reached the disk. -/
def State.output (s : State) : Option (List Byte) :=
  s.writer.map (fun _ => s.flushed)

/-- The method `launch` (lines 188-322) under a schedule of its threads, up to the point where
the caller has the result and all workers are joined, or the process has ended.  `none` when
the schedule is not a complete run: an action of it is not enabled, or it stops before every
thread is through.  When the allocation of the pools throws, no thread was started: the
schedule is empty, or holds the failing `close` of the destructor of the writer. -/
def launch (env : Env) (sched : List Action) : Option Outcome :=
  match validate env with
  | .error e => some ⟨.error e, env.output, false, none⟩
  | .ok (p, input) =>
      match OutputFileWriter.create env.output env.ctorFault p.digestSize p.blockCount with
      | (disk, .error e) => some ⟨.error e, disk, false, none⟩
      | (disk, .ok writer) =>
          if env.allocFault then
            match sched with
            | [] => some ⟨.error .bad_alloc, none, true, none⟩
            | [.closeFail] => some ⟨.terminate, disk, true, none⟩
            | _ => none
          else
            match run p sched (initialState p input writer) with
            | none => none
            | some s =>
                if s.terminated then some ⟨s.result, s.output, true, some s⟩ else none

/-! ## The step relation -/

/-- The transitions of `step`, one constructor per branch of the source. -/
inductive Step (p : Plan) : State → Action → State → Prop where
  | acquireThrow (s : State) (hl : s.aborted = false)
      (hp : s.producer = .atBufferPool) (hf : s.m_badFlag = true) :
      Step p s .acquire
        { s with producer := .thrown (.runtime_error workerErrorMessage), writer := none }
  | acquire (s : State) (hl : s.aborted = false) (buffer : Buf) (hp : s.producer = .atBufferPool)
      (hf : s.m_badFlag = false) (hb : s.m_memoryBufferPool.getLast? = some buffer) :
      Step p s .acquire
        { s with m_memoryBufferPool := s.m_memoryBufferPool.dropLast,
                 producer := .atRead buffer }
  | read (s : State) (hl : s.aborted = false) (buffer : Buf) (r : InputFileReader) (d : buffer_t)
      (hp : s.producer = .atRead buffer)
      (hr : s.reader.readNextChunk (trimBuffer buffer.data s.bytesToRead p.blockSize)
              = some (r, d)) :
      Step p s .read { s with reader := r, producer := .atHashPool { buffer with data := d } }
  | readFail (s : State) (hl : s.aborted = false)
      (buffer : Buf) (hp : s.producer = .atRead buffer) :
      Step p s .readFail
        { s with producer := .thrown .ios_failure, m_badFlag := true, writer := none,
                 freed := buffer :: s.freed }
  | getHashPooled (s : State) (hl : s.aborted = false) (buffer : Buf) (hash : hash_t)
      (hp : s.producer = .atHashPool buffer) (hh : s.m_hashPool.getLast? = some hash) :
      Step p s .getHash
        { s with m_hashPool := s.m_hashPool.dropLast, producer := .atJobs buffer hash }
  | getHashFresh (s : State) (hl : s.aborted = false) (buffer : Buf)
      (hp : s.producer = .atHashPool buffer) (hh : s.m_hashPool.getLast? = none) :
      Step p s .getHash
        { s with producer := .atJobs buffer (List.replicate p.digestSize 0) }
  | enqueue (s : State) (hl : s.aborted = false)
      (buffer : Buf) (hash : hash_t) (hp : s.producer = .atJobs buffer hash) :
      Step p s .enqueue
        { s with m_jobs := s.m_jobs ++ [⟨buffer, hash, s.blockNumber⟩],
                 bytesToRead := nextBytesToRead s.bytesToRead p.blockSize,
                 blockNumber := (s.blockNumber + 1) % U64,
                 producer := if (s.blockNumber + 1) % U64 < p.blockCount then .atBufferPool
                             else .atJoin }
  | joinThrow (s : State) (hl : s.aborted = false)
      (hp : s.producer = .atJoin) (hw : s.workersDone = true)
      (hf : s.m_badFlag = true) :
      Step p s .join
        { s with producer := .thrown (.runtime_error workerErrorMessage), writer := none }
  | joinReturn (s : State) (hl : s.aborted = false)
      (w w1 : OutputFileWriter) (hp : s.producer = .atJoin)
      (hw : s.workersDone = true) (hf : s.m_badFlag = false) (hwr : s.writer = some w)
      (hh : w.writeHeader p.header = some w1) :
      Step p s .join
        { s with producer := .returned, writer := some w1.finalize,
                 flushed := w1.m_ofs.file }
  | headerFail (s : State) (hl : s.aborted = false)
      (hp : s.producer = .atJoin) (hw : s.workersDone = true)
      (hf : s.m_badFlag = false) :
      Step p s .headerFail
        { s with producer := .thrown .ios_failure, m_badFlag := true, writer := none }
  | joinFlushFail (s : State) (hl : s.aborted = false)
      (w w1 : OutputFileWriter) (hp : s.producer = .atJoin)
      (hw : s.workersDone = true) (hf : s.m_badFlag = false) (hwr : s.writer = some w)
      (hh : w.writeHeader p.header = some w1) :
      Step p s .joinFlushFail
        { s with producer := .returned, writer := some w1.finalize,
                 flushed := w.m_ofs.file }
  | closeFail (s : State) (hl : s.aborted = false) (ht : s.mayThrow = true) :
      Step p s .closeFail { s with aborted := true }
  | takeFlag (s : State) (hl : s.aborted = false) (i : Nat) (hh : s.hashers[i]? = some .atJobs)
      (hf : s.m_badFlag = true) :
      Step p s (.take i) { s with hashers := s.hashers.set i .exited }
  | takeNone (s : State) (hl : s.aborted = false) (i : Nat) (hh : s.hashers[i]? = some .atJobs)
      (hf : s.m_badFlag = false) (hj : s.m_jobs = []) (hb : s.m_blocksToHash = 0) :
      Step p s (.take i) { s with hashers := s.hashers.set i .exited }
  | take (s : State) (hl : s.aborted = false) (i : Nat) (job : job_t) (rest : List job_t)
      (hh : s.hashers[i]? = some .atJobs) (hf : s.m_badFlag = false)
      (hj : s.m_jobs = job :: rest) :
      Step p s (.take i)
        { s with m_jobs := rest,
                 m_blocksToHash := (s.m_blocksToHash + U64 - 1) % U64,
                 hashers := s.hashers.set i (.atDigest job),
                 dequeued := s.dequeued ++ [job.blockNumber] }
  | publish (s : State) (hl : s.aborted = false)
      (i : Nat) (job : job_t) (hh : s.hashers[i]? = some (.atDigest job)) :
      Step p s (.publish i)
        { s with m_results :=
                   s.m_results ++ [(p.hasher.createDigest job.buffer.data job.hash,
                                    job.blockNumber)],
                 hashers := s.hashers.set i (.atRelease job.buffer) }
  | digestFail (s : State) (hl : s.aborted = false) (i : Nat) (job : job_t)
      (hh : s.hashers[i]? = some (.atDigest job)) :
      Step p s (.digestFail i)
        { s with m_badFlag := true, hashers := s.hashers.set i .exited,
                 freed := job.buffer :: s.freed }
  | release (s : State) (hl : s.aborted = false)
      (i : Nat) (data : Buf) (hh : s.hashers[i]? = some (.atRelease data)) :
      Step p s (.release i)
        { s with m_memoryBufferPool := s.m_memoryBufferPool ++ [data],
                 hashers := s.hashers.set i .atJobs }
  | wtakeFlag (s : State) (hl : s.aborted = false)
      (hr : s.resultWriter = .atResults) (hf : s.m_badFlag = true) :
      Step p s .wtake { s with resultWriter := .exited }
  | wtake (s : State) (hl : s.aborted = false) (result : result_t) (rest : List result_t)
      (hr : s.resultWriter = .atResults) (hf : s.m_badFlag = false)
      (hq : s.m_results = result :: rest) :
      Step p s .wtake { s with m_results := rest, resultWriter := .atWrite result }
  | wwrite (s : State) (hl : s.aborted = false) (result : result_t) (w w1 : OutputFileWriter)
      (hr : s.resultWriter = .atWrite result) (hwr : s.writer = some w)
      (hh : w.writeHash result.2 result.1 = some w1) :
      Step p s .wwrite
        { s with writer := some w1,
                 flushed := w.m_ofs.file,
                 m_hashPool := s.m_hashPool ++ [result.1],
                 blocksToWrite := (s.blocksToWrite + U64 - 1) % U64,
                 written := s.written ++ [result.2],
                 resultWriter := if (s.blocksToWrite + U64 - 1) % U64 > 0 then .atResults
                                 else .exited }
  | wwriteFail (s : State) (hl : s.aborted = false)
      (result : result_t) (hr : s.resultWriter = .atWrite result) :
      Step p s .wwriteFail { s with m_badFlag := true, resultWriter := .exited }

/-! ## Vocabulary of the properties -/

/-- Input bytes `[b * blockSize, min ((b + 1) * blockSize, size))`: block `b` of the input. -/
def chunk (input : List Byte) (blockSize b : Nat) : List Byte :=
  (input.drop (b * blockSize)).take blockSize

/-- File bytes `[off, off + n)`. -/
def segment (f : List Byte) (off n : Nat) : List Byte := (f.drop off).take n

/-- The bytes at positions `[lo, hi)` of `f`. -/
def bytesIn (f : List Byte) (lo hi : Nat) : List Byte := (f.take hi).drop lo

/-- The input buffers a producer holds. -/
def Producer.buffers : Producer → List Buf
  | .atRead b => [b]
  | .atHashPool b => [b]
  | .atJobs b _ => [b]
  | _ => []

/-- The input buffers a hasher holds. -/
def Hasher.buffers : Hasher → List Buf
  | .atDigest job => [job.buffer]
  | .atRelease b => [b]
  | _ => []

/-- The job a hasher holds. -/
def Hasher.jobs : Hasher → List job_t
  | .atDigest job => [job]
  | _ => []

/-- The result the result writer holds. -/
def ResultWriter.results : ResultWriter → List result_t
  | .atWrite r => [r]
  | _ => []

/-- Input buffers in the job queue. -/
def State.queuedBuffers (s : State) : List Buf := s.m_jobs.map job_t.buffer

/-- Input buffers in the hands of the hashers. -/
def State.hasherBuffers (s : State) : List Buf := s.hashers.flatMap Hasher.buffers

/-- Jobs in the hands of the hashers. -/
def State.hasherJobs (s : State) : List job_t := s.hashers.flatMap Hasher.jobs

/-- Number of input buffers `launch` allocates (line 221). -/
def Plan.bufferCount (p : Plan) : Nat := p.hasherThreadCount * 2 % U32

/-- The ranges of the machine types of the arguments and of the environment. -/
structure Env.WellFormed (env : Env) : Prop where
  blockSize_lt : env.blockSize < U32
  input_lt : ∀ input, env.input = some input → input.length < U64
  crc32_size : ∀ x, (env.crc32.CalculateDigest x).length = env.crc32.DIGESTSIZE
  md5_size : ∀ x, (env.md5.CalculateDigest x).length = env.md5.DIGESTSIZE
  crc32_lt : env.crc32.DIGESTSIZE < U32
  md5_lt : env.md5.DIGESTSIZE < U32
  threads_lt : env.hardware_concurrency * 2 < U32

/-- What `validate` establishes about the plan of a well-formed call. -/
structure Plan.Valid (p : Plan) (input : List Byte) : Prop where
  inputSize_eq : p.inputSize = input.length
  inputSize_pos : 0 < p.inputSize
  inputSize_lt : p.inputSize < U64
  blockSize_pos : 0 < p.blockSize
  blockSize_lt : p.blockSize < U32
  blockCount_eq : p.blockCount = VeeamTestTask.blockCount p.inputSize p.blockSize
  digest_size : ∀ x, (p.hasher.CalculateDigest x).length = p.digestSize
  digestSize_lt : p.digestSize < U32
  digestSize_pos : 0 < p.digestSize
  threads_pos : 0 < p.hasherThreadCount
  threads_lt : p.hasherThreadCount * 2 < U32

/-- The loop variables of the producer and the data in flight. -/
structure ProducerInv (p : Plan) (input : List Byte) (s : State) : Prop where
  file_eq : s.reader.file = input
  inLoop : match s.producer with
    | .atJoin => s.blockNumber = p.blockCount
    | .returned => s.blockNumber = p.blockCount
    | .thrown _ => s.blockNumber ≤ p.blockCount
    | _ => s.blockNumber < p.blockCount
  bytes : s.blockNumber < p.blockCount →
    s.bytesToRead = p.inputSize - s.blockNumber * p.blockSize
  pos : (s.producer = .atBufferPool ∨ ∃ b, s.producer = .atRead b) →
    s.reader.pos = s.blockNumber * p.blockSize
  size : s.blockNumber < p.blockCount →
    ∀ b, b ∈ s.m_memoryBufferPool ∨ b ∈ s.queuedBuffers ∨ b ∈ s.hasherBuffers →
      b.data.length = p.blockSize
  sizeRead : ∀ b, s.producer = .atRead b → b.data.length = p.blockSize
  held : ∀ b, (s.producer = .atHashPool b ∨ ∃ h, s.producer = .atJobs b h) →
    b.data = chunk input p.blockSize s.blockNumber ∧
      s.reader.pos = s.blockNumber * p.blockSize + b.data.length
  jobs : ∀ j, j ∈ s.m_jobs ∨ j ∈ s.hasherJobs →
    j.buffer.data = chunk input p.blockSize j.blockNumber ∧ j.blockNumber < s.blockNumber
  results : ∀ r, r ∈ s.m_results ∨ r ∈ s.resultWriter.results →
    r.1 = p.hasher.CalculateDigest (chunk input p.blockSize r.2) ∧ r.2 < s.blockNumber

/-- Block numbers of the jobs and results in flight, and of the digests written. -/
def State.blockNumbers (s : State) : List Nat :=
  s.m_jobs.map job_t.blockNumber ++ s.hasherJobs.map job_t.blockNumber ++
    s.m_results.map Prod.snd ++ s.resultWriter.results.map Prod.snd ++ s.written

/-- Every input buffer, wherever it is. -/
def State.allBuffers (s : State) : List Buf :=
  s.m_memoryBufferPool ++ s.producer.buffers ++ s.queuedBuffers ++ s.hasherBuffers

/-- While the failure flag is unset, every block enqueued so far is in flight or written,
once, and the result writer counts the blocks still to write. -/
structure FlowInv (p : Plan) (s : State) : Prop where
  blocks : s.m_badFlag = false →
    ∀ k, List.count k s.blockNumbers = if k < s.blockNumber then 1 else 0
  toWrite : s.m_badFlag = false → s.written.length + s.blocksToWrite = p.blockCount
  live : s.m_badFlag = false → (s.resultWriter = .exited ↔ s.blocksToWrite = 0)

/-- The job queue is first-in first-out and `m_blocksToHash` counts the jobs not yet dequeued. -/
structure QueueInv (p : Plan) (s : State) : Prop where
  order : s.dequeued ++ s.m_jobs.map job_t.blockNumber = List.range s.blockNumber
  toHash : s.m_blocksToHash + s.dequeued.length = p.blockCount

/-- Every allocated input buffer is in one place: pool, producer, queue, a hasher, or freed. -/
structure BufferInv (p : Plan) (s : State) : Prop where
  ids : ∀ i, List.count i ((s.allBuffers ++ s.freed).map Buf.id)
    = if i < p.bufferCount then 1 else 0
  threads : s.hashers.length = p.hasherThreadCount

/-- The bytes `writeHeader` emits for the header of the plan. -/
def Plan.headerBytes (p : Plan) : List Byte :=
  rawBytes 4 0x53464D56 ++ rawBytes 2 1 ++ rawBytes 2 (p.id % 65536) ++
    rawBytes 8 p.inputSize ++ rawBytes 4 p.blockSize ++
    rawBytes 4 0 ++ rawBytes 4 0 ++ rawBytes 4 0

/-- The digest record of block `b`. -/
def Plan.digest (p : Plan) (input : List Byte) (b : Nat) : List Byte :=
  p.hasher.CalculateDigest (chunk input p.blockSize b)

/-- The offsets of the digest records do not wrap around in 64 bits. -/
def Plan.NoWrap (p : Plan) : Prop :=
  SignatureHeaderTraits.size + p.digestSize * p.blockCount < U64

/-- File `f` is the signature of `input` under plan `p`: length, header, digest records. -/
def IsSignature (p : Plan) (input : List Byte) (f : List Byte) : Prop :=
  f.length = SignatureHeaderTraits.size + p.digestSize * p.blockCount ∧
  segment f 0 SignatureHeaderTraits.size = p.headerBytes ∧
  ∀ b, b < p.blockCount →
    segment f (SignatureHeaderTraits.size + p.digestSize * b) p.digestSize = p.digest input b

/-- File `f` has the length of the signature and holds the digest records of `input`. -/
def HasDigests (p : Plan) (input : List Byte) (f : List Byte) : Prop :=
  f.length = SignatureHeaderTraits.size + p.digestSize * p.blockCount ∧
  ∀ b, b < p.blockCount →
    segment f (SignatureHeaderTraits.size + p.digestSize * b) p.digestSize = p.digest input b

/-- The output file during the run. -/
structure FileInv (p : Plan) (input : List Byte) (s : State) : Prop where
  gone : ∀ e, s.producer = .thrown e → s.writer = none ∧ s.m_badFlag = true
  alive : (∀ e, s.producer ≠ .thrown e) → ∃ w, s.writer = some w
  seekable : ∀ k, k ∈ s.written →
    OutputFileWriter.hashOffset p.digestSize k < streamoffLimit ∧ k < p.blockCount
  content : p.NoWrap → ∀ w, s.writer = some w → s.producer ≠ .returned →
    w.m_isFinalized = false ∧
    w.m_ofs.file.length ≤ SignatureHeaderTraits.size + p.digestSize * p.blockCount ∧
    ∀ k, k ∈ s.written →
      (0 < p.digestSize →
        SignatureHeaderTraits.size + p.digestSize * (k + 1) ≤ w.m_ofs.file.length) ∧
      segment w.m_ofs.file (SignatureHeaderTraits.size + p.digestSize * k) p.digestSize
        = p.digest input k
  final : s.producer = .returned →
    s.m_badFlag = false ∧ s.workersDone = true ∧
      ∃ w, s.writer = some w ∧ w.m_isFinalized = true ∧ IsSignature p input w.m_ofs.file

/-- The actions in which a worker thread sets the failure flag (lines 378 and 421). -/
def Action.isWorkerFault : Action → Bool
  | .digestFail _ => true
  | .wwriteFail => true
  | _ => false

/-- The actions in which a step of the producer itself throws and `launch` raises its
exception. -/
def Action.isProducerFault : Action → Bool
  | .readFail => true
  | .headerFail => true
  | _ => false

/-- Steps the producer still has to take, counting for each block not yet enqueued the steps
of the workers on it. -/
def Producer.weight (blockCount blockNumber : Nat) : Producer → Nat
  | .atBufferPool => 9 * (blockCount - blockNumber) + 1
  | .atRead _ => 9 * (blockCount - blockNumber)
  | .atHashPool _ => 9 * (blockCount - blockNumber) - 1
  | .atJobs _ _ => 9 * (blockCount - blockNumber) - 2
  | .atJoin => 1
  | _ => 0

/-- Steps a hasher still has to take on what it holds, and its exit. -/
def Hasher.weight : Hasher → Nat
  | .atJobs => 1
  | .atDigest _ => 5
  | .atRelease _ => 2
  | .exited => 0

/-- Steps the result writer still has to take on what it holds, and its exit. -/
def ResultWriter.weight : ResultWriter → Nat
  | .atResults => 1
  | .atWrite _ => 2
  | .exited => 0

/-- A bound on the number of steps the threads can still take from `s`. -/
def State.load (p : Plan) (s : State) : Nat :=
  s.producer.weight p.blockCount s.blockNumber + 5 * s.m_jobs.length
    + (s.hashers.map Hasher.weight).sum + 2 * s.m_results.length + s.resultWriter.weight

/-- A bound on the number of steps left in any run from `s`, the end of the process
included. -/
def State.weight (p : Plan) (s : State) : Nat :=
  if s.aborted then 0 else s.load p + 1

/-- While the flag is unset, a hasher has returned only after the last job was dequeued. -/
def ExitInv (s : State) : Prop :=
  s.m_badFlag = false → Hasher.exited ∈ s.hashers → s.m_blocksToHash = 0

/-- Before `launch` returns the writer is not finalised, and no write has touched the header
range `[0, 32)`: what the file holds there is the zero bytes of a gap. -/
structure WriterInv (p : Plan) (s : State) : Prop where
  unfinalized : ∀ w, s.writer = some w → s.producer ≠ .returned → w.m_isFinalized = false
  gap : p.NoWrap → ∀ w, s.writer = some w → s.producer ≠ .returned →
    ∀ i, i < SignatureHeaderTraits.size → w.m_ofs.file.getD i 0 = 0

/-- Everything that holds in every state of a run of a valid plan. -/
structure Inv (p : Plan) (input : List Byte) (s : State) : Prop where
  producer : ProducerInv p input s
  flow : FlowInv p s
  queue : QueueInv p s
  buffer : BufferInv p s
  file : FileInv p input s
  freed : s.m_badFlag = false → s.freed = []
  exit : ExitInv s
  writer : WriterInv p s
  abort : s.aborted = true → s.mayThrow = true

/-- Applying `writeHash` to a list of results in order, as the loop of `runResultWriter` does;
`none` as soon as one seek fails. -/
def OutputFileWriter.writeHashes (w : OutputFileWriter) :
    List result_t → Option OutputFileWriter
  | [] => some w
  | r :: rest =>
      match w.writeHash r.2 r.1 with
      | none => none
      | some w1 => w1.writeHashes rest

/-- The fresh writer the constructor returns when no step of it fails. -/
def OutputFileWriter.fresh : OutputFileWriter :=
  { m_ofs := { file := [], pos := 0 }, m_isFinalized := false }

/-- The block whose digest is computed when action `a` is taken in `s` (line 359): at
`publish i`, the block of the job hasher `i` holds. -/
def hashedAt (a : Action) (s : State) : List Nat :=
  match a with
  | .publish i =>
      match s.hashers[i]? with
      | some (.atDigest job) => [job.blockNumber]
      | _ => []
  | _ => []

/-- The result the result writer takes off the queue when action `a` is taken in `s`
(lines 404-405): at `wtake` with the flag unset, the first result queued. -/
def receivedAt (a : Action) (s : State) : List result_t :=
  match a with
  | .wtake =>
      match s.resultWriter with
      | .atResults => if s.m_badFlag then [] else s.m_results.head?.toList
      | _ => []
  | _ => []

/-- What the steps of a schedule run from `s` yield under `f`, in order. -/
def observe {α : Type} (p : Plan) (f : Action → State → List α) :
    List Action → State → List α
  | [], _ => []
  | a :: rest, s =>
      match step p a s with
      | none => []
      | some s1 => f a s ++ observe p f rest s1

/-- The block numbers hashed along a run, in order. -/
def hashed (p : Plan) (sched : List Action) (s : State) : List Nat :=
  observe p hashedAt sched s

/-- The results the result writer received along a run, in order. -/
def received (p : Plan) (sched : List Action) (s : State) : List result_t :=
  observe p receivedAt sched s

/-! ## A worked call: a 10-byte input, block size 4, one hardware thread -/

/-- A 4-byte checksum standing in for the CRC32 class. -/
def sampleHash : HashAlgorithm :=
  { DIGESTSIZE := 4, CalculateDigest := fun bs => [bs.sum % 256, bs.length % 256, 7, 9],
    DIGESTSIZE_pos := by decide }

/-- A 16-byte digest standing in for the MD5 class. -/
def sampleHash16 : HashAlgorithm :=
  { DIGESTSIZE := 16,
    CalculateDigest := fun bs => bs.sum % 256 :: bs.length % 256 :: List.replicate 14 0,
    DIGESTSIZE_pos := by decide }

/-- The 10-byte input. -/
def sampleInput : List Byte := [1, 2, 3, 4, 5, 6, 7, 8, 9, 10]

/-- The call `launch(in, out, 4, CRC32)` on the 10-byte input, no output file yet. -/
def sampleEnv : Env :=
  { input := some sampleInput, output := none, blockSize := 4, id := 0,
    crc32 := sampleHash, md5 := sampleHash16, hardware_concurrency := 1,
    ctorFault := none, allocFault := false }

/-- The plan `launch` computes for `sampleEnv`. -/
def samplePlan : Plan :=
  { inputSize := 10, blockSize := 4, id := 0, digestSize := 4, blockCount := 3,
    hasherThreadCount := 1, hasher := sampleHash }

/-- One block through producer, hasher and result writer. -/
def sampleBlock : List Action :=
  [.acquire, .read, .getHash, .enqueue, .take 0, .publish 0, .release 0, .wtake, .wwrite]

/-- A complete schedule for `sampleEnv`: the blocks one after the other, then the hasher
finds nothing left and the producer joins. -/
def sampleSchedule : List Action :=
  sampleBlock ++ sampleBlock ++ sampleBlock ++ [.take 0, .join]

/-- The signature file of the 10-byte input. -/
def sampleSignature : List Byte :=
  [86, 77, 70, 83, 1, 0, 0, 0, 10, 0, 0, 0, 0, 0, 0, 0, 4, 0, 0, 0, 0, 0, 0, 0, 0, 0, 0, 0,
   0, 0, 0, 0, 10, 4, 7, 9, 26, 4, 7, 9, 19, 2, 7, 9]

/-- The state `sampleSchedule` ends in. -/
def sampleFinal : State :=
  { m_memoryBufferPool := [⟨0, [0, 0, 0, 0]⟩, ⟨1, [9, 10]⟩],
    m_hashPool := [[0, 0, 0, 0], [19, 2, 7, 9]],
    m_jobs := [],
    m_results := [],
    m_badFlag := false,
    m_blocksToHash := 0,
    producer := .returned,
    blockNumber := 3,
    bytesToRead := 18446744073709551614,
    reader := { file := sampleInput, pos := 10 },
    writer := some { m_ofs := { file := sampleSignature, pos := 32 }, m_isFinalized := true },
    flushed := sampleSignature,
    aborted := false,
    hashers := [.exited],
    resultWriter := .exited,
    blocksToWrite := 0,
    freed := [],
    dequeued := [0, 1, 2],
    written := [0, 1, 2] }

/-- What the caller of the worked call observes. -/
def sampleOutcome : Outcome :=
  { result := .ok, output := some sampleSignature, writerConstructed := true,
    final := some sampleFinal }

/-- A complete schedule for `sampleEnv` in which the flush of the header fails when the
stream is destroyed. -/
def sampleFlushFailSchedule : List Action :=
  sampleBlock ++ sampleBlock ++ sampleBlock ++ [.take 0, .joinFlushFail]

/-- The file `sampleFlushFailSchedule` leaves: the three digest records behind 32 zero bytes. -/
def sampleHeaderless : List Byte :=
  List.replicate 32 0 ++ [10, 4, 7, 9, 26, 4, 7, 9, 19, 2, 7, 9]

/-- The state `sampleFlushFailSchedule` ends in. -/
def sampleFlushFailFinal : State := { sampleFinal with flushed := sampleHeaderless }

/-- What the caller observes after `sampleFlushFailSchedule`: a normal return. -/
def sampleFlushFailOutcome : Outcome :=
  { result := .ok, output := some sampleHeaderless, writerConstructed := true,
    final := some sampleFlushFailFinal }

/-- The worked call on a machine with two hardware threads. -/
def sampleEnv2 : Env := { sampleEnv with hardware_concurrency := 2 }

/-- A complete schedule for `sampleEnv2` in which block 1 is hashed and written before
block 0. -/
def sampleSchedule2 : List Action :=
  [.acquire, .read, .getHash, .enqueue, .acquire, .read, .getHash, .enqueue,
   .acquire, .read, .getHash, .enqueue,
   .take 0, .take 1, .publish 1, .publish 0, .release 0, .release 1,
   .take 1, .publish 1, .release 1,
   .wtake, .wwrite, .wtake, .wwrite, .wtake, .wwrite, .take 0, .take 1, .join]

/-- The three results of the worked call, in block order. -/
def sampleResults : List result_t := [([10, 4, 7, 9], 0), ([26, 4, 7, 9], 1), ([19, 2, 7, 9], 2)]

/-- The start of a run of the worked call: block 0 is with the hasher, the producer holds the
other buffer for block 1, the pool is empty. -/
def sampleMidSchedule : List Action :=
  [.acquire, .read, .getHash, .enqueue, .take 0, .acquire]

/-- The state `sampleMidSchedule` leads to. -/
def sampleMid : State :=
  { m_memoryBufferPool := [],
    m_hashPool := [[0, 0, 0, 0]],
    m_jobs := [],
    m_results := [],
    m_badFlag := false,
    m_blocksToHash := 2,
    producer := .atRead ⟨0, [0, 0, 0, 0]⟩,
    blockNumber := 1,
    bytesToRead := 6,
    reader := { file := sampleInput, pos := 4 },
    writer := some OutputFileWriter.fresh,
    flushed := [],
    aborted := false,
    hashers := [.atDigest ⟨⟨1, [1, 2, 3, 4]⟩, [0, 0, 0, 0], 0⟩],
    resultWriter := .atResults,
    blocksToWrite := 3,
    freed := [],
    dequeued := [0],
    written := [] }

/-- The state `sampleFailSchedule` ends in. -/
def sampleFailed : State :=
  { m_memoryBufferPool := [⟨0, [0, 0, 0, 0]⟩],
    m_hashPool := [[0, 0, 0, 0]],
    m_jobs := [],
    m_results := [],
    m_badFlag := true,
    m_blocksToHash := 2,
    producer := .thrown (.runtime_error workerErrorMessage),
    blockNumber := 1,
    bytesToRead := 6,
    reader := { file := sampleInput, pos := 4 },
    writer := none,
    flushed := [],
    aborted := false,
    hashers := [.exited],
    resultWriter := .exited,
    blocksToWrite := 3,
    freed := [⟨1, [1, 2, 3, 4]⟩],
    dequeued := [0],
    written := [] }

/-- The plan `launch` computes for `sampleEnv2`. -/
def samplePlan2 : Plan := { samplePlan with hasherThreadCount := 2 }

/-- The state `sampleSchedule2` ends in. -/
def sampleFinal2 : State :=
  { m_memoryBufferPool :=
      [⟨0, [0, 0, 0, 0]⟩, ⟨3, [1, 2, 3, 4]⟩, ⟨2, [5, 6, 7, 8]⟩, ⟨1, [9, 10]⟩],
    m_hashPool := [[0, 0, 0, 0], [26, 4, 7, 9], [10, 4, 7, 9], [19, 2, 7, 9]],
    m_jobs := [],
    m_results := [],
    m_badFlag := false,
    m_blocksToHash := 0,
    producer := .returned,
    blockNumber := 3,
    bytesToRead := 18446744073709551614,
    reader := { file := sampleInput, pos := 10 },
    writer := some { m_ofs := { file := sampleSignature, pos := 32 }, m_isFinalized := true },
    flushed := sampleSignature,
    aborted := false,
    hashers := [.exited, .exited],
    resultWriter := .exited,
    blocksToWrite := 0,
    freed := [],
    dequeued := [0, 1, 2],
    written := [1, 0, 2] }

/-- The start of `sampleFailSchedule`, up to the failure of the hasher on block 0. -/
def sampleFlagSchedule : List Action :=
  [.acquire, .read, .getHash, .enqueue, .take 0, .digestFail 0]

/-- The state `sampleFlagSchedule` leads to: the flag is set, producer and result writer have
not seen it yet. -/
def sampleFlagged : State :=
  { m_memoryBufferPool := [⟨0, [0, 0, 0, 0]⟩],
    m_hashPool := [[0, 0, 0, 0]],
    m_jobs := [],
    m_results := [],
    m_badFlag := true,
    m_blocksToHash := 2,
    producer := .atBufferPool,
    blockNumber := 1,
    bytesToRead := 6,
    reader := { file := sampleInput, pos := 4 },
    writer := some OutputFileWriter.fresh,
    flushed := [],
    aborted := false,
    hashers := [.exited],
    resultWriter := .atResults,
    blocksToWrite := 3,
    freed := [⟨1, [1, 2, 3, 4]⟩],
    dequeued := [0],
    written := [] }

/-- A run of the worked call in which the hasher fails on block 0, the producer sees the flag
when it asks for the next buffer, and `close()` throws in the destructor of the writer. -/
def sampleCloseFailSchedule : List Action := sampleFlagSchedule ++ [.closeFail]

/-- What is observed after `sampleCloseFailSchedule`: the process has ended and the empty
output file is still there. -/
def sampleCloseFailOutcome : Outcome :=
  { result := .terminate, output := some [], writerConstructed := true,
    final := some { sampleFlagged with aborted := true } }

end VeeamTestTask

/-! # Theorems -/

namespace VeeamTestTask

/-! ## Bytes, files and the block plan -/

theorem length_vresize (v : List Byte) (n : Nat) : (vresize v n).length = n := by
  simp [vresize]; omega

theorem length_rawBytes (w v : Nat) : (rawBytes w v).length = w := by
  simp [rawBytes]

theorem writeAt_nil (f : List Byte) (pos : Nat) : writeAt f pos [] = f := by
  simp [writeAt]

theorem length_writeAt (f : List Byte) (pos : Nat) (bs : List Byte) (hbs : bs ≠ []) :
    (writeAt f pos bs).length = max f.length (pos + bs.length) := by
  simp [writeAt, hbs]; omega

theorem length_writeAt_le (f : List Byte) (pos : Nat) (bs : List Byte) :
    f.length ≤ (writeAt f pos bs).length ∧
      (writeAt f pos bs).length ≤ max f.length (pos + bs.length) := by
  by_cases hbs : bs = []
  · subst hbs; rw [writeAt_nil]; omega
  · rw [length_writeAt f pos bs hbs]; omega

theorem getElem?_writeAt (f : List Byte) (pos : Nat) (bs : List Byte) (i : Nat)
    (hbs : bs ≠ []) :
    (writeAt f pos bs)[i]? =
      if i < pos then (if i < f.length then f[i]? else some 0)
      else if i < pos + bs.length then bs[i - pos]? else f[i]? := by
  unfold writeAt
  rw [if_neg hbs]
  by_cases h1 : i < pos
  · rw [List.append_assoc, List.getElem?_append_left (by simp; omega)]
    simp only [h1, if_true]
    rw [List.getElem?_take_of_lt h1]
    by_cases h2 : i < f.length
    · simp [h2, List.getElem?_append_left]
    · simp only [h2, if_false]
      rw [List.getElem?_append_right (by omega), List.getElem?_replicate]
      have : i - f.length < pos - f.length := by omega
      simp [this]
  · have hlen : ((f ++ List.replicate (pos - f.length) 0).take pos).length = pos := by
      simp; omega
    simp only [h1, if_false]
    rw [List.append_assoc, List.getElem?_append_right (by omega), hlen]
    by_cases h3 : i < pos + bs.length
    · simp only [h3, if_true]
      rw [List.getElem?_append_left (by omega)]
    · simp only [h3, if_false]
      rw [List.getElem?_append_right (by omega), List.getElem?_drop]
      congr 1; omega

theorem length_segment (f : List Byte) (off n : Nat) :
    (segment f off n).length = min n (f.length - off) := by
  simp [segment]

theorem getElem?_segment (f : List Byte) (off n i : Nat) :
    (segment f off n)[i]? = if i < n then f[off + i]? else none := by
  unfold segment
  by_cases h : i < n
  · simp [h, List.getElem?_take_of_lt, List.getElem?_drop]
  · simp [h, List.getElem?_take_eq_none (Nat.le_of_not_lt h)]

theorem segment_zero (f : List Byte) (off : Nat) : segment f off 0 = [] := by
  simp [segment]

theorem segment_writeAt_self (f : List Byte) (pos : Nat) (bs : List Byte) :
    segment (writeAt f pos bs) pos bs.length = bs := by
  by_cases hbs : bs = []
  · subst hbs; simp [segment]
  apply List.ext_getElem?
  intro i
  rw [getElem?_segment, getElem?_writeAt _ _ _ _ hbs]
  by_cases h : i < bs.length
  · simp [h]
  · simp [h]; omega

theorem segment_writeAt_disjoint (f : List Byte) (pos : Nat) (bs : List Byte) (off n : Nat)
    (hd : off + n ≤ pos ∨ pos + bs.length ≤ off) (hlen : off + n ≤ f.length) :
    segment (writeAt f pos bs) off n = segment f off n := by
  by_cases hbs : bs = []
  · subst hbs; rw [writeAt_nil]
  apply List.ext_getElem?
  intro i
  rw [getElem?_segment, getElem?_segment, getElem?_writeAt _ _ _ _ hbs]
  by_cases h : i < n
  · simp only [h, if_true]
    rcases hd with hd | hd
    · have h1 : off + i < pos := by omega
      have h2 : off + i < f.length := by omega
      simp [h1, h2]
    · have h1 : ¬ off + i < pos := by omega
      have h2 : ¬ off + i < pos + bs.length := by omega
      simp [h1, h2]
  · simp [h]

theorem blockCount_spec (n b : Nat) (hb : 0 < b) (hn : 0 < n) (hn64 : n < U64) :
    0 < blockCount n b ∧ (blockCount n b - 1) * b < n ∧ n ≤ blockCount n b * b ∧
      blockCount n b ≤ n := by
  have h1 := Nat.div_add_mod n b
  have h2 := Nat.mod_lt n hb
  have h3 : n / b ≤ n := Nat.div_le_self n b
  have h4 : b * (n / b) = (n / b) * b := Nat.mul_comm _ _
  have h5 : n / b ≤ n / b * b := Nat.le_mul_of_pos_right _ hb
  unfold blockCount U64 at *
  generalize n / b = q at *
  generalize n % b = r at *
  by_cases hr : r > 0
  · simp only [hr, if_true]
    rw [Nat.mod_eq_of_lt (by omega)]
    refine ⟨by omega, ?_, ?_, by omega⟩
    · simp only [Nat.add_sub_cancel]; omega
    · rw [Nat.add_mul]; omega
  · have hr0 : r = 0 := by omega
    simp only [hr, if_false, Nat.add_zero]
    rw [Nat.mod_eq_of_lt (by omega)]
    have hq : 0 < q := by
      rcases Nat.eq_zero_or_pos q with h | h
      · rw [h] at h1; omega
      · exact h
    refine ⟨hq, ?_, by omega, h3⟩
    have : (q - 1) * b + b = q * b := by
      rw [← Nat.succ_mul]; congr 1; omega
    omega

theorem blockCount_eq_ceil (n b : Nat) (hb : 0 < b) (hn : 0 < n) (hn64 : n < U64) :
    blockCount n b = ⌈(n : ℚ) / (b : ℚ)⌉₊ := by
  obtain ⟨h0, h1, h2, _⟩ := blockCount_spec n b hb hn hn64
  symm
  rw [Nat.ceil_eq_iff (by omega)]
  have hbq : (0 : ℚ) < b := by exact_mod_cast hb
  constructor
  · rw [lt_div_iff₀ hbq]
    exact_mod_cast h1
  · rw [div_le_iff₀ hbq]
    exact_mod_cast h2

theorem length_chunk (input : List Byte) (bs k : Nat) :
    (chunk input bs k).length = min bs (input.length - k * bs) := by
  simp [chunk]

/-! ## Lists of thread states -/

theorem mem_flatMap_set {α β : Type} {l : List α} {i : Nat} {x : α} {f : α → List β} {b : β}
    (h : b ∈ (l.set i x).flatMap f) : b ∈ f x ∨ b ∈ l.flatMap f := by
  rw [List.mem_flatMap] at h
  obtain ⟨a, ha, hb⟩ := h
  rcases List.mem_or_eq_of_mem_set ha with h1 | h1
  · exact Or.inr (List.mem_flatMap.mpr ⟨a, h1, hb⟩)
  · exact Or.inl (h1 ▸ hb)

theorem mem_flatMap_of_getElem? {α β : Type} {l : List α} {i : Nat} {x : α} {f : α → List β}
    {b : β} (h : l[i]? = some x) (hb : b ∈ f x) : b ∈ l.flatMap f :=
  List.mem_flatMap.mpr ⟨x, List.getElem?_mem h, hb⟩

theorem count_flatMap_set {α β : Type} [DecidableEq β] (f : α → List β) (b : β) (new : α) :
    ∀ (l : List α) (i : Nat) (old : α), l[i]? = some old →
      List.count b ((l.set i new).flatMap f) + List.count b (f old)
        = List.count b (l.flatMap f) + List.count b (f new)
  | [], i, old, h => by simp at h
  | x :: l, 0, old, h => by
      simp only [List.getElem?_cons_zero, Option.some.injEq] at h
      subst h
      simp only [List.set_cons_zero, List.flatMap_cons, List.count_append]
      omega
  | x :: l, i + 1, old, h => by
      simp only [List.getElem?_cons_succ] at h
      have ih := count_flatMap_set f b new l i old h
      simp only [List.set_cons_succ, List.flatMap_cons, List.count_append]
      omega

theorem count_range (k n : Nat) : List.count k (List.range n) = if k < n then 1 else 0 := by
  by_cases h : k < n
  · simp only [h, if_true]
    exact List.count_eq_one_of_mem (List.nodup_range n) (List.mem_range.mpr h)
  · simp only [h, if_false]
    exact List.count_eq_zero.mpr (fun hm => h (List.mem_range.mp hm))

/-! ## The step function and the step relation -/

theorem step_sound {p : Plan} {a : Action} {s t : State} (h : step p a s = some t) :
    Step p s a t := by
  unfold step at h
  split at h
  · contradiction
  rename_i hal
  have hl : s.aborted = false := Bool.eq_false_iff.mpr hal
  cases a <;> simp only [stepThread, stepProducer, stepHasher, stepResultWriter] at h
  case acquire =>
    split at h <;> try contradiction
    split at h
    · cases h; exact Step.acquireThrow s hl (by assumption) (by assumption)
    · split at h <;> try contradiction
      cases h; exact Step.acquire s hl _ (by assumption) (Bool.eq_false_iff.mpr (by assumption)) (by assumption)
  case read =>
    split at h <;> try contradiction
    split at h <;> try contradiction
    cases h; exact Step.read s hl _ _ _ (by assumption) (by assumption)
  case readFail =>
    split at h <;> try contradiction
    cases h; exact Step.readFail s hl _ (by assumption)
  case getHash =>
    split at h <;> try contradiction
    split at h
    · cases h; exact Step.getHashPooled s hl _ _ (by assumption) (by assumption)
    · cases h; exact Step.getHashFresh s hl _ (by assumption) (by assumption)
  case enqueue =>
    split at h <;> try contradiction
    cases h; exact Step.enqueue s hl _ _ (by assumption)
  case join =>
    split at h <;> try contradiction
    split at h <;> try contradiction
    split at h
    · cases h; exact Step.joinThrow s hl (by assumption) (by assumption) (by assumption)
    · split at h <;> try contradiction
      split at h <;> try contradiction
      cases h; exact Step.joinReturn s hl _ _ (by assumption) (by assumption) (Bool.eq_false_iff.mpr (by assumption)) (by assumption) (by assumption)
  case headerFail =>
    split at h <;> try contradiction
    split at h <;> try contradiction
    rename_i hc
    simp only [Bool.and_eq_true, Bool.not_eq_true'] at hc
    cases h; exact Step.headerFail s hl (by assumption) hc.1 hc.2
  case joinFlushFail =>
    split at h <;> try contradiction
    split at h <;> try contradiction
    rename_i hc
    simp only [Bool.and_eq_true, Bool.not_eq_true'] at hc
    split at h <;> try contradiction
    split at h <;> try contradiction
    cases h; exact Step.joinFlushFail s hl _ _ (by assumption) hc.1 hc.2 (by assumption) (by assumption)
  case closeFail =>
    split at h <;> try contradiction
    cases h; exact Step.closeFail s hl (by assumption)
  case take i =>
    split at h <;> try contradiction
    split at h
    · cases h; exact Step.takeFlag s hl i (by assumption) (by assumption)
    · split at h
      · split at h <;> try contradiction
        cases h; exact Step.takeNone s hl i (by assumption) (Bool.eq_false_iff.mpr (by assumption)) (by assumption) (by assumption)
      · cases h; exact Step.take s hl i _ _ (by assumption) (Bool.eq_false_iff.mpr (by assumption)) (by assumption)
  case publish i =>
    split at h <;> try contradiction
    cases h; exact Step.publish s hl i _ (by assumption)
  case digestFail i =>
    split at h <;> try contradiction
    cases h; exact Step.digestFail s hl i _ (by assumption)
  case release i =>
    split at h <;> try contradiction
    cases h; exact Step.release s hl i _ (by assumption)
  case wtake =>
    split at h <;> try contradiction
    split at h
    · cases h; exact Step.wtakeFlag s hl (by assumption) (by assumption)
    · split at h <;> try contradiction
      cases h; exact Step.wtake s hl _ _ (by assumption) (Bool.eq_false_iff.mpr (by assumption)) (by assumption)
  case wwrite =>
    split at h <;> try contradiction
    split at h <;> try contradiction
    split at h <;> try contradiction
    cases h; exact Step.wwrite s hl _ _ _ (by assumption) (by assumption) (by assumption)
  case wwriteFail =>
    split at h <;> try contradiction
    cases h; exact Step.wwriteFail s hl _ (by assumption)


/-! ## The producer invariant -/

theorem Plan.Valid.blockCount_pos {p : Plan} {input : List Byte} (hv : p.Valid input) :
    0 < p.blockCount := by
  rw [hv.blockCount_eq]
  exact (blockCount_spec _ _ hv.blockSize_pos hv.inputSize_pos hv.inputSize_lt).1

theorem Plan.Valid.blockCount_le {p : Plan} {input : List Byte} (hv : p.Valid input) :
    p.blockCount ≤ p.inputSize := by
  rw [hv.blockCount_eq]
  exact (blockCount_spec _ _ hv.blockSize_pos hv.inputSize_pos hv.inputSize_lt).2.2.2

theorem Plan.Valid.offset_lt {p : Plan} {input : List Byte} (hv : p.Valid input) {k : Nat}
    (hk : k < p.blockCount) : k * p.blockSize < p.inputSize := by
  have h := (blockCount_spec _ _ hv.blockSize_pos hv.inputSize_pos hv.inputSize_lt).2.1
  rw [← hv.blockCount_eq] at h
  have : k * p.blockSize ≤ (p.blockCount - 1) * p.blockSize :=
    Nat.mul_le_mul_right _ (by omega)
  omega

theorem Plan.Valid.cover {p : Plan} {input : List Byte} (hv : p.Valid input) :
    p.inputSize ≤ p.blockCount * p.blockSize := by
  have h := (blockCount_spec _ _ hv.blockSize_pos hv.inputSize_pos hv.inputSize_lt).2.2.1
  rwa [← hv.blockCount_eq] at h

/-- Reading block `k` with a pooled buffer succeeds and yields exactly block `k` of the input. -/
theorem readNextChunk_chunk (r : InputFileReader) (input buffer : List Byte) (bs k : Nat)
    (hfile : r.file = input) (hpos : r.pos = k * bs) (hbuf : buffer.length = bs)
    (hk : k * bs < input.length) :
    r.readNextChunk (trimBuffer buffer (input.length - k * bs) bs)
      = some ({ r with pos := k * bs + (chunk input bs k).length }, chunk input bs k) := by
  have hlen : (trimBuffer buffer (input.length - k * bs) bs).length
      = min bs (input.length - k * bs) := by
    unfold trimBuffer
    split
    · rw [length_vresize]; omega
    · omega
  unfold InputFileReader.readNextChunk
  rw [hlen, hfile, hpos, if_pos (by omega), length_chunk]
  congr 2
  unfold chunk
  rw [List.take_eq_take]
  simp only [List.length_drop]
  omega

theorem producerInv_step {p : Plan} {input : List Byte} {s t : State} {a : Action}
    (hv : p.Valid input) (hi : ProducerInv p input s) (h : Step p s a t) :
    ProducerInv p input t := by
  obtain ⟨hfile, hloop, hbytes, hpos, hsize, hsr, hheld, hjobs, hres⟩ := hi
  cases h
  case acquireThrow hp hf =>
    rw [hp] at hloop
    exact ⟨hfile, by simpa using Nat.le_of_lt hloop, hbytes, by simp, hsize, by simp,
      by simp, hjobs, hres⟩
  case acquire buffer hp hf hb =>
    rw [hp] at hloop
    have hmem : buffer ∈ s.m_memoryBufferPool := List.mem_of_getLast?_eq_some hb
    refine ⟨hfile, by simpa using hloop, hbytes, fun _ => hpos (Or.inl hp), ?_, ?_, by simp,
      hjobs, hres⟩
    · intro hlt b hb
      rcases hb with hb | hb
      · exact hsize hlt b (Or.inl (List.mem_of_mem_dropLast hb))
      · exact hsize hlt b (Or.inr hb)
    · intro b hb
      simp only [Producer.atRead.injEq] at hb
      subst hb
      exact hsize hloop _ (Or.inl hmem)
  case read buffer r d hp hr =>
    rw [hp] at hloop
    have hb := hbytes hloop
    have hk := hv.offset_lt hloop
    rw [hv.inputSize_eq] at hb hk
    have h1 := readNextChunk_chunk s.reader input buffer.data p.blockSize s.blockNumber hfile
      (hpos (Or.inr ⟨_, hp⟩)) (hsr _ hp) hk
    rw [← hb, hr] at h1
    simp only [Option.some.injEq, Prod.mk.injEq] at h1
    obtain ⟨h1, h2⟩ := h1
    subst h1 h2
    refine ⟨hfile, by simpa using hloop, hbytes, by simp, hsize, by simp, ?_, hjobs, hres⟩
    intro b hb
    simp only [Producer.atHashPool.injEq, false_and, exists_false, or_false, reduceCtorEq] at hb
    subst hb
    exact ⟨rfl, rfl⟩
  case readFail buffer hp =>
    rw [hp] at hloop
    exact ⟨hfile, by simpa using Nat.le_of_lt hloop, hbytes, by simp, hsize, by simp,
      by simp, hjobs, hres⟩
  case getHashPooled buffer hash hp hh =>
    rw [hp] at hloop
    refine ⟨hfile, by simpa using hloop, hbytes, by simp, hsize, by simp, ?_, hjobs, hres⟩
    intro b hb
    simp only [Producer.atJobs.injEq, reduceCtorEq, false_or] at hb
    obtain ⟨_, hb, _⟩ := hb
    subst hb
    exact hheld _ (Or.inl hp)
  case getHashFresh buffer hp hh =>
    rw [hp] at hloop
    refine ⟨hfile, by simpa using hloop, hbytes, by simp, hsize, by simp, ?_, hjobs, hres⟩
    intro b hb
    simp only [Producer.atJobs.injEq, reduceCtorEq, false_or] at hb
    obtain ⟨_, hb, _⟩ := hb
    subst hb
    exact hheld _ (Or.inl hp)
  case enqueue buffer hash hp =>
    rw [hp] at hloop
    simp only at hloop
    obtain ⟨hdata, hrpos⟩ := hheld buffer (Or.inr ⟨_, hp⟩)
    have hle := hv.blockCount_le
    have hlt64 := hv.inputSize_lt
    have hnext : (s.blockNumber + 1) % U64 = s.blockNumber + 1 :=
      Nat.mod_eq_of_lt (by omega)
    have hb := hbytes hloop
    have hfull : s.blockNumber + 1 < p.blockCount →
        (s.blockNumber + 1) * p.blockSize < p.inputSize := fun h => hv.offset_lt h
    have hsucc : (s.blockNumber + 1) * p.blockSize = s.blockNumber * p.blockSize + p.blockSize :=
      Nat.succ_mul _ _
    have hlen : s.blockNumber + 1 < p.blockCount → buffer.data.length = p.blockSize := by
      intro h
      have := hfull h
      rw [hdata, length_chunk, ← hv.inputSize_eq]
      omega
    have hjobs1 : ∀ j, j ∈ s.m_jobs ++ [⟨buffer, hash, s.blockNumber⟩] ∨ j ∈ s.hasherJobs →
        j.buffer.data = chunk input p.blockSize j.blockNumber ∧
          j.blockNumber < s.blockNumber + 1 := by
      intro j hj
      rcases hj with hj | hj
      · simp only [List.mem_append, List.mem_singleton] at hj
        rcases hj with hj | hj
        · have := hjobs j (Or.inl hj)
          exact ⟨this.1, by omega⟩
        · subst hj
          exact ⟨hdata, by simp⟩
      · have := hjobs j (Or.inr hj)
        exact ⟨this.1, by omega⟩
    have hres1 : ∀ r, r ∈ s.m_results ∨ r ∈ s.resultWriter.results →
        r.1 = p.hasher.CalculateDigest (chunk input p.blockSize r.2) ∧
          r.2 < s.blockNumber + 1 := by
      intro r hr
      have := hres r hr
      exact ⟨this.1, by omega⟩
    by_cases hc : s.blockNumber + 1 < p.blockCount
    · have hf := hfull hc
      have hbl := hv.blockSize_lt
      refine ⟨hfile, ?_, ?_, ?_, ?_, ?_, ?_, ?_, ?_⟩
      · simp only [hnext, hc, if_true]
      · simp only [hnext]
        intro _
        unfold nextBytesToRead
        rw [hb, hsucc]
        rw [hsucc] at hf
        generalize s.blockNumber * p.blockSize = m at *
        unfold U32 U64 at *
        rw [Nat.mod_eq_of_lt (a := p.blockSize) (by omega)]
        omega
      · simp only [hnext]
        intro _
        rw [hrpos, hlen hc, hsucc]
      · simp only [hnext]
        intro h b hb
        rcases hb with hb | hb | hb
        · exact hsize hloop b (Or.inl hb)
        · simp only [State.queuedBuffers, List.map_append, List.map_cons, List.map_nil,
            List.mem_append, List.mem_singleton] at hb
          rcases hb with hb | hb
          · exact hsize hloop b (Or.inr (Or.inl hb))
          · subst hb; exact hlen h
        · exact hsize hloop b (Or.inr (Or.inr hb))
      · simp only [hnext, hc, if_true]
        intro b hb
        simp at hb
      · simp only [hnext, hc, if_true]
        intro b hb
        simp at hb
      · simp only [hnext]
        exact hjobs1
      · simp only [hnext]
        exact hres1
    · refine ⟨hfile, ?_, ?_, ?_, ?_, ?_, ?_, ?_, ?_⟩
      · simp only [hnext, hc, if_false]
        omega
      · simp only [hnext]
        intro h
        exact absurd h hc
      · simp only [hnext, hc, if_false]
        intro h
        simp at h
      · simp only [hnext]
        intro h
        exact absurd h hc
      · simp only [hnext, hc, if_false]
        intro b hb
        simp at hb
      · simp only [hnext, hc, if_false]
        intro b hb
        simp at hb
      · simp only [hnext]
        exact hjobs1
      · simp only [hnext]
        exact hres1
  case joinThrow hp hw hf =>
    rw [hp] at hloop
    exact ⟨hfile, by simpa using Nat.le_of_eq hloop, hbytes, by simp, hsize, by simp,
      by simp, hjobs, hres⟩
  case joinReturn w w1 hp hw hf hwr hh =>
    rw [hp] at hloop
    exact ⟨hfile, by simpa using hloop, hbytes, by simp, hsize, by simp, by simp, hjobs, hres⟩
  case joinFlushFail w w1 hp hw hf hwr hh =>
    rw [hp] at hloop
    exact ⟨hfile, by simpa using hloop, hbytes, by simp, hsize, by simp, by simp, hjobs, hres⟩
  case closeFail ht =>
    exact ⟨hfile, hloop, hbytes, hpos, hsize, hsr, hheld, hjobs, hres⟩
  case headerFail hp hw hf =>
    rw [hp] at hloop
    exact ⟨hfile, by simpa using Nat.le_of_eq hloop, hbytes, by simp, hsize, by simp,
      by simp, hjobs, hres⟩
  case takeFlag i hh hf =>
    refine ⟨hfile, hloop, hbytes, hpos, ?_, hsr, hheld, ?_, hres⟩
    · intro hlt b hb
      rcases hb with hb | hb | hb
      · exact hsize hlt b (Or.inl hb)
      · exact hsize hlt b (Or.inr (Or.inl hb))
      · rcases mem_flatMap_set hb with h1 | h1
        · simp [Hasher.buffers] at h1
        · exact hsize hlt b (Or.inr (Or.inr h1))
    · intro j hj
      rcases hj with hj | hj
      · exact hjobs j (Or.inl hj)
      · rcases mem_flatMap_set hj with h1 | h1
        · simp [Hasher.jobs] at h1
        · exact hjobs j (Or.inr h1)
  case takeNone i hh hf hj hb =>
    refine ⟨hfile, hloop, hbytes, hpos, ?_, hsr, hheld, ?_, hres⟩
    · intro hlt b hb
      rcases hb with hb | hb | hb
      · exact hsize hlt b (Or.inl hb)
      · exact hsize hlt b (Or.inr (Or.inl hb))
      · rcases mem_flatMap_set hb with h1 | h1
        · simp [Hasher.buffers] at h1
        · exact hsize hlt b (Or.inr (Or.inr h1))
    · intro j hj
      rcases hj with hj | hj
      · exact hjobs j (Or.inl hj)
      · rcases mem_flatMap_set hj with h1 | h1
        · simp [Hasher.jobs] at h1
        · exact hjobs j (Or.inr h1)
  case take i job rest hh hf hj =>
    refine ⟨hfile, hloop, hbytes, hpos, ?_, hsr, hheld, ?_, hres⟩
    · intro hlt b hb
      rcases hb with hb | hb | hb
      · exact hsize hlt b (Or.inl hb)
      · refine hsize hlt b (Or.inr (Or.inl ?_))
        simp only [State.queuedBuffers, hj, List.map_cons, List.mem_cons] at hb ⊢
        exact Or.inr hb
      · rcases mem_flatMap_set hb with h1 | h1
        · simp only [Hasher.buffers, List.mem_singleton] at h1
          refine hsize hlt b (Or.inr (Or.inl ?_))
          simp only [State.queuedBuffers, hj, List.map_cons, List.mem_cons]
          exact Or.inl h1
        · exact hsize hlt b (Or.inr (Or.inr h1))
    · intro j hj1
      rcases hj1 with hj1 | hj1
      · exact hjobs j (Or.inl (by rw [hj]; exact List.mem_cons_of_mem _ hj1))
      · rcases mem_flatMap_set hj1 with h1 | h1
        · simp only [Hasher.jobs, List.mem_singleton] at h1
          exact hjobs j (Or.inl (by rw [hj, h1]; exact List.mem_cons_self _ _))
        · exact hjobs j (Or.inr h1)
  case publish i job hh =>
    have hjob : job ∈ s.hasherJobs :=
      mem_flatMap_of_getElem? hh (by simp [Hasher.jobs])
    have hbuf : job.buffer ∈ s.hasherBuffers :=
      mem_flatMap_of_getElem? hh (by simp [Hasher.buffers])
    refine ⟨hfile, hloop, hbytes, hpos, ?_, hsr, hheld, ?_, ?_⟩
    · intro hlt b hb
      rcases hb with hb | hb | hb
      · exact hsize hlt b (Or.inl hb)
      · exact hsize hlt b (Or.inr (Or.inl hb))
      · rcases mem_flatMap_set hb with h1 | h1
        · simp only [Hasher.buffers, List.mem_singleton] at h1
          exact hsize hlt b (Or.inr (Or.inr (h1 ▸ hbuf)))
        · exact hsize hlt b (Or.inr (Or.inr h1))
    · intro j hj
      rcases hj with hj | hj
      · exact hjobs j (Or.inl hj)
      · rcases mem_flatMap_set hj with h1 | h1
        · simp [Hasher.jobs] at h1
        · exact hjobs j (Or.inr h1)
    · intro r hr
      rcases hr with hr | hr
      · simp only [List.mem_append, List.mem_singleton] at hr
        rcases hr with hr | hr
        · exact hres r (Or.inl hr)
        · subst hr
          have := hjobs job (Or.inr hjob)
          exact ⟨by simp only [HashAlgorithm.createDigest, this.1], this.2⟩
      · exact hres r (Or.inr hr)
  case digestFail i job hh =>
    refine ⟨hfile, hloop, hbytes, hpos, ?_, hsr, hheld, ?_, hres⟩
    · intro hlt b hb
      rcases hb with hb | hb | hb
      · exact hsize hlt b (Or.inl hb)
      · exact hsize hlt b (Or.inr (Or.inl hb))
      · rcases mem_flatMap_set hb with h1 | h1
        · simp [Hasher.buffers] at h1
        · exact hsize hlt b (Or.inr (Or.inr h1))
    · intro j hj
      rcases hj with hj | hj
      · exact hjobs j (Or.inl hj)
      · rcases mem_flatMap_set hj with h1 | h1
        · simp [Hasher.jobs] at h1
        · exact hjobs j (Or.inr h1)
  case release i data hh =>
    have hbuf : data ∈ s.hasherBuffers :=
      mem_flatMap_of_getElem? hh (by simp [Hasher.buffers])
    refine ⟨hfile, hloop, hbytes, hpos, ?_, hsr, hheld, ?_, hres⟩
    · intro hlt b hb
      rcases hb with hb | hb | hb
      · simp only [List.mem_append, List.mem_singleton] at hb
        rcases hb with hb | hb
        · exact hsize hlt b (Or.inl hb)
        · exact hsize hlt b (Or.inr (Or.inr (hb ▸ hbuf)))
      · exact hsize hlt b (Or.inr (Or.inl hb))
      · rcases mem_flatMap_set hb with h1 | h1
        · simp [Hasher.buffers] at h1
        · exact hsize hlt b (Or.inr (Or.inr h1))
    · intro j hj
      rcases hj with hj | hj
      · exact hjobs j (Or.inl hj)
      · rcases mem_flatMap_set hj with h1 | h1
        · simp [Hasher.jobs] at h1
        · exact hjobs j (Or.inr h1)
  case wtakeFlag hr hf =>
    refine ⟨hfile, hloop, hbytes, hpos, hsize, hsr, hheld, hjobs, ?_⟩
    intro r hr1
    rcases hr1 with hr1 | hr1
    · exact hres r (Or.inl hr1)
    · simp [ResultWriter.results] at hr1
  case wtake result rest hr hf hq =>
    refine ⟨hfile, hloop, hbytes, hpos, hsize, hsr, hheld, hjobs, ?_⟩
    intro r hr1
    rcases hr1 with hr1 | hr1
    · exact hres r (Or.inl (by rw [hq]; exact List.mem_cons_of_mem _ hr1))
    · simp only [ResultWriter.results, List.mem_singleton] at hr1
      exact hres r (Or.inl (by rw [hq, hr1]; exact List.mem_cons_self _ _))
  case wwrite result w w1 hr hwr hh =>
    refine ⟨hfile, hloop, hbytes, hpos, hsize, hsr, hheld, hjobs, ?_⟩
    intro r hr1
    rcases hr1 with hr1 | hr1
    · exact hres r (Or.inl hr1)
    · split at hr1 <;> simp [ResultWriter.results] at hr1
  case wwriteFail result hr =>
    refine ⟨hfile, hloop, hbytes, hpos, hsize, hsr, hheld, hjobs, ?_⟩
    intro r hr1
    rcases hr1 with hr1 | hr1
    · exact hres r (Or.inl hr1)
    · simp [ResultWriter.results] at hr1

/-! ## The flow of block numbers -/

theorem resultWriter_results_atResults : ResultWriter.atResults.results = [] := rfl

theorem resultWriter_results_atWrite (r : result_t) :
    (ResultWriter.atWrite r).results = [r] := rfl

theorem resultWriter_results_exited : ResultWriter.exited.results = [] := rfl

theorem hasher_jobs_atJobs : Hasher.atJobs.jobs = [] := rfl

theorem hasher_jobs_atDigest (job : job_t) : (Hasher.atDigest job).jobs = [job] := rfl

theorem hasher_jobs_atRelease (b : Buf) : (Hasher.atRelease b).jobs = [] := rfl

theorem hasher_jobs_exited : Hasher.exited.jobs = [] := rfl

theorem hasher_buffers_atJobs : Hasher.atJobs.buffers = [] := rfl

theorem hasher_buffers_atDigest (job : job_t) :
    (Hasher.atDigest job).buffers = [job.buffer] := rfl

theorem hasher_buffers_atRelease (b : Buf) : (Hasher.atRelease b).buffers = [b] := rfl

theorem hasher_buffers_exited : Hasher.exited.buffers = [] := rfl

theorem count_blockNumbers (s : State) (k : Nat) :
    List.count k s.blockNumbers
      = List.count k (s.m_jobs.map job_t.blockNumber)
        + List.count k (s.hashers.flatMap (fun h => h.jobs.map job_t.blockNumber))
        + List.count k (s.m_results.map Prod.snd)
        + List.count k (s.resultWriter.results.map Prod.snd)
        + List.count k s.written := by
  simp only [State.blockNumbers, State.hasherJobs, List.count_append, List.map_flatMap]

theorem flowInv_step {p : Plan} {input : List Byte} {s t : State} {a : Action}
    (hv : p.Valid input) (hP : ProducerInv p input s) (hi : FlowInv p s) (h : Step p s a t) :
    FlowInv p t := by
  obtain ⟨hblocks, htw, hlive⟩ := hi
  have hset := fun (new : Hasher) (k : Nat) =>
    count_flatMap_set (fun h : Hasher => h.jobs.map job_t.blockNumber) k new s.hashers
  cases h
  case acquireThrow hp hf => exact ⟨fun h => by simp [hf] at h, fun h => by simp [hf] at h,
    fun h => by simp [hf] at h⟩
  case joinThrow hp hw hf => exact ⟨fun h => by simp [hf] at h, fun h => by simp [hf] at h,
    fun h => by simp [hf] at h⟩
  case takeFlag i hh hf => exact ⟨fun h => by simp [hf] at h, fun h => by simp [hf] at h,
    fun h => by simp [hf] at h⟩
  case wtakeFlag hr hf => exact ⟨fun h => by simp [hf] at h, fun h => by simp [hf] at h,
    fun h => by simp [hf] at h⟩
  case readFail => exact ⟨fun h => by simp at h, fun h => by simp at h, fun h => by simp at h⟩
  case headerFail => exact ⟨fun h => by simp at h, fun h => by simp at h, fun h => by simp at h⟩
  case digestFail => exact ⟨fun h => by simp at h, fun h => by simp at h, fun h => by simp at h⟩
  case wwriteFail => exact ⟨fun h => by simp at h, fun h => by simp at h, fun h => by simp at h⟩
  case acquire => exact ⟨hblocks, htw, hlive⟩
  case read => exact ⟨hblocks, htw, hlive⟩
  case getHashPooled => exact ⟨hblocks, htw, hlive⟩
  case getHashFresh => exact ⟨hblocks, htw, hlive⟩
  case joinReturn => exact ⟨hblocks, htw, hlive⟩
  case joinFlushFail => exact ⟨hblocks, htw, hlive⟩
  case closeFail => exact ⟨hblocks, htw, hlive⟩
  case enqueue buffer hash hp =>
    have hloop := hP.inLoop
    rw [hp] at hloop
    simp only at hloop
    have hle := hv.blockCount_le
    have hlt64 := hv.inputSize_lt
    have hnext : (s.blockNumber + 1) % U64 = s.blockNumber + 1 :=
      Nat.mod_eq_of_lt (by omega)
    refine ⟨?_, htw, hlive⟩
    intro hf k
    have h1 := hblocks hf k
    rw [count_blockNumbers] at h1 ⊢
    simp only [hnext, List.map_append, List.map_cons, List.map_nil, List.count_append,
      List.count_singleton] at h1 ⊢
    by_cases hk : s.blockNumber = k
    · simp only [hk, beq_self_eq_true, if_true] at h1 ⊢
      simp only [Nat.lt_irrefl, if_false] at h1
      simp only [Nat.lt_succ_self, if_true]
      omega
    · have hk1 : (s.blockNumber == k) = false := by simpa using hk
      simp only [hk1] at h1 ⊢
      by_cases hk2 : k < s.blockNumber
      · have : k < s.blockNumber + 1 := by omega
        simp only [hk2, this, if_true] at h1 ⊢
        simpa using h1
      · have : ¬ k < s.blockNumber + 1 := by omega
        simp only [hk2, this, if_false] at h1 ⊢
        simpa using h1
  case takeNone i hh hf hj hb =>
    refine ⟨?_, htw, hlive⟩
    intro hf1 k
    have h1 := hblocks hf1 k
    have h2 := hset .exited k i _ hh
    rw [count_blockNumbers] at h1 ⊢
    simp only [hasher_jobs_atJobs, hasher_jobs_atDigest, hasher_jobs_atRelease,
      hasher_jobs_exited, List.map_nil, List.count_nil] at h2
    simp only at h1 ⊢
    omega
  case take i job rest hh hf hj =>
    refine ⟨?_, htw, hlive⟩
    intro hf1 k
    have h1 := hblocks hf1 k
    have h2 := hset (.atDigest job) k i _ hh
    rw [count_blockNumbers] at h1 ⊢
    simp only [hasher_jobs_atJobs, hasher_jobs_atDigest, hasher_jobs_atRelease,
      hasher_jobs_exited, List.map_nil, List.count_nil, List.map_cons] at h2
    simp only [hj, List.map_cons, List.count_cons] at h1 ⊢
    simp only [List.count_cons, List.count_nil] at h2
    omega
  case publish i job hh =>
    refine ⟨?_, htw, hlive⟩
    intro hf1 k
    have h1 := hblocks hf1 k
    have h2 := hset (.atRelease job.buffer) k i _ hh
    rw [count_blockNumbers] at h1 ⊢
    simp only [hasher_jobs_atJobs, hasher_jobs_atDigest, hasher_jobs_atRelease,
      hasher_jobs_exited, List.map_nil, List.count_nil, List.map_cons] at h2
    simp only [List.map_append, List.map_cons, List.map_nil, List.count_append,
      List.count_cons, List.count_nil] at h1 h2 ⊢
    omega
  case release i data hh =>
    refine ⟨?_, htw, hlive⟩
    intro hf1 k
    have h1 := hblocks hf1 k
    have h2 := hset .atJobs k i _ hh
    rw [count_blockNumbers] at h1 ⊢
    simp only [hasher_jobs_atJobs, hasher_jobs_atDigest, hasher_jobs_atRelease,
      hasher_jobs_exited, List.map_nil, List.count_nil] at h2
    simp only at h1 ⊢
    omega
  case wtake result rest hr hf hq =>
    refine ⟨?_, htw, ?_⟩
    · intro hf1 k
      have h1 := hblocks hf1 k
      rw [count_blockNumbers] at h1 ⊢
      simp only [hq, hr, resultWriter_results_atWrite, resultWriter_results_atResults, List.map_cons, List.map_nil, List.count_cons,
        List.count_nil] at h1 ⊢
      omega
    · intro hf1
      have h1 := hlive hf1
      rw [hr] at h1
      simp only [reduceCtorEq, false_iff] at h1 ⊢
      exact h1
  case wwrite result w w1 hr hwr hh =>
    have hle := hv.blockCount_le
    have hlt64 := hv.inputSize_lt
    refine ⟨?_, ?_, ?_⟩
    · intro hf1 k
      have h1 := hblocks hf1 k
      rw [count_blockNumbers] at h1 ⊢
      have h3 : (if (s.blocksToWrite + U64 - 1) % U64 > 0 then ResultWriter.atResults
          else ResultWriter.exited).results = [] := by
        split <;> rfl
      simp only [hr, h3, resultWriter_results_atWrite, List.map_cons, List.map_nil, List.count_cons,
        List.count_nil, List.count_append] at h1 ⊢
      omega
    · intro hf1
      have h1 := htw hf1
      have h2 := hlive hf1
      rw [hr] at h2
      simp only [reduceCtorEq, false_iff] at h2
      simp only [List.length_append, List.length_singleton]
      unfold U64 at *
      omega
    · intro hf1
      have h1 := htw hf1
      have h2 := hlive hf1
      rw [hr] at h2
      simp only [reduceCtorEq, false_iff] at h2
      simp only
      split
      · rename_i hc
        simp only [reduceCtorEq, false_iff]
        omega
      · rename_i hc
        simp only [true_iff]
        omega

/-! ## The job queue -/

theorem ProducerInv.le {p : Plan} {input : List Byte} {s : State} (hP : ProducerInv p input s) :
    s.blockNumber ≤ p.blockCount := by
  have h := hP.inLoop
  split at h <;> omega

theorem queueInv_step {p : Plan} {input : List Byte} {s t : State} {a : Action}
    (hv : p.Valid input) (hP : ProducerInv p input s) (hi : QueueInv p s) (h : Step p s a t) :
    QueueInv p t := by
  obtain ⟨hord, hth⟩ := hi
  have hle := hv.blockCount_le
  have hlt64 := hv.inputSize_lt
  have hbn := hP.le
  cases h
  case enqueue buffer hash hp =>
    have hloop := hP.inLoop
    rw [hp] at hloop
    simp only at hloop
    have hnext : (s.blockNumber + 1) % U64 = s.blockNumber + 1 :=
      Nat.mod_eq_of_lt (by omega)
    refine ⟨?_, hth⟩
    simp only [hnext, List.map_append, List.map_cons, List.map_nil, List.range_succ]
    rw [← List.append_assoc, hord]
  case take i job rest hh hf hj =>
    have hlen := congrArg List.length hord
    simp only [hj, List.length_append, List.length_map, List.length_cons,
      List.length_range] at hlen
    refine ⟨?_, ?_⟩
    · simp only
      rw [← hord, hj]
      simp
    · simp only [List.length_append, List.length_singleton]
      unfold U64 at *
      omega
  all_goals exact ⟨hord, hth⟩

/-! ## The input buffers -/

theorem producer_buffers_atBufferPool : Producer.atBufferPool.buffers = [] := rfl

theorem producer_buffers_atRead (b : Buf) : (Producer.atRead b).buffers = [b] := rfl

theorem producer_buffers_atHashPool (b : Buf) : (Producer.atHashPool b).buffers = [b] := rfl

theorem producer_buffers_atJobs (b : Buf) (h : hash_t) :
    (Producer.atJobs b h).buffers = [b] := rfl

theorem producer_buffers_atJoin : Producer.atJoin.buffers = [] := rfl

theorem producer_buffers_returned : Producer.returned.buffers = [] := rfl

theorem producer_buffers_thrown (e : Error) : (Producer.thrown e).buffers = [] := rfl

theorem count_allBuffers (s : State) (i : Nat) :
    List.count i ((s.allBuffers ++ s.freed).map Buf.id)
      = List.count i (s.m_memoryBufferPool.map Buf.id)
        + List.count i (s.producer.buffers.map Buf.id)
        + List.count i (s.m_jobs.map (fun j => j.buffer.id))
        + List.count i (s.hashers.flatMap (fun h => h.buffers.map Buf.id))
        + List.count i (s.freed.map Buf.id) := by
  simp only [State.allBuffers, State.queuedBuffers, State.hasherBuffers, List.map_append,
    List.count_append, List.map_flatMap, List.map_map]
  rfl

theorem bufferInv_step {p : Plan} {s t : State} {a : Action}
    (hi : BufferInv p s) (h : Step p s a t) : BufferInv p t := by
  obtain ⟨hids, hthreads⟩ := hi
  have hset := fun (new : Hasher) (k : Nat) =>
    count_flatMap_set (fun h : Hasher => h.buffers.map Buf.id) k new s.hashers
  cases h
  case acquireThrow hp hf =>
    refine ⟨fun i => ?_, hthreads⟩
    have h1 := hids i
    rw [count_allBuffers] at h1 ⊢
    simp only [hp, producer_buffers_atBufferPool, producer_buffers_atRead,
      producer_buffers_atHashPool, producer_buffers_atJobs, producer_buffers_atJoin,
      producer_buffers_returned, producer_buffers_thrown] at h1 ⊢
    exact h1
  case acquire buffer hp hf hb =>
    obtain ⟨ys, hys⟩ := List.getLast?_eq_some_iff.mp hb
    refine ⟨fun i => ?_, hthreads⟩
    have h1 := hids i
    rw [count_allBuffers] at h1 ⊢
    simp only [hp, hys, producer_buffers_atBufferPool, producer_buffers_atRead,
      producer_buffers_atHashPool, producer_buffers_atJobs, producer_buffers_atJoin,
      producer_buffers_returned, producer_buffers_thrown, List.dropLast_concat, List.map_append, List.map_cons,
      List.map_nil, List.count_append, List.count_cons, List.count_nil] at h1 ⊢
    omega
  case read buffer r d hp hr =>
    refine ⟨fun i => ?_, hthreads⟩
    have h1 := hids i
    rw [count_allBuffers] at h1 ⊢
    simp only [hp, producer_buffers_atBufferPool, producer_buffers_atRead,
      producer_buffers_atHashPool, producer_buffers_atJobs, producer_buffers_atJoin,
      producer_buffers_returned, producer_buffers_thrown] at h1 ⊢
    exact h1
  case readFail buffer hp =>
    refine ⟨fun i => ?_, hthreads⟩
    have h1 := hids i
    rw [count_allBuffers] at h1 ⊢
    simp only [hp, producer_buffers_atBufferPool, producer_buffers_atRead,
      producer_buffers_atHashPool, producer_buffers_atJobs, producer_buffers_atJoin,
      producer_buffers_returned, producer_buffers_thrown, List.map_cons, List.map_nil, List.count_cons,
      List.count_nil] at h1 ⊢
    omega
  case getHashPooled buffer hash hp hh =>
    refine ⟨fun i => ?_, hthreads⟩
    have h1 := hids i
    rw [count_allBuffers] at h1 ⊢
    simp only [hp, producer_buffers_atBufferPool, producer_buffers_atRead,
      producer_buffers_atHashPool, producer_buffers_atJobs, producer_buffers_atJoin,
      producer_buffers_returned, producer_buffers_thrown] at h1 ⊢
    exact h1
  case getHashFresh buffer hp hh =>
    refine ⟨fun i => ?_, hthreads⟩
    have h1 := hids i
    rw [count_allBuffers] at h1 ⊢
    simp only [hp, producer_buffers_atBufferPool, producer_buffers_atRead,
      producer_buffers_atHashPool, producer_buffers_atJobs, producer_buffers_atJoin,
      producer_buffers_returned, producer_buffers_thrown] at h1 ⊢
    exact h1
  case enqueue buffer hash hp =>
    refine ⟨fun i => ?_, hthreads⟩
    have h1 := hids i
    rw [count_allBuffers] at h1 ⊢
    have h3 : (if (s.blockNumber + 1) % U64 < p.blockCount then Producer.atBufferPool
        else Producer.atJoin).buffers = [] := by
      split <;> rfl
    simp only [hp, h3, producer_buffers_atBufferPool, producer_buffers_atRead,
      producer_buffers_atHashPool, producer_buffers_atJobs, producer_buffers_atJoin,
      producer_buffers_returned, producer_buffers_thrown, List.map_append, List.map_cons, List.map_nil,
      List.count_append, List.count_cons, List.count_nil] at h1 ⊢
    omega
  case joinThrow hp hw hf =>
    refine ⟨fun i => ?_, hthreads⟩
    have h1 := hids i
    rw [count_allBuffers] at h1 ⊢
    simp only [hp, producer_buffers_atBufferPool, producer_buffers_atRead,
      producer_buffers_atHashPool, producer_buffers_atJobs, producer_buffers_atJoin,
      producer_buffers_returned, producer_buffers_thrown] at h1 ⊢
    exact h1
  case joinReturn w w1 hp hw hf hwr hh =>
    refine ⟨fun i => ?_, hthreads⟩
    have h1 := hids i
    rw [count_allBuffers] at h1 ⊢
    simp only [hp, producer_buffers_atBufferPool, producer_buffers_atRead,
      producer_buffers_atHashPool, producer_buffers_atJobs, producer_buffers_atJoin,
      producer_buffers_returned, producer_buffers_thrown] at h1 ⊢
    exact h1
  case joinFlushFail w w1 hp hw hf hwr hh =>
    refine ⟨fun i => ?_, hthreads⟩
    have h1 := hids i
    rw [count_allBuffers] at h1 ⊢
    simp only [hp, producer_buffers_atBufferPool, producer_buffers_atRead,
      producer_buffers_atHashPool, producer_buffers_atJobs, producer_buffers_atJoin,
      producer_buffers_returned, producer_buffers_thrown] at h1 ⊢
    exact h1
  case closeFail ht => exact ⟨hids, hthreads⟩
  case headerFail hp hw hf =>
    refine ⟨fun i => ?_, hthreads⟩
    have h1 := hids i
    rw [count_allBuffers] at h1 ⊢
    simp only [hp, producer_buffers_atBufferPool, producer_buffers_atRead,
      producer_buffers_atHashPool, producer_buffers_atJobs, producer_buffers_atJoin,
      producer_buffers_returned, producer_buffers_thrown] at h1 ⊢
    exact h1
  case takeFlag i hh hf =>
    refine ⟨fun k => ?_, by simpa using hthreads⟩
    have h1 := hids k
    have h2 := hset .exited k i _ hh
    rw [count_allBuffers] at h1 ⊢
    simp only [hasher_buffers_atJobs, hasher_buffers_atDigest, hasher_buffers_atRelease,
      hasher_buffers_exited, List.map_nil, List.map_cons, List.count_nil, List.count_cons] at h2
    simp only at h1 ⊢
    omega
  case takeNone i hh hf hj hb =>
    refine ⟨fun k => ?_, by simpa using hthreads⟩
    have h1 := hids k
    have h2 := hset .exited k i _ hh
    rw [count_allBuffers] at h1 ⊢
    simp only [hasher_buffers_atJobs, hasher_buffers_atDigest, hasher_buffers_atRelease,
      hasher_buffers_exited, List.map_nil, List.map_cons, List.count_nil, List.count_cons] at h2
    simp only at h1 ⊢
    omega
  case take i job rest hh hf hj =>
    refine ⟨fun k => ?_, by simpa using hthreads⟩
    have h1 := hids k
    have h2 := hset (.atDigest job) k i _ hh
    rw [count_allBuffers] at h1 ⊢
    simp only [hasher_buffers_atJobs, hasher_buffers_atDigest, hasher_buffers_atRelease,
      hasher_buffers_exited, List.map_nil, List.map_cons, List.count_nil, List.count_cons] at h2
    simp only [hj, List.map_cons, List.count_cons] at h1 ⊢
    omega
  case publish i job hh =>
    refine ⟨fun k => ?_, by simpa using hthreads⟩
    have h1 := hids k
    have h2 := hset (.atRelease job.buffer) k i _ hh
    rw [count_allBuffers] at h1 ⊢
    simp only [hasher_buffers_atJobs, hasher_buffers_atDigest, hasher_buffers_atRelease,
      hasher_buffers_exited, List.map_nil, List.map_cons, List.count_nil, List.count_cons] at h2
    simp only at h1 ⊢
    omega
  case digestFail i job hh =>
    refine ⟨fun k => ?_, by simpa using hthreads⟩
    have h1 := hids k
    have h2 := hset .exited k i _ hh
    rw [count_allBuffers] at h1 ⊢
    simp only [hasher_buffers_atJobs, hasher_buffers_atDigest, hasher_buffers_atRelease,
      hasher_buffers_exited, List.map_nil, List.map_cons, List.count_nil, List.count_cons] at h2
    simp only [List.map_cons, List.count_cons] at h1 ⊢
    omega
  case release i data hh =>
    refine ⟨fun k => ?_, by simpa using hthreads⟩
    have h1 := hids k
    have h2 := hset .atJobs k i _ hh
    rw [count_allBuffers] at h1 ⊢
    simp only [hasher_buffers_atJobs, hasher_buffers_atDigest, hasher_buffers_atRelease,
      hasher_buffers_exited, List.map_nil, List.map_cons, List.count_nil, List.count_cons] at h2
    simp only [List.map_append, List.map_cons, List.map_nil, List.count_append,
      List.count_cons, List.count_nil] at h1 ⊢
    omega
  case wtakeFlag => exact ⟨hids, hthreads⟩
  case wtake => exact ⟨hids, hthreads⟩
  case wwrite => exact ⟨hids, hthreads⟩
  case wwriteFail => exact ⟨hids, hthreads⟩

/-! ## The output file -/

theorem writeHash_eq {w w1 : OutputFileWriter} {k : Nat} {h : hash_t}
    (hw : w.writeHash k h = some w1) :
    OutputFileWriter.hashOffset h.length k < streamoffLimit ∧
      w1.m_ofs.file = writeAt w.m_ofs.file (OutputFileWriter.hashOffset h.length k) h ∧
      w1.m_isFinalized = w.m_isFinalized := by
  unfold OutputFileWriter.writeHash ofstream.seekp at hw
  split at hw
  · contradiction
  · rename_i s hs
    split at hs
    · rename_i hlt
      simp only [Option.some.injEq] at hs hw
      subst hs hw
      exact ⟨hlt, rfl, rfl⟩
    · contradiction

theorem writeAt_writeAt (f : List Byte) (pos : Nat) (a b : List Byte) :
    writeAt (writeAt f pos a) (pos + a.length) b = writeAt f pos (a ++ b) := by
  by_cases ha : a = []
  · subst ha; simp [writeAt_nil]
  by_cases hb : b = []
  · subst hb; simp [writeAt_nil]
  have hab : a ++ b ≠ [] := by simp [ha]
  have hla : 0 < a.length := List.length_pos.mpr ha
  apply List.ext_getElem?
  intro i
  rw [getElem?_writeAt _ _ _ _ hb, getElem?_writeAt _ _ _ _ ha, getElem?_writeAt _ _ _ _ hab,
    length_writeAt _ _ _ ha, List.length_append]
  by_cases h1 : i < pos
  · have h2 : i < pos + a.length := by omega
    simp only [h1, h2, if_true]
    by_cases h3 : i < f.length
    · have : i < max f.length (pos + a.length) := by omega
      simp [h3, this]
    · have : i < max f.length (pos + a.length) := by omega
      simp [h3, this]
  · by_cases h2 : i < pos + a.length
    · have h3 : i < max f.length (pos + a.length) := by omega
      have h4 : i < pos + (a.length + b.length) := by omega
      simp only [h1, h2, h3, h4, if_true, if_false]
      rw [List.getElem?_append_left (by omega)]
    · by_cases h4 : i < pos + a.length + b.length
      · have h5 : i < pos + (a.length + b.length) := by omega
        simp only [h1, h2, h4, h5, if_true, if_false]
        rw [List.getElem?_append_right (by omega)]
        congr 1; omega
      · have h5 : ¬ i < pos + (a.length + b.length) := by omega
        simp only [h1, h2, h4, h5, if_false]

theorem writeHeader_eq (w : OutputFileWriter) (hd : SignatureHeader) :
    ∃ w1, w.writeHeader hd = some w1 ∧
      w1.m_ofs.file = writeAt w.m_ofs.file 0
        (rawBytes 4 hd.fileMark ++ rawBytes 2 hd.formatVersion ++
          rawBytes 2 hd.hashFunctionId ++ rawBytes 8 hd.originalFileSize ++
          rawBytes 4 hd.blockSize ++ rawBytes 4 hd.reserved1 ++ rawBytes 4 hd.reserved2 ++
          rawBytes 4 hd.reserved3) ∧
      w1.m_isFinalized = w.m_isFinalized := by
  refine ⟨_, rfl, ?_, rfl⟩
  simp only [ofstream.write, length_rawBytes]
  have h := writeAt_writeAt
  simp only [← h, length_rawBytes, List.length_append]

theorem workersDone_hasher {s : State} (hw : s.workersDone = true) {i : Nat} {h : Hasher}
    (hh : s.hashers[i]? = some h) : h = .exited := by
  simp only [State.workersDone, Bool.and_eq_true, List.all_eq_true, decide_eq_true_eq] at hw
  exact hw.1 h (List.getElem?_mem hh)

theorem workersDone_resultWriter {s : State} (hw : s.workersDone = true) :
    s.resultWriter = .exited := by
  simp only [State.workersDone, Bool.and_eq_true, decide_eq_true_eq] at hw
  exact hw.2

theorem workersDone_hasherJobs {s : State} (hw : s.workersDone = true) : s.hasherJobs = [] := by
  simp only [State.workersDone, Bool.and_eq_true, List.all_eq_true, decide_eq_true_eq] at hw
  simp only [State.hasherJobs, List.flatMap_eq_nil_iff]
  intro h hh
  rw [hw.1 h hh]
  rfl

/-- Once the workers are through with the flag unset, every block has been written. -/
theorem written_complete {p : Plan} {s : State} (hF : FlowInv p s)
    (hbn : s.blockNumber = p.blockCount) (hw : s.workersDone = true)
    (hf : s.m_badFlag = false) : ∀ k, k < p.blockCount → k ∈ s.written := by
  have hcount : ∀ k, List.count k s.written ≤ if k < p.blockCount then 1 else 0 := by
    intro k
    have h1 := hF.blocks hf k
    rw [count_blockNumbers, hbn] at h1
    omega
  have hnodup : s.written.Nodup := by
    rw [List.nodup_iff_count_le_one]
    intro k
    have := hcount k
    split at this <;> omega
  have hsub : s.written ⊆ List.range p.blockCount := by
    intro k hk
    have h1 := hcount k
    have h2 : 0 < List.count k s.written := List.count_pos_iff.mpr hk
    rw [List.mem_range]
    by_contra hlt
    simp only [hlt, if_false] at h1
    omega
  have hlen : s.written.length = p.blockCount := by
    have h1 := hF.toWrite hf
    have h2 := (hF.live hf).mp (workersDone_resultWriter hw)
    omega
  have hperm := (List.subperm_of_subset hnodup hsub).perm_of_length_le
    (by rw [List.length_range, hlen])
  intro k hk
  exact hperm.mem_iff.mpr (List.mem_range.mpr hk)

theorem hashOffset_noWrap {ds bc k : Nat}
    (hnw : SignatureHeaderTraits.size + ds * bc < U64) (hk : k < bc) :
    OutputFileWriter.hashOffset ds k = SignatureHeaderTraits.size + ds * k := by
  have : ds * k ≤ ds * bc := Nat.mul_le_mul_left _ (Nat.le_of_lt hk)
  unfold OutputFileWriter.hashOffset
  exact Nat.mod_eq_of_lt (by omega)

/-- If every digest record can be reached by `seekp`, the offsets never wrapped around. -/
theorem noWrap_of_seekable {ds bc : Nat} (hds : ds < U32)
    (h : ∀ k, k < bc → OutputFileWriter.hashOffset ds k < streamoffLimit) :
    SignatureHeaderTraits.size + ds * bc < U64 := by
  have hstep : ∀ k, k < bc → SignatureHeaderTraits.size + ds * k < streamoffLimit := by
    intro k
    induction k with
    | zero => intro _; simp [SignatureHeaderTraits.size, streamoffLimit]
    | succ k ih =>
        intro hk
        have h1 := ih (by omega)
        have h2 := h (k + 1) hk
        have h3 : ds * (k + 1) = ds * k + ds := Nat.mul_succ _ _
        unfold OutputFileWriter.hashOffset at h2
        rw [Nat.mod_eq_of_lt (by unfold U32 U64 streamoffLimit at *; omega)] at h2
        exact h2
  rcases Nat.eq_zero_or_pos bc with h0 | h0
  · subst h0; simp [SignatureHeaderTraits.size, U64]
  · have h1 := hstep (bc - 1) (by omega)
    have h3 : ds * bc = ds * (bc - 1) + ds := by
      rw [← Nat.mul_succ]; congr 1; omega
    unfold U32 U64 streamoffLimit at *
    omega

/-- Writing the digest of block `j` keeps the file within its final length, puts the digest
at its offset and leaves the records of the other blocks as they were. -/
theorem writeAt_record (f h : List Byte) (ds bc j : Nat) (hh : h.length = ds) (hj : j < bc)
    (hlen : f.length ≤ SignatureHeaderTraits.size + ds * bc) :
    (writeAt f (SignatureHeaderTraits.size + ds * j) h).length
        ≤ SignatureHeaderTraits.size + ds * bc ∧
      f.length ≤ (writeAt f (SignatureHeaderTraits.size + ds * j) h).length ∧
      (0 < ds → SignatureHeaderTraits.size + ds * (j + 1)
        ≤ (writeAt f (SignatureHeaderTraits.size + ds * j) h).length) ∧
      segment (writeAt f (SignatureHeaderTraits.size + ds * j) h)
        (SignatureHeaderTraits.size + ds * j) ds = h ∧
      ∀ k, k ≠ j → SignatureHeaderTraits.size + ds * (k + 1) ≤ f.length →
        segment (writeAt f (SignatureHeaderTraits.size + ds * j) h)
          (SignatureHeaderTraits.size + ds * k) ds
          = segment f (SignatureHeaderTraits.size + ds * k) ds := by
  have h1 := length_writeAt_le f (SignatureHeaderTraits.size + ds * j) h
  have h2 : ds * (j + 1) ≤ ds * bc := Nat.mul_le_mul_left _ hj
  have h3 : ds * (j + 1) = ds * j + ds := Nat.mul_succ _ _
  refine ⟨by omega, h1.1, ?_, ?_, ?_⟩
  · intro hpos
    rw [length_writeAt _ _ _ (by intro h0; rw [h0] at hh; simp at hh; omega)]
    omega
  · have := segment_writeAt_self f (SignatureHeaderTraits.size + ds * j) h
    rwa [hh] at this
  · intro k hk hkl
    have h4 : ds * (k + 1) = ds * k + ds := Nat.mul_succ _ _
    apply segment_writeAt_disjoint
    · rcases Nat.lt_or_gt_of_ne hk with hlt | hgt
      · left
        have : ds * (k + 1) ≤ ds * j := Nat.mul_le_mul_left _ hlt
        omega
      · right
        have : ds * (j + 1) ≤ ds * k := Nat.mul_le_mul_left _ hgt
        omega
    · omega

theorem Plan.header_bytes (p : Plan) :
    rawBytes 4 p.header.fileMark ++ rawBytes 2 p.header.formatVersion ++
        rawBytes 2 p.header.hashFunctionId ++ rawBytes 8 p.header.originalFileSize ++
        rawBytes 4 p.header.blockSize ++ rawBytes 4 p.header.reserved1 ++
        rawBytes 4 p.header.reserved2 ++ rawBytes 4 p.header.reserved3
      = p.headerBytes := rfl

theorem Plan.length_headerBytes (p : Plan) :
    p.headerBytes.length = SignatureHeaderTraits.size := by
  simp [Plan.headerBytes, length_rawBytes, SignatureHeaderTraits.size]

theorem Plan.Valid.length_digest {p : Plan} {input : List Byte} (hv : p.Valid input) (b : Nat) :
    (p.digest input b).length = p.digestSize := hv.digest_size _

/-- The join with the flag unset: after the header is written the file is the signature. -/
theorem signature_complete {p : Plan} {input : List Byte} {s : State}
    {w w1 : OutputFileWriter} (hv : p.Valid input) (hP : ProducerInv p input s)
    (hF : FlowInv p s) (hI : FileInv p input s) (hp : s.producer = .atJoin)
    (hw : s.workersDone = true) (hf : s.m_badFlag = false) (hwr : s.writer = some w)
    (hh : w.writeHeader p.header = some w1) : IsSignature p input w1.m_ofs.file := by
  have hbn : s.blockNumber = p.blockCount := by
    have := hP.inLoop
    rw [hp] at this
    exact this
  have hall := written_complete hF hbn hw hf
  have hnw : p.NoWrap :=
    noWrap_of_seekable hv.digestSize_lt (fun k hk => (hI.seekable k (hall k hk)).1)
  obtain ⟨_, hlen, hseg⟩ := hI.content hnw w hwr (by rw [hp]; simp)
  obtain ⟨w2, hw2, hfile, _⟩ := writeHeader_eq w p.header
  rw [hh] at hw2
  simp only [Option.some.injEq] at hw2
  subst hw2
  rw [Plan.header_bytes] at hfile
  have hhb := p.length_headerBytes
  have hne : p.headerBytes ≠ [] := by
    intro h0; rw [h0] at hhb; simp [SignatureHeaderTraits.size] at hhb
  have hbc := hv.blockCount_pos
  rw [hfile]
  refine ⟨?_, ?_, ?_⟩
  · rw [length_writeAt _ _ _ hne, hhb]
    rcases Nat.eq_zero_or_pos p.digestSize with h0 | h0
    · rw [h0] at hlen ⊢
      simp only [Nat.zero_mul, Nat.add_zero] at hlen ⊢
      omega
    · have h1 := (hseg (p.blockCount - 1) (hall _ (by omega))).1 h0
      have h2 : p.blockCount - 1 + 1 = p.blockCount := by omega
      rw [h2] at h1
      omega
  · have := segment_writeAt_self w.m_ofs.file 0 p.headerBytes
    rwa [hhb] at this
  · intro b hb
    rcases Nat.eq_zero_or_pos p.digestSize with h0 | h0
    · have h1 := (hv.length_digest b : (p.digest input b).length = p.digestSize)
      rw [h0] at h1 ⊢
      rw [segment_zero]
      exact (List.length_eq_zero.mp h1).symm
    · have h1 := hseg b (hall b hb)
      rw [← h1.2]
      apply segment_writeAt_disjoint
      · right; rw [hhb]; omega
      · have h2 := h1.1 h0
        have h3 : p.digestSize * (b + 1) = p.digestSize * b + p.digestSize := Nat.mul_succ _ _
        omega

theorem fileInv_step {p : Plan} {input : List Byte} {s t : State} {a : Action}
    (hv : p.Valid input) (hP : ProducerInv p input s) (hF : FlowInv p s)
    (hI : FileInv p input s) (h : Step p s a t) : FileInv p input t := by
  obtain ⟨hgone, halive, hseek, hcont, hfinal⟩ := hI
  cases h
  case acquireThrow hp hf =>
    exact ⟨fun e _ => ⟨rfl, hf⟩, fun h => absurd rfl (h _), hseek,
      fun _ w hw => by simp at hw, fun h => by simp at h⟩
  case acquire buffer hp hf hb =>
    refine ⟨?_, fun _ => halive (by rw [hp]; simp), hseek,
      fun hnw w hw _ => hcont hnw w hw (by rw [hp]; simp), ?_⟩
    · intro e he
      simp at he
    · intro h
      simp at h
  case read buffer r d hp hr =>
    refine ⟨?_, fun _ => halive (by rw [hp]; simp), hseek,
      fun hnw w hw _ => hcont hnw w hw (by rw [hp]; simp), ?_⟩
    · intro e he
      simp at he
    · intro h
      simp at h
  case readFail buffer hp =>
    exact ⟨fun e _ => ⟨rfl, rfl⟩, fun h => absurd rfl (h _), hseek,
      fun _ w hw => by simp at hw, fun h => by simp at h⟩
  case getHashPooled buffer hash hp hh =>
    refine ⟨?_, fun _ => halive (by rw [hp]; simp), hseek,
      fun hnw w hw _ => hcont hnw w hw (by rw [hp]; simp), ?_⟩
    · intro e he
      simp at he
    · intro h
      simp at h
  case getHashFresh buffer hp hh =>
    refine ⟨?_, fun _ => halive (by rw [hp]; simp), hseek,
      fun hnw w hw _ => hcont hnw w hw (by rw [hp]; simp), ?_⟩
    · intro e he
      simp at he
    · intro h
      simp at h
  case enqueue buffer hash hp =>
    refine ⟨?_, fun _ => halive (by rw [hp]; simp), hseek,
      fun hnw w hw _ => hcont hnw w hw (by rw [hp]; simp), ?_⟩
    · intro e he
      split at he <;> simp at he
    · intro h
      split at h <;> simp at h
  case joinThrow hp hw hf =>
    exact ⟨fun e _ => ⟨rfl, hf⟩, fun h => absurd rfl (h _), hseek,
      fun _ w hw => by simp at hw, fun h => by simp at h⟩
  case joinReturn w w1 hp hw hf hwr hh =>
    refine ⟨fun e he => by simp at he, fun _ => ⟨_, rfl⟩, hseek,
      fun _ w2 _ hne => absurd rfl hne, fun _ => ⟨hf, hw, _, rfl, rfl, ?_⟩⟩
    show IsSignature p input w1.m_ofs.file
    exact signature_complete hv hP hF ⟨hgone, halive, hseek, hcont, hfinal⟩ hp hw hf hwr hh
  case joinFlushFail w w1 hp hw hf hwr hh =>
    refine ⟨fun e he => by simp at he, fun _ => ⟨_, rfl⟩, hseek,
      fun _ w2 _ hne => absurd rfl hne, fun _ => ⟨hf, hw, _, rfl, rfl, ?_⟩⟩
    show IsSignature p input w1.m_ofs.file
    exact signature_complete hv hP hF ⟨hgone, halive, hseek, hcont, hfinal⟩ hp hw hf hwr hh
  case closeFail ht => exact ⟨hgone, halive, hseek, hcont, hfinal⟩
  case headerFail hp hw hf =>
    exact ⟨fun e _ => ⟨rfl, rfl⟩, fun h => absurd rfl (h _), hseek,
      fun _ w hw => by simp at hw, fun h => by simp at h⟩
  case takeFlag i hh hf =>
    refine ⟨hgone, halive, hseek, hcont, ?_⟩
    intro h
    have h1 := workersDone_hasher (hfinal h).2.1 hh
    simp at h1
  case takeNone i hh hf hj hb =>
    refine ⟨hgone, halive, hseek, hcont, ?_⟩
    intro h
    have h1 := workersDone_hasher (hfinal h).2.1 hh
    simp at h1
  case take i job rest hh hf hj =>
    refine ⟨hgone, halive, hseek, hcont, ?_⟩
    intro h
    have h1 := workersDone_hasher (hfinal h).2.1 hh
    simp at h1
  case publish i job hh =>
    refine ⟨hgone, halive, hseek, hcont, ?_⟩
    intro h
    have h1 := workersDone_hasher (hfinal h).2.1 hh
    simp at h1
  case digestFail i job hh =>
    refine ⟨fun e he => ⟨(hgone e he).1, rfl⟩, halive, hseek, hcont, ?_⟩
    intro h
    have h1 := workersDone_hasher (hfinal h).2.1 hh
    simp at h1
  case release i data hh =>
    refine ⟨hgone, halive, hseek, hcont, ?_⟩
    intro h
    have h1 := workersDone_hasher (hfinal h).2.1 hh
    simp at h1
  case wtakeFlag hr hf =>
    refine ⟨hgone, halive, hseek, hcont, ?_⟩
    intro h
    have h1 := workersDone_resultWriter (hfinal h).2.1
    rw [hr] at h1
    simp at h1
  case wtake result rest hr hf hq =>
    refine ⟨hgone, halive, hseek, hcont, ?_⟩
    intro h
    have h1 := workersDone_resultWriter (hfinal h).2.1
    rw [hr] at h1
    simp at h1
  case wwriteFail result hr =>
    refine ⟨fun e he => ⟨(hgone e he).1, rfl⟩, halive, hseek, hcont, ?_⟩
    intro h
    have h1 := workersDone_resultWriter (hfinal h).2.1
    rw [hr] at h1
    simp at h1
  case wwrite result w w1 hr hwr hh =>
    have hres := hP.results result (Or.inr (by rw [hr]; simp [ResultWriter.results]))
    have hbn := hP.le
    have hk : result.2 < p.blockCount := by omega
    have hlenh : result.1.length = p.digestSize := by
      rw [hres.1]; exact hv.digest_size _
    obtain ⟨hoff, hfile, hfin⟩ := writeHash_eq hh
    rw [hlenh] at hoff hfile
    refine ⟨?_, fun _ => ⟨_, rfl⟩, ?_, ?_, ?_⟩
    · intro e he
      have := (hgone e he).1
      rw [hwr] at this
      simp at this
    · intro k hk1
      simp only [List.mem_append, List.mem_singleton] at hk1
      rcases hk1 with hk1 | hk1
      · exact hseek k hk1
      · subst hk1; exact ⟨hoff, hk⟩
    · intro hnw w2 hw2 hne
      simp only [Option.some.injEq] at hw2
      subst hw2
      obtain ⟨hfin0, hlen0, hseg0⟩ := hcont hnw w hwr hne
      rw [hashOffset_noWrap hnw hk] at hfile
      obtain ⟨h1, h2, h3, h4, h5⟩ :=
        writeAt_record w.m_ofs.file result.1 p.digestSize p.blockCount result.2 hlenh hk hlen0
      rw [← hfile] at h1 h2 h3 h4 h5
      refine ⟨by rw [hfin, hfin0], h1, ?_⟩
      intro k hk1
      simp only [List.mem_append, List.mem_singleton] at hk1
      by_cases hkk : k = result.2
      · subst hkk
        exact ⟨h3, by rw [h4, hres.1]; rfl⟩
      · rcases hk1 with hk1 | hk1
        · obtain ⟨h6, h7⟩ := hseg0 k hk1
          refine ⟨fun hpos => Nat.le_trans (h6 hpos) h2, ?_⟩
          rcases Nat.eq_zero_or_pos p.digestSize with h0 | h0
          · have h8 := (hv.length_digest k : (p.digest input k).length = p.digestSize)
            rw [h0] at h8 ⊢
            rw [segment_zero]
            exact (List.length_eq_zero.mp h8).symm
          · rw [h5 k hkk (h6 h0), h7]
        · exact absurd hk1 hkk
    · intro h
      have h1 := workersDone_resultWriter (hfinal h).2.1
      rw [hr] at h1
      simp at h1

theorem getD_writeAt (f : List Byte) (pos : Nat) (bs : List Byte) (i : Nat) (hi : i < pos) :
    (writeAt f pos bs).getD i 0 = f.getD i 0 := by
  by_cases hbs : bs = []
  · rw [hbs, writeAt_nil]
  · rw [List.getD_eq_getElem?_getD, List.getD_eq_getElem?_getD, getElem?_writeAt _ _ _ _ hbs]
    simp only [hi, if_true]
    by_cases h2 : i < f.length
    · simp only [h2, if_true]
    · simp only [h2, if_false]
      rw [List.getElem?_eq_none (by omega)]
      rfl

theorem writerInv_step {p : Plan} {input : List Byte} {s t : State} {a : Action}
    (hv : p.Valid input) (hP : ProducerInv p input s) (hi : WriterInv p s)
    (h : Step p s a t) : WriterInv p t := by
  obtain ⟨hun, hgap⟩ := hi
  cases h
  case wwrite result w w1 hr hwr hh =>
    have hres := hP.results result (Or.inr (by rw [hr]; simp [ResultWriter.results]))
    have hbn := hP.le
    have hk : result.2 < p.blockCount := by omega
    have hlenh : result.1.length = p.digestSize := by
      rw [hres.1]; exact hv.digest_size _
    obtain ⟨_, hfile, hfin⟩ := writeHash_eq hh
    rw [hlenh] at hfile
    refine ⟨fun w2 hw2 hne => ?_, fun hnw w2 hw2 hne i hi => ?_⟩
    · simp only [Option.some.injEq] at hw2
      subst hw2
      rw [hfin]
      exact hun w hwr hne
    · simp only [Option.some.injEq] at hw2
      subst hw2
      rw [hfile, hashOffset_noWrap hnw hk, getD_writeAt _ _ _ _ (by omega)]
      exact hgap hnw w hwr hne i hi
  case acquireThrow hp hf => exact ⟨fun w hw => by simp at hw, fun _ w hw => by simp at hw⟩
  case joinThrow hp hw hf => exact ⟨fun w hw => by simp at hw, fun _ w hw => by simp at hw⟩
  case readFail buffer hp => exact ⟨fun w hw => by simp at hw, fun _ w hw => by simp at hw⟩
  case headerFail hp hw hf => exact ⟨fun w hw => by simp at hw, fun _ w hw => by simp at hw⟩
  case joinReturn w w1 hp hw hf hwr hh =>
    exact ⟨fun _ _ hne => absurd rfl hne, fun _ _ _ hne => absurd rfl hne⟩
  case joinFlushFail w w1 hp hw hf hwr hh =>
    exact ⟨fun _ _ hne => absurd rfl hne, fun _ _ _ hne => absurd rfl hne⟩
  case acquire buffer hp hf hb =>
    exact ⟨fun w hw _ => hun w hw (by rw [hp]; simp),
      fun hnw w hw _ => hgap hnw w hw (by rw [hp]; simp)⟩
  case read buffer r d hp hr =>
    exact ⟨fun w hw _ => hun w hw (by rw [hp]; simp),
      fun hnw w hw _ => hgap hnw w hw (by rw [hp]; simp)⟩
  case getHashPooled buffer hash hp hh =>
    exact ⟨fun w hw _ => hun w hw (by rw [hp]; simp),
      fun hnw w hw _ => hgap hnw w hw (by rw [hp]; simp)⟩
  case getHashFresh buffer hp hh =>
    exact ⟨fun w hw _ => hun w hw (by rw [hp]; simp),
      fun hnw w hw _ => hgap hnw w hw (by rw [hp]; simp)⟩
  case enqueue buffer hash hp =>
    exact ⟨fun w hw _ => hun w hw (by rw [hp]; simp),
      fun hnw w hw _ => hgap hnw w hw (by rw [hp]; simp)⟩
  all_goals exact ⟨hun, hgap⟩

theorem writerInv_init (p : Plan) (input : List Byte) :
    WriterInv p (initialState p input ⟨⟨[], 0⟩, false⟩) := by
  refine ⟨fun w hw _ => ?_, fun _ w hw _ i _ => ?_⟩
  · simp only [initialState, Option.some.injEq] at hw
    rw [← hw]
  · simp only [initialState, Option.some.injEq] at hw
    rw [← hw]
    rfl

/-! ## Returned hashers -/

theorem queue_empty_of_done {p : Plan} {input : List Byte} {s : State}
    (hP : ProducerInv p input s) (hQ : QueueInv p s) (h0 : s.m_blocksToHash = 0) :
    s.m_jobs = [] := by
  have h1 := hQ.toHash
  have h2 := congrArg List.length hQ.order
  have h3 := hP.le
  simp only [List.length_append, List.length_map, List.length_range] at h2
  exact List.length_eq_zero.mp (by omega)

theorem exitInv_step {p : Plan} {input : List Byte} {s t : State} {a : Action}
    (hP : ProducerInv p input s) (hQ : QueueInv p s) (hi : ExitInv s) (h : Step p s a t) :
    ExitInv t := by
  unfold ExitInv at hi ⊢
  cases h
  case takeNone i hh hf hj hb => exact fun _ _ => hb
  case take i job rest hh hf hj =>
    intro hf1 hmem
    rcases List.mem_or_eq_of_mem_set hmem with h1 | h1
    · have := queue_empty_of_done hP hQ (hi hf1 h1)
      rw [hj] at this
      contradiction
    · contradiction
  case publish i job hh =>
    intro hf1 hmem
    rcases List.mem_or_eq_of_mem_set hmem with h1 | h1
    · exact hi hf1 h1
    · contradiction
  case release i data hh =>
    intro hf1 hmem
    rcases List.mem_or_eq_of_mem_set hmem with h1 | h1
    · exact hi hf1 h1
    · contradiction
  all_goals first
    | exact hi
    | (intro hf1; simp at hf1; done)
    | (intro hf1; rw [‹s.m_badFlag = true›] at hf1; contradiction)

theorem exitInv_init (p : Plan) (input : List Byte) (w : OutputFileWriter) :
    ExitInv (initialState p input w) := by
  intro _ hmem
  simp only [initialState] at hmem
  have := List.eq_of_mem_replicate hmem
  contradiction

/-! ## Runs -/

theorem replicate_flatMap_nil {α β : Type} (n : Nat) (a : α) (f : α → List β) (h : f a = []) :
    (List.replicate n a).flatMap f = [] := by
  rw [List.flatMap_eq_nil_iff]
  intro x hx
  rw [List.eq_of_mem_replicate hx, h]

theorem Inv.init {p : Plan} {input : List Byte} (hv : p.Valid input) :
    Inv p input (initialState p input ⟨⟨[], 0⟩, false⟩) := by
  have hbc := hv.blockCount_pos
  have hj : (initialState p input ⟨⟨[], 0⟩, false⟩).hasherJobs = [] :=
    replicate_flatMap_nil _ _ _ rfl
  have hb : (initialState p input ⟨⟨[], 0⟩, false⟩).hasherBuffers = [] :=
    replicate_flatMap_nil _ _ _ rfl
  refine ⟨⟨rfl, ?_, ?_, ?_, ?_, ?_, ?_, ?_, ?_⟩, ⟨?_, ?_, ?_⟩, ⟨rfl, rfl⟩, ⟨?_, ?_⟩,
    ⟨?_, ?_, ?_, ?_, ?_⟩, fun _ => rfl, exitInv_init _ _ _, writerInv_init _ _,
    fun h => by simp [initialState] at h⟩
  · simp [initialState, hbc]
  · intro _; simp [initialState]
  · intro _; simp [initialState]
  · intro _ b hb1
    rw [hb] at hb1
    simp only [initialState, State.queuedBuffers, List.map_nil, List.not_mem_nil, or_false,
      List.mem_map, List.mem_range] at hb1
    obtain ⟨i, _, hi⟩ := hb1
    rw [← hi]
    simp
  · intro b hb1; simp [initialState, hbc] at hb1
  · intro b hb1; simp [initialState, hbc] at hb1
  · intro j hj1
    rw [hj] at hj1
    simp [initialState] at hj1
  · intro r hr; simp [initialState, hbc, ResultWriter.results] at hr
  · intro _ k
    rw [State.blockNumbers, hj]
    simp [initialState, hbc, ResultWriter.results]
  · intro _; simp [initialState]
  · intro _; simp [initialState, hbc]; omega
  · intro i
    rw [State.allBuffers, hb]
    simp only [initialState, State.queuedBuffers, hbc, if_true, Producer.buffers, List.map_nil,
      List.append_nil, List.map_map]
    have : (Buf.id ∘ fun i => (⟨i, List.replicate p.blockSize 0⟩ : Buf)) = id := rfl
    rw [this, List.map_id, count_range]
    rfl
  · simp [initialState]
  · intro e he; simp [initialState, hbc] at he
  · intro _; exact ⟨_, rfl⟩
  · intro k hk; simp [initialState] at hk
  · intro _ w hw _
    simp only [initialState, Option.some.injEq] at hw
    subst hw
    refine ⟨rfl, by simp, ?_⟩
    intro k hk; simp [initialState] at hk
  · intro h; simp [initialState, hbc] at h

theorem freed_step {p : Plan} {s t : State} {a : Action} (h : Step p s a t)
    (hi : s.m_badFlag = false → s.freed = []) : t.m_badFlag = false → t.freed = [] := by
  cases h <;> first | exact hi | (intro h; simp at h)

theorem abort_step {p : Plan} {s t : State} {a : Action} (h : Step p s a t) :
    t.aborted = true → t.mayThrow = true := by
  cases h
  case closeFail ht => exact fun _ => ht
  all_goals (intro hb; simp_all)

theorem inv_step {p : Plan} {input : List Byte} {s t : State} {a : Action}
    (hv : p.Valid input) (hi : Inv p input s) (h : Step p s a t) : Inv p input t :=
  ⟨producerInv_step hv hi.producer h, flowInv_step hv hi.producer hi.flow h,
    queueInv_step hv hi.producer hi.queue h, bufferInv_step hi.buffer h,
    fileInv_step hv hi.producer hi.flow hi.file h, freed_step h hi.freed,
    exitInv_step hi.producer hi.queue hi.exit h, writerInv_step hv hi.producer hi.writer h,
    abort_step h⟩

theorem Inv.of_run {p : Plan} {input : List Byte} (hv : p.Valid input) :
    ∀ (sched : List Action) {s t : State}, Inv p input s → run p sched s = some t →
      Inv p input t
  | [], s, t, hi, h => by
      simp only [run, Option.some.injEq] at h
      exact h ▸ hi
  | a :: rest, s, t, hi, h => by
      simp only [run] at h
      split at h
      · contradiction
      · rename_i s1 hs1
        exact Inv.of_run hv rest (inv_step hv hi (step_sound hs1)) h

/-! ## `validate` and `launch` -/

theorem hasher_cases {crc32 md5 hasher : HashAlgorithm} {id ds : Nat}
    (hd : HashTraits.digestSize crc32 md5 id = some ds)
    (hh : HashWrapperFactory.createHashWrapper crc32 md5 id = some hasher) :
    (id = 0 ∧ hasher = crc32 ∧ ds = crc32.DIGESTSIZE) ∨
      (id = 1 ∧ hasher = md5 ∧ ds = md5.DIGESTSIZE) := by
  unfold HashTraits.digestSize at hd
  unfold HashWrapperFactory.createHashWrapper at hh
  split at hd
  · left
    simp only [Option.some.injEq] at hd hh
    exact ⟨rfl, hh.symm, hd.symm⟩
  · right
    simp only [Option.some.injEq] at hd hh
    exact ⟨rfl, hh.symm, hd.symm⟩
  · contradiction

theorem validate_ok {env : Env} {p : Plan} {input : List Byte}
    (h : validate env = .ok (p, input)) :
    env.blockSize ≠ 0 ∧ env.input = some input ∧ input.length % U64 ≠ 0 ∧
      ∃ ds hasher, HashTraits.digestSize env.crc32 env.md5 env.id = some ds ∧
        HashWrapperFactory.createHashWrapper env.crc32 env.md5 env.id = some hasher ∧
        p = { inputSize := input.length % U64,
              blockSize := env.blockSize,
              id := env.id,
              digestSize := ds,
              blockCount := blockCount (input.length % U64) env.blockSize,
              hasherThreadCount :=
                if env.hardware_concurrency = 0 then 4 else env.hardware_concurrency,
              hasher := hasher } := by
  unfold validate at h
  split at h
  · contradiction
  · rename_i hbs
    split at h
    · contradiction
    · rename_i inp hinp
      split at h
      · contradiction
      · rename_i hlen
        split at h
        · rename_i ds hasher hd hh
          simp only [Except.ok.injEq, Prod.mk.injEq] at h
          obtain ⟨h1, h2⟩ := h
          subst h2
          exact ⟨hbs, hinp, hlen, ds, hasher, hd, hh, h1.symm⟩
        · contradiction

theorem validate_valid {env : Env} {p : Plan} {input : List Byte} (hwf : env.WellFormed)
    (h : validate env = .ok (p, input)) : p.Valid input := by
  obtain ⟨hbs, hin, hlen, ds, hasher, hd, hh, hp⟩ := validate_ok h
  have hlt := hwf.input_lt input hin
  have hmod : input.length % U64 = input.length := Nat.mod_eq_of_lt hlt
  rw [hmod] at hp hlen
  subst hp
  have hthreads := hwf.threads_lt
  refine ⟨rfl, by simp only; omega, hlt, by simp only; omega, hwf.blockSize_lt, rfl, ?_, ?_, ?_,
    ?_, ?_⟩
  · rcases hasher_cases hd hh with ⟨_, h1, h2⟩ | ⟨_, h1, h2⟩
    · subst h1 h2; exact hwf.crc32_size
    · subst h1 h2; exact hwf.md5_size
  · rcases hasher_cases hd hh with ⟨_, h1, h2⟩ | ⟨_, h1, h2⟩
    · subst h2; exact hwf.crc32_lt
    · subst h2; exact hwf.md5_lt
  · rcases hasher_cases hd hh with ⟨_, h1, h2⟩ | ⟨_, h1, h2⟩
    · subst h2; exact env.crc32.DIGESTSIZE_pos
    · subst h2; exact env.md5.DIGESTSIZE_pos
  · simp only; split <;> omega
  · simp only
    split
    · simp [U32]
    · exact hthreads

/-- The ways a call of `launch` under a schedule comes to an outcome. -/
theorem launch_cases {env : Env} {sched : List Action} {out : Outcome}
    (h : launch env sched = some out) :
    (∃ e, validate env = .error e ∧ out = ⟨.error e, env.output, false, none⟩) ∨
    (∃ p input, validate env = .ok (p, input) ∧
      ((∃ e, (∃ c, env.ctorFault = some c) ∧
          out = ⟨.error e,
            (OutputFileWriter.create env.output env.ctorFault p.digestSize p.blockCount).1,
            false, none⟩) ∨
       (env.ctorFault = none ∧ env.allocFault = true ∧ sched = [] ∧
          out = ⟨.error .bad_alloc, none, true, none⟩) ∨
       (env.ctorFault = none ∧ env.allocFault = true ∧ sched = [.closeFail] ∧
          out = ⟨.terminate, some [], true, none⟩) ∨
       (∃ s, env.ctorFault = none ∧ env.allocFault = false ∧
          run p sched (initialState p input ⟨⟨[], 0⟩, false⟩) = some s ∧
          s.terminated = true ∧ out = ⟨s.result, s.output, true, some s⟩))) := by
  unfold launch at h
  split at h
  · rename_i e he
    simp only [Option.some.injEq] at h
    exact Or.inl ⟨e, he, h.symm⟩
  · rename_i p input hv
    refine Or.inr ⟨p, input, hv, ?_⟩
    cases hc : env.ctorFault with
    | some c =>
        left
        rw [hc] at h
        cases c <;> simp only [OutputFileWriter.create, Option.some.injEq] at h ⊢ <;>
          exact ⟨_, ⟨_, rfl⟩, h.symm⟩
    | none =>
        right
        rw [hc] at h
        simp only [OutputFileWriter.create, OutputFileWriter.afterReopen] at h
        split at h
        · rename_i ha
          split at h
          · simp only [Option.some.injEq] at h
            exact Or.inl ⟨rfl, ha, rfl, h.symm⟩
          · simp only [Option.some.injEq] at h
            exact Or.inr (Or.inl ⟨rfl, ha, rfl, h.symm⟩)
          · contradiction
        · rename_i ha
          split at h
          · contradiction
          · rename_i s hs
            split at h
            · rename_i ht
              simp only [Option.some.injEq] at h
              exact Or.inr (Or.inr ⟨s, rfl, by simpa using ha, hs, ht, h.symm⟩)
            · contradiction

/-! ## What reaches the disk -/

theorem IsSignature.hasDigests {p : Plan} {input f : List Byte} (h : IsSignature p input f) :
    HasDigests p input f := ⟨h.1, h.2.2⟩

/-- The join with the flag unset: before the header is written the file has its final length,
holds every digest record, and its first 32 bytes are the zero bytes of a gap. -/
theorem digests_complete {p : Plan} {input : List Byte} {s : State} {w : OutputFileWriter}
    (hv : p.Valid input) (hinv : Inv p input s) (hp : s.producer = .atJoin)
    (hw : s.workersDone = true) (hf : s.m_badFlag = false) (hwr : s.writer = some w) :
    HasDigests p input w.m_ofs.file ∧
      segment w.m_ofs.file 0 SignatureHeaderTraits.size
        = List.replicate SignatureHeaderTraits.size 0 := by
  have hbn : s.blockNumber = p.blockCount := by
    have := hinv.producer.inLoop
    rw [hp] at this
    exact this
  have hall := written_complete hinv.flow hbn hw hf
  have hnw : p.NoWrap :=
    noWrap_of_seekable hv.digestSize_lt (fun k hk => (hinv.file.seekable k (hall k hk)).1)
  have hne : s.producer ≠ .returned := by rw [hp]; simp
  obtain ⟨_, hlen, hseg⟩ := hinv.file.content hnw w hwr hne
  have hbc := hv.blockCount_pos
  have hds := hv.digestSize_pos
  have h1 := (hseg (p.blockCount - 1) (hall _ (by omega))).1 hds
  have h2 : p.blockCount - 1 + 1 = p.blockCount := by omega
  rw [h2] at h1
  have hlen2 : w.m_ofs.file.length = SignatureHeaderTraits.size + p.digestSize * p.blockCount := by
    omega
  refine ⟨⟨hlen2, fun b hb => (hseg b (hall b hb)).2⟩, ?_⟩
  apply List.ext_getElem?
  intro i
  rw [getElem?_segment]
  by_cases hi : i < SignatureHeaderTraits.size
  · have hg := hinv.writer.gap hnw w hwr hne i hi
    have hil : i < w.m_ofs.file.length := by omega
    rw [List.getD_eq_getElem?_getD, List.getElem?_eq_getElem hil] at hg
    simp only [hi, if_true, Nat.zero_add]
    rw [List.getElem?_eq_getElem hil, List.getElem?_replicate]
    simp only [hi, if_true]
    exact congrArg some hg
  · simp only [hi, if_false]
    rw [List.getElem?_replicate]
    simp only [hi, if_false]

/-- The two steps by which `launch` returns, and what each leaves on disk. -/
theorem returned_step {p : Plan} {input : List Byte} {s t : State} {a : Action}
    (hv : p.Valid input) (hinv : Inv p input s) (h : Step p s a t)
    (hs : s.producer ≠ .returned) (ht : t.producer = .returned) :
    (a = .join ∧ IsSignature p input t.flushed) ∨
      (a = .joinFlushFail ∧ HasDigests p input t.flushed ∧
        segment t.flushed 0 SignatureHeaderTraits.size
          = List.replicate SignatureHeaderTraits.size 0) := by
  cases h
  case joinReturn w w1 hp hw hf hwr hh =>
    exact Or.inl ⟨rfl,
      signature_complete hv hinv.producer hinv.flow hinv.file hp hw hf hwr hh⟩
  case joinFlushFail w w1 hp hw hf hwr hh =>
    exact Or.inr ⟨rfl, digests_complete hv hinv hp hw hf hwr⟩
  case enqueue buffer hash hp => simp only at ht; split at ht <;> simp at ht
  all_goals first
    | exact absurd ht hs
    | simp at ht

/-- Once `launch` has returned no thread takes a step. -/
theorem no_step_returned {p : Plan} {input : List Byte} {s t : State} {a : Action}
    (hinv : Inv p input s) (hp : s.producer = .returned) (h : Step p s a t) : False := by
  have hw := (hinv.file.final hp).2.1
  have hrw := workersDone_resultWriter hw
  cases h
  case closeFail ht => simp [State.mayThrow, hp] at ht
  case takeFlag i hh hf => have := workersDone_hasher hw hh; contradiction
  case takeNone i hh hf hj hb => have := workersDone_hasher hw hh; contradiction
  case take i job rest hh hf hj => have := workersDone_hasher hw hh; contradiction
  case publish i job hh => have := workersDone_hasher hw hh; contradiction
  case digestFail i job hh => have := workersDone_hasher hw hh; contradiction
  case release i data hh => have := workersDone_hasher hw hh; contradiction
  case wtakeFlag hr hf => rw [hr] at hrw; contradiction
  case wtake result rest hr hf hq => rw [hr] at hrw; contradiction
  case wwrite result w w1 hr hwr hh => rw [hr] at hrw; contradiction
  case wwriteFail result hr => rw [hr] at hrw; contradiction
  all_goals simp [hp] at *

/-- What a run that ends with `launch` returned has left on disk: the signature when the
flush of the header succeeded, the digest records behind 32 zero bytes when it failed. -/
theorem flushed_run {p : Plan} {input : List Byte} (hv : p.Valid input) :
    ∀ (sched : List Action) {s t : State}, Inv p input s → s.producer ≠ .returned →
      run p sched s = some t → t.producer = .returned →
      (Action.joinFlushFail ∉ sched → IsSignature p input t.flushed) ∧
      (Action.joinFlushFail ∈ sched → HasDigests p input t.flushed ∧
        segment t.flushed 0 SignatureHeaderTraits.size
          = List.replicate SignatureHeaderTraits.size 0)
  | [], s, t, _, hs, h, ht => by
      simp only [run, Option.some.injEq] at h
      subst h
      exact absurd ht hs
  | a :: rest, s, t, hi, hs, h, ht => by
      simp only [run] at h
      split at h
      · contradiction
      · rename_i s1 hs1
        have hst := step_sound hs1
        have hi1 := inv_step hv hi hst
        by_cases hr : s1.producer = .returned
        · have hnil : rest = [] := by
            cases rest with
            | nil => rfl
            | cons b more =>
                simp only [run] at h
                split at h
                · contradiction
                · rename_i s2 hs2
                  exact (no_step_returned hi1 hr (step_sound hs2)).elim
          subst hnil
          simp only [run, Option.some.injEq] at h
          subst h
          rcases returned_step hv hi hst hs hr with ⟨ha, hsig⟩ | ⟨ha, hd⟩
          · subst ha
            exact ⟨fun _ => hsig, fun hm => by simp at hm⟩
          · subst ha
            exact ⟨fun hm => by simp at hm, fun _ => hd⟩
        · have hne : a ≠ .joinFlushFail := by
            intro ha
            subst ha
            cases hst
            exact hr rfl
          have ih := flushed_run hv rest hi1 hr h ht
          refine ⟨fun hm => ih.1 (fun h1 => hm (List.mem_cons_of_mem _ h1)), fun hm => ?_⟩
          rcases List.mem_cons.mp hm with h1 | h1
          · exact absurd h1.symm hne
          · exact ih.2 h1

/-- A call that returns normally went through the whole pipeline; what it left on disk has
the length of the signature and holds every digest record. -/
theorem launch_ok {env : Env} {sched : List Action} {out : Outcome} (hwf : env.WellFormed)
    (h : launch env sched = some out) (hok : out.result = .ok) :
    ∃ p input s w, validate env = .ok (p, input) ∧ p.Valid input ∧
      run p sched (initialState p input ⟨⟨[], 0⟩, false⟩) = some s ∧ Inv p input s ∧
      out.final = some s ∧ out.writerConstructed = true ∧ s.producer = .returned ∧
      s.m_badFlag = false ∧ s.writer = some w ∧ w.m_isFinalized = true ∧
      out.output = some s.flushed ∧ HasDigests p input s.flushed ∧
      (Action.joinFlushFail ∉ sched → IsSignature p input s.flushed) ∧
      (Action.joinFlushFail ∈ sched →
        segment s.flushed 0 SignatureHeaderTraits.size
          = List.replicate SignatureHeaderTraits.size 0) := by
  rcases launch_cases h with ⟨e, _, ho⟩ | ⟨p, input, hval, hc⟩
  · subst ho; simp at hok
  · have hv := validate_valid hwf hval
    rcases hc with ⟨e, _, ho⟩ | ⟨_, _, _, ho⟩ | ⟨_, _, _, ho⟩ | ⟨s, _, _, hrun, hterm, ho⟩
    · subst ho; simp at hok
    · subst ho; simp at hok
    · subst ho; simp at hok
    · subst ho
      have hinv := Inv.of_run hv sched (Inv.init hv) hrun
      have hab : s.aborted = false := by
        cases hb : s.aborted with
        | false => rfl
        | true => simp [State.result, hb] at hok
      have hret : s.producer = .returned := by
        simp only [State.terminated, hab, Bool.false_or, Bool.and_eq_true] at hterm
        simp only [State.result, hab] at hok
        have h2 := hterm.2
        split at h2
        · assumption
        · rename_i e he
          rw [he] at hok
          simp at hok
        · contradiction
      obtain ⟨hf, _, w, hw, hfin, _⟩ := hinv.file.final hret
      have hinit : (initialState p input ⟨⟨[], 0⟩, false⟩).producer ≠ .returned := by
        simp only [initialState]
        split <;> simp
      obtain ⟨hok1, hlost⟩ := flushed_run hv sched (Inv.init hv) hinit hrun hret
      have hdig : HasDigests p input s.flushed := by
        by_cases hm : Action.joinFlushFail ∈ sched
        · exact (hlost hm).1
        · exact (hok1 hm).hasDigests
      exact ⟨p, input, s, w, hval, hv, hrun, hinv, rfl, rfl, hret, hf, hw, hfin,
        by simp [State.output, hw], hdig, hok1, fun hm => (hlost hm).2⟩

/-! ## The worked call -/

theorem sampleEnv_wellFormed : sampleEnv.WellFormed :=
  ⟨by decide, fun input h => by
      simp only [sampleEnv, Option.some.injEq] at h
      subst h; decide,
    fun _ => rfl, fun _ => by simp [sampleEnv, sampleHash16], by decide, by decide, by decide⟩

theorem sampleEnv_validate : validate sampleEnv = .ok (samplePlan, sampleInput) := by
  rfl

theorem sampleEnv_launch : launch sampleEnv sampleSchedule = some sampleOutcome := by
  decide

/-! ## The signature file of a successful call -/

theorem bytesIn_eq_segment (f : List Byte) (lo n : Nat) :
    bytesIn f lo (lo + n) = segment f lo n := by
  simp [bytesIn, segment, List.drop_take]

theorem bytesIn_eq_chunk (input : List Byte) (bs b : Nat) :
    bytesIn input (b * bs) (min ((b + 1) * bs) input.length) = chunk input bs b := by
  have h1 : (b + 1) * bs = b * bs + bs := Nat.succ_mul _ _
  unfold bytesIn chunk
  rw [List.drop_take, List.take_eq_take, List.length_drop]
  omega

/-- C1: after a successful launch (normal return, so the failure flag is unset), for every
block number `b` below the block count the output bytes
`[32 + digestSize * b, 32 + digestSize * (b + 1))` are the digest of the input bytes
`[b * blockSize, min ((b + 1) * blockSize, fileSize))`; the input is then non-empty and the
block size positive.  The digest function is any function that yields `DIGESTSIZE` bytes. -/
theorem launch_digest_records (env : Env) (sched : List Action) (out : Outcome)
    (input : List Byte) (hasher : HashAlgorithm) (hwf : env.WellFormed)
    (hin : env.input = some input)
    (hh : HashWrapperFactory.createHashWrapper env.crc32 env.md5 env.id = some hasher)
    (hrun : launch env sched = some out) (hok : out.result = .ok) :
    input ≠ [] ∧ 0 < env.blockSize ∧
    ∃ f s, out.output = some f ∧ out.final = some s ∧ s.m_badFlag = false ∧
      ∀ b, b < blockCount input.length env.blockSize →
        bytesIn f (32 + hasher.DIGESTSIZE * b) (32 + hasher.DIGESTSIZE * (b + 1))
          = hasher.CalculateDigest
              (bytesIn input (b * env.blockSize) (min ((b + 1) * env.blockSize) input.length)) := by
  obtain ⟨p, input1, s, w, hval, hv, _, _, hfinal, _, _, hf, _, _, hout, hdig, _, _⟩ :=
    launch_ok hwf hrun hok
  obtain ⟨hbs, hin1, hlen, ds, hasher1, hd, hh1, hp⟩ := validate_ok hval
  rw [hin] at hin1
  simp only [Option.some.injEq] at hin1
  subst hin1
  rw [hh] at hh1
  simp only [Option.some.injEq] at hh1
  subst hh1
  have hmod : input.length % U64 = input.length := Nat.mod_eq_of_lt (hwf.input_lt input hin)
  rw [hmod] at hp hlen
  have hds : ds = hasher.DIGESTSIZE := by
    rcases hasher_cases hd hh with ⟨_, h1, h2⟩ | ⟨_, h1, h2⟩ <;> rw [h2, h1]
  subst hds
  subst hp
  refine ⟨fun h0 => hlen (by rw [h0]; rfl), Nat.pos_of_ne_zero hbs, s.flushed, s, hout, hfinal,
    hf, ?_⟩
  intro b hb
  have h1 := hdig.2 b hb
  simp only [SignatureHeaderTraits.size, Plan.digest] at h1
  rw [bytesIn_eq_chunk, Nat.mul_succ, ← Nat.add_assoc, bytesIn_eq_segment]
  exact h1

/-- C1, witness: for the 10-byte input with block size 4 the three digest records are the
digests of bytes `[0, 4)`, `[4, 8)` and `[8, 10)`. -/
theorem launch_digest_records_witness :
    sampleEnv.WellFormed ∧ launch sampleEnv sampleSchedule = some sampleOutcome ∧
    (sampleInput ≠ [] ∧ 0 < sampleEnv.blockSize ∧
      ∃ f s, sampleOutcome.output = some f ∧ sampleOutcome.final = some s ∧
        s.m_badFlag = false ∧
        ∀ b, b < blockCount sampleInput.length sampleEnv.blockSize →
          bytesIn f (32 + sampleHash.DIGESTSIZE * b) (32 + sampleHash.DIGESTSIZE * (b + 1))
            = sampleHash.CalculateDigest
                (bytesIn sampleInput (b * sampleEnv.blockSize)
                  (min ((b + 1) * sampleEnv.blockSize) sampleInput.length))) ∧
    blockCount sampleInput.length sampleEnv.blockSize = 3 ∧
    bytesIn sampleSignature 32 36 = sampleHash.CalculateDigest [1, 2, 3, 4] ∧
    bytesIn sampleSignature 36 40 = sampleHash.CalculateDigest [5, 6, 7, 8] ∧
    bytesIn sampleSignature 40 44 = sampleHash.CalculateDigest [9, 10] :=
  ⟨sampleEnv_wellFormed, sampleEnv_launch,
    launch_digest_records sampleEnv sampleSchedule sampleOutcome sampleInput sampleHash
      sampleEnv_wellFormed rfl rfl sampleEnv_launch rfl,
    by decide, by decide, by decide, by decide⟩

/-! ## The block plan -/

/-- C2: when `launch` computes its block plan (file size and block size positive, 64-bit and
32-bit unsigned), the block count of line 203 is `ceil (fileSize / blockSize)`; whenever the
producer is about to read block `b`, the read succeeds and delivers exactly `blockSize` bytes
if `b` is not the last block and exactly `fileSize - blockSize * (blockCount - 1)` bytes if
it is; that last size lies in `(0, blockSize]`. -/
theorem launch_block_plan (env : Env) (p : Plan) (input : List Byte) (hwf : env.WellFormed)
    (hval : validate env = .ok (p, input)) :
    0 < input.length ∧ input.length < U64 ∧ 0 < env.blockSize ∧ env.blockSize < U32 ∧
    p.blockCount
      = (input.length / env.blockSize + if input.length % env.blockSize > 0 then 1 else 0) ∧
    p.blockCount = ⌈(input.length : ℚ) / (env.blockSize : ℚ)⌉₊ ∧
    0 < input.length - env.blockSize * (p.blockCount - 1) ∧
    input.length - env.blockSize * (p.blockCount - 1) ≤ env.blockSize ∧
    ∀ (sched : List Action) (s : State) (buffer : Buf),
      run p sched (initialState p input ⟨⟨[], 0⟩, false⟩) = some s →
      s.producer = .atRead buffer →
      s.blockNumber < p.blockCount ∧
      ∃ r d, s.reader.readNextChunk (trimBuffer buffer.data s.bytesToRead p.blockSize)
            = some (r, d) ∧
        d.length = (if s.blockNumber + 1 < p.blockCount then env.blockSize
                    else input.length - env.blockSize * (p.blockCount - 1)) := by
  have hv := validate_valid hwf hval
  obtain ⟨hbs, hin, hlen, ds, hasher, hd, hh, hp⟩ := validate_ok hval
  have hlt := hwf.input_lt input hin
  have hmod : input.length % U64 = input.length := Nat.mod_eq_of_lt hlt
  have hbsp : 0 < env.blockSize := Nat.pos_of_ne_zero hbs
  have hpbs : p.blockSize = env.blockSize := by rw [hp]
  have hpin : p.inputSize = input.length := hv.inputSize_eq
  have hpbc : p.blockCount = blockCount input.length env.blockSize := by
    rw [hv.blockCount_eq, hpin, hpbs]
  have hpos : 0 < input.length := by rw [← hpin]; exact hv.inputSize_pos
  obtain ⟨h0, h1, h2, h3⟩ := blockCount_spec input.length env.blockSize hbsp hpos hlt
  rw [← hpbc] at h0 h1 h2 h3
  have hcomm : env.blockSize * (p.blockCount - 1) = (p.blockCount - 1) * env.blockSize :=
    Nat.mul_comm _ _
  have hsplit : p.blockCount * env.blockSize
      = (p.blockCount - 1) * env.blockSize + env.blockSize := by
    rw [← Nat.succ_mul]; congr 1; omega
  refine ⟨hpos, hlt, hbsp, hwf.blockSize_lt, ?_, ?_, by omega, by omega, ?_⟩
  · rw [hpbc]
    unfold blockCount
    apply Nat.mod_eq_of_lt
    have h4 := Nat.div_add_mod input.length env.blockSize
    have h5 : input.length / env.blockSize ≤ env.blockSize * (input.length / env.blockSize) :=
      Nat.le_mul_of_pos_left _ hbsp
    split <;> omega
  · rw [hpbc]
    exact blockCount_eq_ceil _ _ hbsp hpos hlt
  · intro sched s buffer hrun hread
    have hinv := (Inv.of_run hv sched (Inv.init hv) hrun).producer
    have hloop := hinv.inLoop
    rw [hread] at hloop
    simp only at hloop
    have hb := hinv.bytes hloop
    have hk := hv.offset_lt hloop
    rw [hpin] at hb hk
    have hr := readNextChunk_chunk s.reader input buffer.data p.blockSize s.blockNumber
      hinv.file_eq (hinv.pos (Or.inr ⟨_, hread⟩)) (hinv.sizeRead _ hread) hk
    rw [← hb] at hr
    refine ⟨hloop, _, _, hr, ?_⟩
    rw [length_chunk, hpbs]
    rw [hpbs] at hk
    by_cases hc : s.blockNumber + 1 < p.blockCount
    · have h6 := hv.offset_lt hc
      rw [hpin, hpbs, Nat.succ_mul] at h6
      simp only [hc, if_true]
      omega
    · have h7 : s.blockNumber = p.blockCount - 1 := by omega
      simp only [hc, if_false]
      rw [h7]
      omega

/-- C2, witness: file size 10 and block size 4 give block count 3 and the sizes 4, 4, 2. -/
theorem launch_block_plan_witness :
    sampleEnv.WellFormed ∧ validate sampleEnv = .ok (samplePlan, sampleInput) ∧
    samplePlan.blockCount = 3 ∧
    (run samplePlan [.acquire, .read] (initialState samplePlan sampleInput ⟨⟨[], 0⟩, false⟩)).map
        (fun s => s.producer) = some (.atHashPool ⟨1, [1, 2, 3, 4]⟩) ∧
    (run samplePlan (sampleBlock ++ [.acquire, .read])
        (initialState samplePlan sampleInput ⟨⟨[], 0⟩, false⟩)).map
        (fun s => s.producer) = some (.atHashPool ⟨1, [5, 6, 7, 8]⟩) ∧
    (run samplePlan (sampleBlock ++ sampleBlock ++ [.acquire, .read])
        (initialState samplePlan sampleInput ⟨⟨[], 0⟩, false⟩)).map
        (fun s => s.producer) = some (.atHashPool ⟨1, [9, 10]⟩) ∧
    samplePlan.blockCount = ⌈((sampleInput.length : ℕ) : ℚ) / ((sampleEnv.blockSize : ℕ) : ℚ)⌉₊ :=
  ⟨sampleEnv_wellFormed, sampleEnv_validate, rfl, by decide, by decide, by decide,
    (launch_block_plan sampleEnv samplePlan sampleInput sampleEnv_wellFormed
      sampleEnv_validate).2.2.2.2.2.1⟩

/-! ## Length and header of the signature file -/

/-- What a successful call fixes: the plan, the input and the file left on disk. -/
theorem launch_ok_signature {env : Env} {sched : List Action} {out : Outcome}
    {input : List Byte} (hwf : env.WellFormed) (hin : env.input = some input)
    (hrun : launch env sched = some out) (hok : out.result = .ok) :
    ∃ p f, validate env = .ok (p, input) ∧ p.Valid input ∧ out.output = some f ∧
      (HasDigests p input f ∧
        (Action.joinFlushFail ∉ sched → IsSignature p input f) ∧
        (Action.joinFlushFail ∈ sched →
          segment f 0 SignatureHeaderTraits.size
            = List.replicate SignatureHeaderTraits.size 0)) ∧
      p.inputSize = input.length ∧ p.blockSize = env.blockSize ∧
      p.id = env.id ∧ p.blockCount = blockCount input.length env.blockSize ∧
      HashTraits.digestSize env.crc32 env.md5 env.id = some p.digestSize ∧
      HashWrapperFactory.createHashWrapper env.crc32 env.md5 env.id = some p.hasher ∧
      env.id < 2 := by
  obtain ⟨p, input1, s, w, hval, hv, _, _, _, _, _, _, _, _, hout, hdig, hflu, hlost⟩ :=
    launch_ok hwf hrun hok
  have hsig := And.intro hdig (And.intro hflu hlost)
  obtain ⟨hbs, hin1, hlen, ds, hasher, hd, hh, hp⟩ := validate_ok hval
  rw [hin] at hin1
  simp only [Option.some.injEq] at hin1
  subst hin1
  have hmod : input.length % U64 = input.length := Nat.mod_eq_of_lt (hwf.input_lt input hin)
  rw [hmod] at hp
  have hid : env.id < 2 := by
    rcases hasher_cases hd hh with ⟨h1, _, _⟩ | ⟨h1, _, _⟩ <;> omega
  subst hp
  exact ⟨_, s.flushed, hval, hv, hout, hsig, rfl, rfl, rfl, rfl, hd, hh, hid⟩

/-- C3: after a successful launch the output file is exactly
`32 + digestSize(id) * blockCount` bytes long, with `blockCount = ceil (fileSize / blockSize)`. -/
theorem launch_output_length (env : Env) (sched : List Action) (out : Outcome)
    (input : List Byte) (digestSize : Nat) (hwf : env.WellFormed)
    (hin : env.input = some input)
    (hd : HashTraits.digestSize env.crc32 env.md5 env.id = some digestSize)
    (hrun : launch env sched = some out) (hok : out.result = .ok) :
    ∃ f, out.output = some f ∧
      f.length = 32 + digestSize * ⌈(input.length : ℚ) / (env.blockSize : ℚ)⌉₊ := by
  obtain ⟨p, f, hval, hv, hout, hsig, hpin, hpbs, _, hpbc, hpd, _, _⟩ :=
    launch_ok_signature hwf hin hrun hok
  rw [hd] at hpd
  simp only [Option.some.injEq] at hpd
  refine ⟨f, hout, ?_⟩
  have hceil := blockCount_eq_ceil input.length env.blockSize
    (by rw [← hpbs]; exact hv.blockSize_pos) (by rw [← hpin]; exact hv.inputSize_pos)
    (by rw [← hpin]; exact hv.inputSize_lt)
  rw [← hceil, ← hpbc, hpd]
  exact hsig.1.1

/-- C3, witness: the 10-byte input with block size 4 and 4-byte digests gives 44 bytes. -/
theorem launch_output_length_witness :
    sampleEnv.WellFormed ∧ launch sampleEnv sampleSchedule = some sampleOutcome ∧
    sampleSignature.length = 44 ∧
    ∃ f, sampleOutcome.output = some f ∧
      f.length = 32 + 4 * ⌈((sampleInput.length : ℕ) : ℚ) / ((sampleEnv.blockSize : ℕ) : ℚ)⌉₊ :=
  ⟨sampleEnv_wellFormed, sampleEnv_launch, rfl,
    launch_output_length sampleEnv sampleSchedule sampleOutcome sampleInput 4
      sampleEnv_wellFormed rfl rfl sampleEnv_launch rfl⟩

theorem rawBytes_two_mod (v : Nat) : rawBytes 2 (v % 65536) = rawBytes 2 v := by
  have h1 : v % 65536 / 256 ^ 0 % 256 = v / 256 ^ 0 % 256 := by
    simp only [Nat.pow_zero, Nat.div_one]; omega
  have h2 : v % 65536 / 256 ^ 1 % 256 = v / 256 ^ 1 % 256 := by
    simp only [Nat.pow_one]; omega
  simp only [rawBytes, List.range_succ, List.range_zero, List.nil_append, List.map_cons,
    List.map_nil, List.cons_append, List.map_append, h1, h2]

/-- C4: `launch` returns normally also when the flush of the header fails: `writeHeader`
leaves the 32 bytes in the stream buffer, `finalize()` comes before the stream is destroyed,
and the destructor of the file buffer swallows the failure.  After a successful launch in
which that flush succeeded, bytes `[0, 32)` of the output file are the fields of the header
in declared order without padding: the mark `0x53464D56` (4 bytes), version 1 (2 bytes), the
hash function id (2 bytes), the input size (8 bytes), the block size (4 bytes) and three zero
reserved fields (4 bytes each).  After a successful launch in which it failed, bytes
`[0, 32)` are 32 zero bytes, which is not the header.  `writeHeader` on any writer emits
exactly `32 = SignatureHeaderTraits::size()` bytes at offset 0 and leaves every byte from
offset 32 on, that is every digest record, as it was. -/
theorem launch_header (env : Env) (sched : List Action) (out : Outcome) (input : List Byte)
    (hwf : env.WellFormed) (hin : env.input = some input)
    (hrun : launch env sched = some out) (hok : out.result = .ok) :
    (∃ f, out.output = some f ∧
      (Action.joinFlushFail ∉ sched →
        bytesIn f 0 32 = rawBytes 4 0x53464D56 ++ rawBytes 2 1 ++ rawBytes 2 env.id ++
          rawBytes 8 input.length ++ rawBytes 4 env.blockSize ++
          rawBytes 4 0 ++ rawBytes 4 0 ++ rawBytes 4 0) ∧
      (Action.joinFlushFail ∈ sched →
        bytesIn f 0 32 = List.replicate 32 0 ∧
        bytesIn f 0 32 ≠ rawBytes 4 0x53464D56 ++ rawBytes 2 1 ++ rawBytes 2 env.id ++
          rawBytes 8 input.length ++ rawBytes 4 env.blockSize ++
          rawBytes 4 0 ++ rawBytes 4 0 ++ rawBytes 4 0)) ∧
    ∀ (w : OutputFileWriter) (header : SignatureHeader),
      ∃ w1 bytes, w.writeHeader header = some w1 ∧
        bytes = rawBytes 4 header.fileMark ++ rawBytes 2 header.formatVersion ++
          rawBytes 2 header.hashFunctionId ++ rawBytes 8 header.originalFileSize ++
          rawBytes 4 header.blockSize ++ rawBytes 4 header.reserved1 ++
          rawBytes 4 header.reserved2 ++ rawBytes 4 header.reserved3 ∧
        bytes.length = 32 ∧ SignatureHeaderTraits.size = 32 ∧
        w1.m_ofs.file = writeAt w.m_ofs.file 0 bytes ∧ w1.m_ofs.pos = 32 ∧
        bytesIn w1.m_ofs.file 0 32 = bytes ∧
        w1.m_ofs.file.drop 32 = w.m_ofs.file.drop 32 := by
  constructor
  · obtain ⟨p, f, _, _, hout, ⟨_, hflu, hlost⟩, hpin, hpbs, hpid, _, _, _, hid⟩ :=
      launch_ok_signature hwf hin hrun hok
    refine ⟨f, hout, fun hm => ?_, fun hm => ?_⟩
    · have h1 := (hflu hm).2.1
      rw [← bytesIn_eq_segment] at h1
      simp only [SignatureHeaderTraits.size, Nat.zero_add] at h1
      rw [h1, Plan.headerBytes, hpin, hpbs, hpid, rawBytes_two_mod]
    · have h1 := hlost hm
      rw [← bytesIn_eq_segment] at h1
      simp only [SignatureHeaderTraits.size, Nat.zero_add] at h1
      refine ⟨h1, ?_⟩
      rw [h1]
      intro h0
      have h2 := congrArg List.head? h0
      simp [rawBytes, List.range_succ] at h2
  · intro w header
    obtain ⟨w1, hw1, hfile, _⟩ := writeHeader_eq w header
    have hlen : (rawBytes 4 header.fileMark ++ rawBytes 2 header.formatVersion ++
          rawBytes 2 header.hashFunctionId ++ rawBytes 8 header.originalFileSize ++
          rawBytes 4 header.blockSize ++ rawBytes 4 header.reserved1 ++
          rawBytes 4 header.reserved2 ++ rawBytes 4 header.reserved3).length = 32 := by
      simp [length_rawBytes]
    have hne : (rawBytes 4 header.fileMark ++ rawBytes 2 header.formatVersion ++
          rawBytes 2 header.hashFunctionId ++ rawBytes 8 header.originalFileSize ++
          rawBytes 4 header.blockSize ++ rawBytes 4 header.reserved1 ++
          rawBytes 4 header.reserved2 ++ rawBytes 4 header.reserved3) ≠ [] := by
      intro h0; rw [h0] at hlen; simp at hlen
    refine ⟨w1, _, hw1, rfl, hlen, rfl, hfile, ?_, ?_, ?_⟩
    · unfold OutputFileWriter.writeHeader ofstream.seekp at hw1
      simp only [streamoffLimit, Nat.zero_lt_succ, if_true, Option.some.injEq] at hw1
      rw [← hw1]
      simp [ofstream.write, length_rawBytes]
    · rw [hfile, ← hlen]
      have := bytesIn_eq_segment (writeAt w.m_ofs.file 0
        (rawBytes 4 header.fileMark ++ rawBytes 2 header.formatVersion ++
          rawBytes 2 header.hashFunctionId ++ rawBytes 8 header.originalFileSize ++
          rawBytes 4 header.blockSize ++ rawBytes 4 header.reserved1 ++
          rawBytes 4 header.reserved2 ++ rawBytes 4 header.reserved3)) 0
        (rawBytes 4 header.fileMark ++ rawBytes 2 header.formatVersion ++
          rawBytes 2 header.hashFunctionId ++ rawBytes 8 header.originalFileSize ++
          rawBytes 4 header.blockSize ++ rawBytes 4 header.reserved1 ++
          rawBytes 4 header.reserved2 ++ rawBytes 4 header.reserved3).length
      rw [Nat.zero_add] at this
      rw [this]
      exact segment_writeAt_self _ _ _
    · rw [hfile]
      apply List.ext_getElem?
      intro i
      rw [List.getElem?_drop, List.getElem?_drop, getElem?_writeAt _ _ _ _ hne, hlen]
      have h1 : ¬ 32 + i < 0 := by omega
      have h2 : ¬ 32 + i < 0 + 32 := by omega
      simp only [h1, h2, if_false]

/-- C4, witness: in the worked call the three blocks are written, the hasher returns and the
producer joins, writes the header and finalises; the flush of the header fails when the
stream is destroyed.  The call returns normally and the file holds 32 zero bytes where the
header should be. -/
theorem launch_header_witness :
    sampleEnv.WellFormed ∧ sampleEnv.input = some sampleInput ∧
    launch sampleEnv sampleFlushFailSchedule = some sampleFlushFailOutcome ∧
    sampleFlushFailOutcome.result = .ok ∧
    sampleFlushFailOutcome.output = some sampleHeaderless ∧
    Action.joinFlushFail ∈ sampleFlushFailSchedule ∧
    bytesIn sampleHeaderless 0 32 = List.replicate 32 0 ∧
    bytesIn sampleSignature 0 32
      = [86, 77, 70, 83] ++ [1, 0] ++ [0, 0] ++ [10, 0, 0, 0, 0, 0, 0, 0] ++ [4, 0, 0, 0] ++
          [0, 0, 0, 0] ++ [0, 0, 0, 0] ++ [0, 0, 0, 0] ∧
    ∃ f, sampleFlushFailOutcome.output = some f ∧
      (Action.joinFlushFail ∉ sampleFlushFailSchedule →
        bytesIn f 0 32 = rawBytes 4 0x53464D56 ++ rawBytes 2 1 ++ rawBytes 2 sampleEnv.id ++
          rawBytes 8 sampleInput.length ++ rawBytes 4 sampleEnv.blockSize ++
          rawBytes 4 0 ++ rawBytes 4 0 ++ rawBytes 4 0) ∧
      (Action.joinFlushFail ∈ sampleFlushFailSchedule →
        bytesIn f 0 32 = List.replicate 32 0 ∧
        bytesIn f 0 32 ≠ rawBytes 4 0x53464D56 ++ rawBytes 2 1 ++ rawBytes 2 sampleEnv.id ++
          rawBytes 8 sampleInput.length ++ rawBytes 4 sampleEnv.blockSize ++
          rawBytes 4 0 ++ rawBytes 4 0 ++ rawBytes 4 0) :=
  ⟨sampleEnv_wellFormed, rfl, by decide, rfl, rfl, by decide, by decide, by decide,
    (launch_header sampleEnv sampleFlushFailSchedule sampleFlushFailOutcome sampleInput
      sampleEnv_wellFormed rfl (by decide) rfl).1⟩

/-! ## The constructor of the writer -/

/-- C9: constructing the writer for 3 blocks of 4-byte digests calls `resize_file` with
`32 + 4 * 3 = 44` and the file then has 44 bytes, but the second `open` (line 70, mode
`out | binary`) truncates it: the constructor leaves the file with length 0, for every digest
size and block count.  The writes then grow the file: `writeHash (0, _)` takes it from 0 to
36 bytes, `writeHeader` from 0 to 32 bytes. -/
theorem writer_create_length :
    OutputFileWriter.presetSize 4 3 = 44 ∧
    (OutputFileWriter.afterResize 4 3).length = 44 ∧
    OutputFileWriter.create none none 4 3 = (some [], .ok OutputFileWriter.fresh) ∧
    (∀ disk hashSize blockCount,
      OutputFileWriter.create disk none hashSize blockCount
        = (some [], .ok OutputFileWriter.fresh)) ∧
    OutputFileWriter.fresh.content.length = 0 ∧
    (OutputFileWriter.fresh.writeHash 0 [1, 2, 3, 4]).map (fun w => w.content.length)
      = some 36 ∧
    (OutputFileWriter.fresh.writeHeader {}).map (fun w => w.content.length) = some 32 :=
  ⟨by decide, by decide, rfl, fun _ _ _ => rfl, rfl, by decide, by decide⟩

/-! ## Rejected arguments -/

/-- C7: with block size 0 (whatever the paths), or with a positive block size and an
existing empty input file, `launch` raises `std::invalid_argument` from the checks of lines
191-200, before the writer is constructed: the file at the output path is what it was before
the call (absent if it was absent), and no pool, digest slot or thread was set up. -/
theorem launch_invalid_argument (env : Env) (sched : List Action)
    (h : env.blockSize = 0 ∨ (0 < env.blockSize ∧ env.input = some [])) :
    ∃ what, validate env = .error (.invalid_argument what) ∧
      launch env sched
        = some { result := .error (.invalid_argument what), output := env.output,
                 writerConstructed := false, final := none } := by
  rcases h with h | ⟨h1, h2⟩
  · refine ⟨"Block size is zero", ?_, ?_⟩
    · simp [validate, h]
    · simp [launch, validate, h]
  · have h3 : env.blockSize ≠ 0 := by omega
    refine ⟨"Input file is empty", ?_, ?_⟩
    · simp [validate, h3, h2]
    · simp [launch, validate, h3, h2]

/-- C7, witness: block size 0 with an output file already present, and an empty input. -/
theorem launch_invalid_argument_witness :
    (∃ what, validate { sampleEnv with blockSize := 0, output := some [1, 2, 3] }
        = .error (.invalid_argument what) ∧
      launch { sampleEnv with blockSize := 0, output := some [1, 2, 3] } sampleSchedule
        = some { result := .error (.invalid_argument what), output := some [1, 2, 3],
                 writerConstructed := false, final := none }) ∧
    launch { sampleEnv with input := some [] } []
      = some { result := .error (.invalid_argument "Input file is empty"), output := none,
               writerConstructed := false, final := none } :=
  ⟨launch_invalid_argument { sampleEnv with blockSize := 0, output := some [1, 2, 3] }
      sampleSchedule (Or.inl rfl), by decide⟩

/-! ## Order of the digest writes -/

theorem writeAt_comm (f a b : List Byte) (o1 o2 : Nat)
    (hd : o1 + a.length ≤ o2 ∨ o2 + b.length ≤ o1) :
    writeAt (writeAt f o1 a) o2 b = writeAt (writeAt f o2 b) o1 a := by
  by_cases ha : a = []
  · subst ha; simp [writeAt_nil]
  by_cases hb : b = []
  · subst hb; simp [writeAt_nil]
  have hla : 0 < a.length := List.length_pos.mpr ha
  have hlb : 0 < b.length := List.length_pos.mpr hb
  apply List.ext_getElem?
  intro i
  rw [getElem?_writeAt _ _ _ _ hb, getElem?_writeAt _ _ _ _ ha, getElem?_writeAt _ _ _ _ ha,
    getElem?_writeAt _ _ _ _ hb, length_writeAt _ _ _ ha, length_writeAt _ _ _ hb]
  split_ifs <;> first | rfl | omega

/-- The file content after `writeHashes`, computed on the content alone. -/
theorem writeHashes_content (rs : List result_t) :
    ∀ w : OutputFileWriter,
      (w.writeHashes rs).map OutputFileWriter.content
        = if ∀ r ∈ rs, OutputFileWriter.hashOffset r.1.length r.2 < streamoffLimit then
            some (rs.foldl
              (fun f r => writeAt f (OutputFileWriter.hashOffset r.1.length r.2) r.1) w.content)
          else none := by
  induction rs with
  | nil => intro w; simp [OutputFileWriter.writeHashes]
  | cons r rest ih =>
      intro w
      unfold OutputFileWriter.writeHashes
      cases hw : w.writeHash r.2 r.1 with
      | none =>
          have hns : ¬ OutputFileWriter.hashOffset r.1.length r.2 < streamoffLimit := by
            intro hlt
            simp [OutputFileWriter.writeHash, ofstream.seekp, hlt] at hw
          have : ¬ ∀ r1 ∈ r :: rest,
              OutputFileWriter.hashOffset r1.1.length r1.2 < streamoffLimit :=
            fun h => hns (h r (List.mem_cons_self _ _))
          simp only [this, if_false, Option.map_none']
      | some w1 =>
          obtain ⟨hoff, hfile, _⟩ := writeHash_eq hw
          simp only [ih w1, List.forall_mem_cons, hoff, true_and, List.foldl_cons]
          rw [OutputFileWriter.content, hfile]
          rfl

/-- Two files that are signatures of the same input under plans with the same parameters
are the same file. -/
theorem signature_unique {p q : Plan} {input f g : List Byte} (hds : q.digestSize = p.digestSize)
    (hbc : q.blockCount = p.blockCount) (hhd : q.headerBytes = p.headerBytes)
    (hdg : ∀ b, q.digest input b = p.digest input b)
    (hf : IsSignature p input f) (hg : IsSignature q input g) : f = g := by
  obtain ⟨hf1, hf2, hf3⟩ := hf
  obtain ⟨hg1, hg2, hg3⟩ := hg
  rw [hds, hbc] at hg1
  rw [hhd] at hg2
  apply List.ext_getElem?
  intro i
  by_cases h1 : i < SignatureHeaderTraits.size
  · have e1 := getElem?_segment f 0 SignatureHeaderTraits.size i
    have e2 := getElem?_segment g 0 SignatureHeaderTraits.size i
    simp only [h1, if_true, Nat.zero_add] at e1 e2
    rw [← e1, ← e2, hf2, hg2]
  · by_cases h2 : i < SignatureHeaderTraits.size + p.digestSize * p.blockCount
    · have hpos : 0 < p.digestSize := by
        rcases Nat.eq_zero_or_pos p.digestSize with h0 | h0
        · rw [h0] at h2; simp at h2; omega
        · exact h0
      have hdm := Nat.div_add_mod (i - SignatureHeaderTraits.size) p.digestSize
      have hm := Nat.mod_lt (i - SignatureHeaderTraits.size) hpos
      have hk : (i - SignatureHeaderTraits.size) / p.digestSize < p.blockCount := by
        rw [Nat.div_lt_iff_lt_mul hpos, Nat.mul_comm]
        omega
      have e1 := getElem?_segment f
        (SignatureHeaderTraits.size
          + p.digestSize * ((i - SignatureHeaderTraits.size) / p.digestSize))
        p.digestSize ((i - SignatureHeaderTraits.size) % p.digestSize)
      have e2 := getElem?_segment g
        (SignatureHeaderTraits.size
          + p.digestSize * ((i - SignatureHeaderTraits.size) / p.digestSize))
        p.digestSize ((i - SignatureHeaderTraits.size) % p.digestSize)
      have hi : SignatureHeaderTraits.size
          + p.digestSize * ((i - SignatureHeaderTraits.size) / p.digestSize)
          + (i - SignatureHeaderTraits.size) % p.digestSize = i := by omega
      simp only [hm, if_true, hi] at e1 e2
      have e3 := hg3 _ (hbc ▸ hk)
      rw [hds, hdg] at e3
      rw [← e1, ← e2, hf3 _ hk, e3]
    · rw [List.getElem?_eq_none (by omega), List.getElem?_eq_none (by omega)]

theorem writeHashes_order {w : OutputFileWriter} {digestSize blockCount : Nat}
    {rs rs' : List result_t} (hds : digestSize < U32)
    (hblocks : (rs.map Prod.snd).Perm (List.range blockCount))
    (hlen : ∀ r ∈ rs, r.1.length = digestSize) (hperm : rs'.Perm rs) :
    (w.writeHashes rs').map OutputFileWriter.content
        = (w.writeHashes rs).map OutputFileWriter.content ∧
    ((w.writeHashes rs).isSome = true →
      ∀ b, b < blockCount →
        OutputFileWriter.hashOffset digestSize b = 32 + digestSize * b ∧
        32 ≤ OutputFileWriter.hashOffset digestSize b ∧
        ∀ c, c < blockCount → b < c →
          OutputFileWriter.hashOffset digestSize b + digestSize
            ≤ OutputFileWriter.hashOffset digestSize c) := by
  have hmem : ∀ k, k < blockCount → ∃ r ∈ rs, r.2 = k := by
    intro k hk
    have : k ∈ rs.map Prod.snd := hblocks.mem_iff.mpr (List.mem_range.mpr hk)
    obtain ⟨r, hr, hrk⟩ := List.mem_map.mp this
    exact ⟨r, hr, hrk⟩
  have hlt : ∀ r ∈ rs, r.2 < blockCount := by
    intro r hr
    exact List.mem_range.mp (hblocks.mem_iff.mp (List.mem_map_of_mem _ hr))
  have hnodup : (rs.map Prod.snd).Nodup := hblocks.nodup_iff.mpr (List.nodup_range _)
  have hnw : (∀ r ∈ rs, OutputFileWriter.hashOffset r.1.length r.2 < streamoffLimit) →
      SignatureHeaderTraits.size + digestSize * blockCount < U64 := by
    intro hall
    apply noWrap_of_seekable hds
    intro k hk
    obtain ⟨r, hr, hrk⟩ := hmem k hk
    have := hall r hr
    rwa [hlen r hr, hrk] at this
  constructor
  · rw [writeHashes_content, writeHashes_content]
    have hiff : (∀ r ∈ rs', OutputFileWriter.hashOffset r.1.length r.2 < streamoffLimit) ↔
        (∀ r ∈ rs, OutputFileWriter.hashOffset r.1.length r.2 < streamoffLimit) :=
      ⟨fun h r hr => h r (hperm.mem_iff.mpr hr), fun h r hr => h r (hperm.mem_iff.mp hr)⟩
    by_cases hall : ∀ r ∈ rs, OutputFileWriter.hashOffset r.1.length r.2 < streamoffLimit
    · rw [if_pos hall, if_pos (hiff.mpr hall)]
      congr 1
      have hw := hnw hall
      apply List.Perm.foldl_eq' hperm
      intro x hx y hy f
      have hx1 := hperm.mem_iff.mp hx
      have hy1 := hperm.mem_iff.mp hy
      by_cases hxy : x.2 = y.2
      · have : x = y := List.inj_on_of_nodup_map hnodup hx1 hy1 hxy
        rw [this]
      · rw [hlen x hx1, hlen y hy1, hashOffset_noWrap hw (hlt x hx1),
          hashOffset_noWrap hw (hlt y hy1)]
        apply writeAt_comm
        rw [hlen x hx1, hlen y hy1]
        rcases Nat.lt_or_gt_of_ne hxy with h1 | h1
        · left
          have : digestSize * (x.2 + 1) ≤ digestSize * y.2 := Nat.mul_le_mul_left _ h1
          rw [Nat.mul_succ] at this
          omega
        · right
          have : digestSize * (y.2 + 1) ≤ digestSize * x.2 := Nat.mul_le_mul_left _ h1
          rw [Nat.mul_succ] at this
          omega
    · rw [if_neg hall, if_neg (fun h => hall (hiff.mp h))]
  · intro hsome
    have hall : ∀ r ∈ rs, OutputFileWriter.hashOffset r.1.length r.2 < streamoffLimit := by
      by_contra hna
      have h1 := writeHashes_content rs w
      rw [if_neg hna] at h1
      cases h2 : w.writeHashes rs with
      | none => rw [h2] at hsome; simp at hsome
      | some w1 => rw [h2] at h1; simp at h1
    have hw := hnw hall
    intro b hb
    refine ⟨hashOffset_noWrap hw hb, ?_, ?_⟩
    · rw [hashOffset_noWrap hw hb]
      simp [SignatureHeaderTraits.size]
    · intro c hc hbc
      rw [hashOffset_noWrap hw hb, hashOffset_noWrap hw hc]
      have : digestSize * (b + 1) ≤ digestSize * c := Nat.mul_le_mul_left _ hbc
      rw [Nat.mul_succ] at this
      omega

/-- Two files that hold the digest records of the same input under plans with the same
parameters agree from byte 32 on, and are the same file if they agree on bytes `[0, 32)`. -/
theorem digests_unique {p q : Plan} {input f g : List Byte} (hds : q.digestSize = p.digestSize)
    (hbc : q.blockCount = p.blockCount) (hdg : ∀ b, q.digest input b = p.digest input b)
    (hf : HasDigests p input f) (hg : HasDigests q input g) :
    f.drop SignatureHeaderTraits.size = g.drop SignatureHeaderTraits.size ∧
      (segment f 0 SignatureHeaderTraits.size = segment g 0 SignatureHeaderTraits.size →
        f = g) := by
  obtain ⟨hf1, hf3⟩ := hf
  obtain ⟨hg1, hg3⟩ := hg
  rw [hds, hbc] at hg1
  have hrec : ∀ i, SignatureHeaderTraits.size ≤ i → f[i]? = g[i]? := by
    intro i h1
    by_cases h2 : i < SignatureHeaderTraits.size + p.digestSize * p.blockCount
    · have hpos : 0 < p.digestSize := by
        rcases Nat.eq_zero_or_pos p.digestSize with h0 | h0
        · rw [h0] at h2; simp at h2; omega
        · exact h0
      have hdm := Nat.div_add_mod (i - SignatureHeaderTraits.size) p.digestSize
      have hm := Nat.mod_lt (i - SignatureHeaderTraits.size) hpos
      have hk : (i - SignatureHeaderTraits.size) / p.digestSize < p.blockCount := by
        rw [Nat.div_lt_iff_lt_mul hpos, Nat.mul_comm]
        omega
      have e1 := getElem?_segment f
        (SignatureHeaderTraits.size
          + p.digestSize * ((i - SignatureHeaderTraits.size) / p.digestSize))
        p.digestSize ((i - SignatureHeaderTraits.size) % p.digestSize)
      have e2 := getElem?_segment g
        (SignatureHeaderTraits.size
          + p.digestSize * ((i - SignatureHeaderTraits.size) / p.digestSize))
        p.digestSize ((i - SignatureHeaderTraits.size) % p.digestSize)
      have hi : SignatureHeaderTraits.size
          + p.digestSize * ((i - SignatureHeaderTraits.size) / p.digestSize)
          + (i - SignatureHeaderTraits.size) % p.digestSize = i := by omega
      simp only [hm, if_true, hi] at e1 e2
      have e3 := hg3 _ (hbc ▸ hk)
      rw [hds, hdg] at e3
      rw [← e1, ← e2, hf3 _ hk, e3]
    · rw [List.getElem?_eq_none (by omega), List.getElem?_eq_none (by omega)]
  refine ⟨?_, fun hseg => ?_⟩
  · apply List.ext_getElem?
    intro i
    rw [List.getElem?_drop, List.getElem?_drop]
    exact hrec _ (by omega)
  · apply List.ext_getElem?
    intro i
    by_cases h1 : i < SignatureHeaderTraits.size
    · have e1 := getElem?_segment f 0 SignatureHeaderTraits.size i
      have e2 := getElem?_segment g 0 SignatureHeaderTraits.size i
      simp only [h1, if_true, Nat.zero_add] at e1 e2
      rw [← e1, ← e2, hseg]
    · exact hrec i (by omega)

/-- Two successful calls on the same input with the same block size and algorithm leave
files that agree from byte 32 on, whatever the schedules and the numbers of hardware threads;
they leave the same file when the flush of the header succeeded in both or failed in both. -/
theorem launch_deterministic {env env' : Env} {sched sched' : List Action}
    {out out' : Outcome} {input : List Byte} (hwf : env.WellFormed) (hwf' : env'.WellFormed)
    (hin : env.input = some input) (hin' : env'.input = some input)
    (hbs : env'.blockSize = env.blockSize) (hid : env'.id = env.id)
    (hcrc : env'.crc32 = env.crc32) (hmd5 : env'.md5 = env.md5)
    (hrun : launch env sched = some out) (hrun' : launch env' sched' = some out')
    (hok : out.result = .ok) (hok' : out'.result = .ok) :
    out'.output.map (List.drop 32) = out.output.map (List.drop 32) ∧
      ((Action.joinFlushFail ∈ sched' ↔ Action.joinFlushFail ∈ sched) →
        out'.output = out.output) := by
  obtain ⟨p, f, _, _, hout, ⟨hdig, hflu, hlost⟩, hpin, hpbs, hpid, hpbc, hpd, hph, _⟩ :=
    launch_ok_signature hwf hin hrun hok
  obtain ⟨q, g, _, _, hout', ⟨hdig', hflu', hlost'⟩, hqin, hqbs, hqid, hqbc, hqd, hqh, _⟩ :=
    launch_ok_signature hwf' hin' hrun' hok'
  rw [hbs] at hqbs hqbc
  rw [hid, hcrc, hmd5] at hqd hqh
  rw [hid] at hqid
  rw [hpd] at hqd
  rw [hph] at hqh
  simp only [Option.some.injEq] at hqd hqh
  have hdg : ∀ b, q.digest input b = p.digest input b := by
    intro b
    simp only [Plan.digest, ← hqh, hqbs, hpbs]
  obtain ⟨hdrop, hsame⟩ := digests_unique hqd.symm (by rw [hqbc, hpbc]) hdg hdig hdig'
  rw [hout, hout']
  refine ⟨by simpa [SignatureHeaderTraits.size] using congrArg some hdrop.symm, fun hiff => ?_⟩
  congr 1
  refine (hsame ?_).symm
  by_cases hm : Action.joinFlushFail ∈ sched
  · rw [hlost hm, hlost' (hiff.mpr hm)]
  · have hm' : Action.joinFlushFail ∉ sched' := fun h => hm (hiff.mp h)
    rw [(hflu hm).2.1, (hflu' hm').2.1]
    simp only [Plan.headerBytes, hqin, hpin, hqbs, hpbs, hqid, hpid]

/-- C5: for the results of all blocks `0 .. blockCount - 1`, each with a digest of
`digestSize` bytes, applying `writeHash` to them in any permutation yields the same file
content (and fails in every order if it fails in one).  When the writes succeed, the record
of block `b` starts at `32 + digestSize * b`, at or after the end of the header range
`[0, 32)`, and the records of distinct blocks do not overlap.  Hence two successful launches
on the same input, block size and algorithm leave the same bytes from offset 32 on, that is
the same digest records, whatever the order in which the hashers complete and whatever the
number of hasher threads; they leave the same output file when the flush of the header at the
end of the call succeeded in both or failed in both. -/
theorem writeHash_order_independent (w : OutputFileWriter) (digestSize blockCount : Nat)
    (rs rs' : List result_t) (hds : digestSize < U32)
    (hblocks : (rs.map Prod.snd).Perm (List.range blockCount))
    (hlen : ∀ r ∈ rs, r.1.length = digestSize) (hperm : rs'.Perm rs) :
    (w.writeHashes rs').map OutputFileWriter.content
        = (w.writeHashes rs).map OutputFileWriter.content ∧
    ((w.writeHashes rs).isSome = true →
      ∀ b, b < blockCount →
        OutputFileWriter.hashOffset digestSize b = 32 + digestSize * b ∧
        32 ≤ OutputFileWriter.hashOffset digestSize b ∧
        ∀ c, c < blockCount → b < c →
          OutputFileWriter.hashOffset digestSize b + digestSize
            ≤ OutputFileWriter.hashOffset digestSize c) ∧
    ∀ (env env' : Env) (sched sched' : List Action) (out out' : Outcome) (input : List Byte),
      env.WellFormed → env'.WellFormed → env.input = some input → env'.input = some input →
      env'.blockSize = env.blockSize → env'.id = env.id → env'.crc32 = env.crc32 →
      env'.md5 = env.md5 → launch env sched = some out → launch env' sched' = some out' →
      out.result = .ok → out'.result = .ok →
      out'.output.map (List.drop 32) = out.output.map (List.drop 32) ∧
        ((Action.joinFlushFail ∈ sched' ↔ Action.joinFlushFail ∈ sched) →
          out'.output = out.output) :=
  ⟨(writeHashes_order hds hblocks hlen hperm).1, (writeHashes_order hds hblocks hlen hperm).2,
    fun _ _ _ _ _ _ _ hwf hwf' hin hin' hbs hid hcrc hmd5 hrun hrun' hok hok' =>
      launch_deterministic hwf hwf' hin hin' hbs hid hcrc hmd5 hrun hrun' hok hok'⟩

theorem sampleEnv2_wellFormed : sampleEnv2.WellFormed :=
  ⟨by decide, fun input h => by
      simp only [sampleEnv2, sampleEnv, Option.some.injEq] at h
      subst h; decide,
    fun _ => rfl, fun _ => by simp [sampleEnv2, sampleEnv, sampleHash16], by decide, by decide,
    by decide⟩

/-- C5, witness: the three results of the worked call written in block order and in reverse
order give the same 44-byte file up to the header, and the call with two hasher threads and
out-of-order completion leaves the same signature as the call with one. -/
theorem writeHash_order_independent_witness :
    (4 < U32 ∧ (sampleResults.map Prod.snd).Perm (List.range 3) ∧
      (∀ r ∈ sampleResults, r.1.length = 4) ∧ sampleResults.reverse.Perm sampleResults) ∧
    (OutputFileWriter.fresh.writeHashes sampleResults.reverse).map OutputFileWriter.content
      = (OutputFileWriter.fresh.writeHashes sampleResults).map OutputFileWriter.content ∧
    (OutputFileWriter.fresh.writeHashes sampleResults).map OutputFileWriter.content
      = some (List.replicate 32 0 ++ [10, 4, 7, 9, 26, 4, 7, 9, 19, 2, 7, 9]) ∧
    (launch sampleEnv2 sampleSchedule2).map (fun o => (o.result, o.output))
      = some (.ok, some sampleSignature) ∧
    (launch sampleEnv sampleSchedule).map (fun o => (o.result, o.output))
      = some (.ok, some sampleSignature) :=
  ⟨⟨by decide, by decide, by decide, by decide⟩,
    (writeHash_order_independent OutputFileWriter.fresh 4 3 sampleResults sampleResults.reverse
      (by decide) (by decide) (by decide) (by decide)).1,
    by decide, by decide, by decide⟩

/-! ## The failure flag and the error raised -/

theorem run_append {p : Plan} (a b : List Action) (s : State) :
    run p (a ++ b) s = (run p a s).bind (run p b) := by
  induction a generalizing s with
  | nil => rfl
  | cons x rest ih =>
      simp only [List.cons_append, run]
      cases step p x s with
      | none => rfl
      | some s1 => exact ih s1

theorem flag_step {p : Plan} {s t : State} {a : Action} (h : Step p s a t) :
    (s.m_badFlag = true → t.m_badFlag = true) ∧
      (a.isWorkerFault = true → t.m_badFlag = true) := by
  cases h <;> simp [Action.isWorkerFault]

theorem flag_run {p : Plan} :
    ∀ (sched : List Action) {s t : State}, run p sched s = some t →
      (s.m_badFlag = true ∨ ∃ a ∈ sched, a.isWorkerFault = true) → t.m_badFlag = true
  | [], s, t, h, hf => by
      simp only [run, Option.some.injEq] at h
      subst h
      rcases hf with hf | ⟨a, ha, _⟩
      · exact hf
      · simp at ha
  | a :: rest, s, t, h, hf => by
      simp only [run] at h
      split at h
      · contradiction
      · rename_i s1 hs1
        have hst := flag_step (step_sound hs1)
        apply flag_run rest h
        rcases hf with hf | ⟨b, hb, hbf⟩
        · exact Or.inl (hst.1 hf)
        · rcases List.mem_cons.mp hb with hb1 | hb1
          · subst hb1; exact Or.inl (hst.2 hbf)
          · exact Or.inr ⟨b, hb1, hbf⟩

theorem sum_map_set {α : Type} (f : α → Nat) (new : α) :
    ∀ (l : List α) (i : Nat) (old : α), l[i]? = some old →
      ((l.set i new).map f).sum + f old = (l.map f).sum + f new
  | [], i, old, h => by simp at h
  | x :: l, 0, old, h => by
      simp only [List.getElem?_cons_zero, Option.some.injEq] at h
      subst h
      simp only [List.set_cons_zero, List.map_cons, List.sum_cons]
      omega
  | x :: l, i + 1, old, h => by
      simp only [List.getElem?_cons_succ] at h
      have ih := sum_map_set f new l i old h
      simp only [List.set_cons_succ, List.map_cons, List.sum_cons]
      omega

/-- Every step of a thread uses up some of the load. -/
theorem load_step {p : Plan} {input : List Byte} {s t : State} {a : Action}
    (hv : p.Valid input) (hP : ProducerInv p input s) (h : Step p s a t)
    (ha : a ≠ .closeFail) : t.load p < s.load p := by
  have hloop := hP.inLoop
  have hle := hv.blockCount_le
  have hlt64 := hv.inputSize_lt
  have hset := fun (new : Hasher) => sum_map_set Hasher.weight new s.hashers
  cases h
  case acquireThrow hp hf =>
    rw [hp] at hloop
    simp only [State.load, hp, Producer.weight] at hloop ⊢
    omega
  case acquire buffer hp hf hb =>
    simp only [State.load, hp, Producer.weight]
    omega
  case read buffer r d hp hr =>
    rw [hp] at hloop
    simp only [State.load, hp, Producer.weight] at hloop ⊢
    omega
  case readFail buffer hp =>
    rw [hp] at hloop
    simp only [State.load, hp, Producer.weight] at hloop ⊢
    omega
  case getHashPooled buffer hash hp hh =>
    rw [hp] at hloop
    simp only [State.load, hp, Producer.weight] at hloop ⊢
    omega
  case getHashFresh buffer hp hh =>
    rw [hp] at hloop
    simp only [State.load, hp, Producer.weight] at hloop ⊢
    omega
  case enqueue buffer hash hp =>
    rw [hp] at hloop
    simp only at hloop
    have hnext : (s.blockNumber + 1) % U64 = s.blockNumber + 1 :=
      Nat.mod_eq_of_lt (by omega)
    simp only [State.load, hp, hnext, List.length_append, List.length_singleton]
    by_cases hc : s.blockNumber + 1 < p.blockCount
    · simp only [hc, if_true, Producer.weight]
      omega
    · simp only [hc, if_false, Producer.weight]
      omega
  case joinThrow hp hw hf =>
    simp only [State.load, hp, Producer.weight]
    omega
  case joinReturn w w1 hp hw hf hwr hh =>
    simp only [State.load, hp, Producer.weight]
    omega
  case headerFail hp hw hf =>
    simp only [State.load, hp, Producer.weight]
    omega
  case joinFlushFail w w1 hp hw hf hwr hh =>
    simp only [State.load, hp, Producer.weight]
    omega
  case closeFail ht => exact absurd rfl ha
  case takeFlag i hh hf =>
    have := hset .exited i _ hh
    simp only [State.load, Hasher.weight] at this ⊢
    omega
  case takeNone i hh hf hj hb =>
    have := hset .exited i _ hh
    simp only [State.load, Hasher.weight] at this ⊢
    omega
  case take i job rest hh hf hj =>
    have := hset (.atDigest job) i _ hh
    simp only [State.load, Hasher.weight, hj, List.length_cons] at this ⊢
    omega
  case publish i job hh =>
    have := hset (.atRelease job.buffer) i _ hh
    simp only [State.load, Hasher.weight, List.length_append, List.length_singleton]
      at this ⊢
    omega
  case digestFail i job hh =>
    have := hset .exited i _ hh
    simp only [State.load, Hasher.weight] at this ⊢
    omega
  case release i data hh =>
    have := hset .atJobs i _ hh
    simp only [State.load, Hasher.weight] at this ⊢
    omega
  case wtakeFlag hr hf =>
    simp only [State.load, hr, ResultWriter.weight]
    omega
  case wtake result rest hr hf hq =>
    simp only [State.load, hr, hq, ResultWriter.weight, List.length_cons]
    omega
  case wwrite result w w1 hr hwr hh =>
    have h3 : (if (s.blocksToWrite + U64 - 1) % U64 > 0 then ResultWriter.atResults
        else ResultWriter.exited).weight ≤ 1 := by
      split
      · exact Nat.le_refl 1
      · exact Nat.zero_le 1
    have h4 : s.resultWriter.weight = 2 := by rw [hr]; rfl
    unfold State.load
    simp only
    generalize (if (s.blocksToWrite + U64 - 1) % U64 > 0 then ResultWriter.atResults
        else ResultWriter.exited).weight = x at h3 ⊢
    omega
  case wwriteFail result hr =>
    simp only [State.load, hr, ResultWriter.weight]
    omega

theorem aborted_step {p : Plan} {s t : State} {a : Action} (h : Step p s a t) :
    s.aborted = false ∧ (t.aborted = true ↔ a = .closeFail) := by
  cases h <;> simp_all

/-- Every step uses up some of the weight: no run is longer than the weight of its start. -/
theorem weight_step {p : Plan} {input : List Byte} {s t : State} {a : Action}
    (hv : p.Valid input) (hP : ProducerInv p input s) (h : Step p s a t) :
    t.weight p < s.weight p := by
  obtain ⟨hs, ht⟩ := aborted_step h
  by_cases ha : a = .closeFail
  · simp only [State.weight, hs, ht.mpr ha, if_true, Bool.false_eq_true, if_false]
    omega
  · have hta : t.aborted = false := by
      cases hb : t.aborted with
      | false => rfl
      | true => exact absurd (ht.mp hb) ha
    have := load_step hv hP h ha
    simp only [State.weight, hs, hta, Bool.false_eq_true, if_false]
    omega

/-- The hashers of a state: one holds a job, or one holds a buffer to release, or each of
them waits for a job or has returned. -/
theorem hashers_cases (l : List Hasher) :
    (∃ (i : Nat) (job : job_t), l[i]? = some (Hasher.atDigest job)) ∨
      (∃ (i : Nat) (b : Buf), l[i]? = some (Hasher.atRelease b)) ∨
      ∀ h ∈ l, h = Hasher.atJobs ∨ h = Hasher.exited := by
  induction l with
  | nil => right; right; intro h hh; simp at hh
  | cons x rest ih =>
      rcases ih with ⟨i, job, h⟩ | ⟨i, b, h⟩ | h
      · exact Or.inl ⟨i + 1, job, by simpa using h⟩
      · exact Or.inr (Or.inl ⟨i + 1, b, by simpa using h⟩)
      · cases x with
        | atDigest job => exact Or.inl ⟨0, job, by simp⟩
        | atRelease b => exact Or.inr (Or.inl ⟨0, b, by simp⟩)
        | atJobs =>
            right; right
            intro y hy
            rcases List.mem_cons.mp hy with h1 | h1
            · exact Or.inl h1
            · exact h y h1
        | exited =>
            right; right
            intro y hy
            rcases List.mem_cons.mp hy with h1 | h1
            · exact Or.inr h1
            · exact h y h1

theorem step_complete {p : Plan} {s t : State} {a : Action} (h : Step p s a t) :
    step p a s = some t := by
  cases h <;> simp_all [step, stepThread, stepProducer, stepHasher, stepResultWriter]

theorem workersDone_of {s : State} (hh : ∀ h ∈ s.hashers, h = Hasher.exited)
    (hr : s.resultWriter = .exited) : s.workersDone = true := by
  simp only [State.workersDone, Bool.and_eq_true, List.all_eq_true, decide_eq_true_eq]
  exact ⟨hh, hr⟩

theorem quiet_split {l : List Hasher} (h : ∀ x ∈ l, x = Hasher.atJobs ∨ x = Hasher.exited) :
    (∃ i : Nat, l[i]? = some Hasher.atJobs) ∨ ∀ x ∈ l, x = Hasher.exited := by
  by_cases hex : Hasher.atJobs ∈ l
  · exact Or.inl (List.getElem?_of_mem hex)
  · right
    intro x hx
    rcases h x hx with h1 | h1
    · rw [h1] at hx; exact absurd hx hex
    · exact h1

theorem quiet_flatMap {β : Type} {l : List Hasher} (f : Hasher → List β)
    (h : ∀ x ∈ l, x = Hasher.atJobs ∨ x = Hasher.exited) (h1 : f .atJobs = [])
    (h2 : f .exited = []) : l.flatMap f = [] := by
  rw [List.flatMap_eq_nil_iff]
  intro x hx
  rcases h x hx with h3 | h3 <;> rw [h3] <;> assumption

/-- No deadlock, when no thread holds anything. -/
theorem step_enabled_quiet {p : Plan} {input : List Byte} {s : State} (hv : p.Valid input)
    (hinv : Inv p input s) (hexit : ExitInv s) (hnt : s.terminated = false)
    (hquiet : ∀ h ∈ s.hashers, h = Hasher.atJobs ∨ h = Hasher.exited)
    (hrw : s.resultWriter = .atResults ∨ s.resultWriter = .exited)
    (hprod : s.producer = .atBufferPool ∨ s.producer = .atJoin ∨ s.producer = .returned ∨
      ∃ e, s.producer = .thrown e) :
    ∃ a t, Step p s a t := by
  have hP := hinv.producer
  have hl : s.aborted = false := by
    cases hb : s.aborted with
    | false => rfl
    | true => simp [State.terminated, hb] at hnt
  have hterm : s.workersDone = true → s.producer = .returned ∨ (∃ e, s.producer = .thrown e) →
      False := by
    intro hw hp
    have : s.terminated = true := by
      simp only [State.terminated, hl, Bool.false_or, hw, Bool.true_and]
      rcases hp with hp | ⟨e, hp⟩ <;> rw [hp]
    rw [this] at hnt
    contradiction
  cases hf : s.m_badFlag with
  | true =>
      rcases quiet_split hquiet with ⟨i, hh⟩ | hall
      · exact ⟨_, _, Step.takeFlag s hl i hh hf⟩
      · rcases hrw with hr | hr
        · exact ⟨_, _, Step.wtakeFlag s hl hr hf⟩
        · have hw := workersDone_of hall hr
          rcases hprod with hp | hp | hp | ⟨e, hp⟩
          · exact ⟨_, _, Step.acquireThrow s hl hp hf⟩
          · exact ⟨_, _, Step.joinThrow s hl hp hw hf⟩
          · exact (hterm hw (Or.inl hp)).elim
          · exact (hterm hw (Or.inr ⟨e, hp⟩)).elim
  | false =>
      have hfree := hinv.freed hf
      have hhb : s.hasherBuffers = [] := quiet_flatMap _ hquiet rfl rfl
      have hhj : s.hasherJobs = [] := quiet_flatMap _ hquiet rfl rfl
      have hthreads := hinv.buffer.threads
      have hN := hv.threads_pos
      have hdone : (∀ x ∈ s.hashers, x = Hasher.exited) → s.m_blocksToHash = 0 := by
        intro hall
        apply hexit hf
        cases hl : s.hashers with
        | nil => rw [hl] at hthreads; simp at hthreads; omega
        | cons x rest =>
            have := hall x (by rw [hl]; exact List.mem_cons_self _ _)
            rw [this]
            exact List.mem_cons_self _ _
      by_cases hj : s.m_jobs = []
      · rcases hprod with hp | hp | hp | ⟨e, hp⟩
        · cases hb : s.m_memoryBufferPool.getLast? with
          | some buffer => exact ⟨_, _, Step.acquire s hl buffer hp hf hb⟩
          | none =>
              exfalso
              have hpool := List.getLast?_eq_none_iff.mp hb
              have h1 := hinv.buffer.ids 0
              have hc : p.bufferCount = p.hasherThreadCount * 2 :=
                Nat.mod_eq_of_lt hv.threads_lt
              rw [State.allBuffers, hpool, hp, State.queuedBuffers, hj, hhb, hfree, hc] at h1
              have h2 : 0 < p.hasherThreadCount * 2 := by omega
              rw [if_pos h2] at h1
              simp [Producer.buffers] at h1
        · have hbn : s.blockNumber = p.blockCount := by
            have := hP.inLoop
            rw [hp] at this
            exact this
          have h0 : s.m_blocksToHash = 0 := by
            have h1 := hinv.queue.toHash
            have h2 := congrArg List.length hinv.queue.order
            simp only [hj, List.map_nil, List.append_nil, List.length_range] at h2
            omega
          rcases quiet_split hquiet with ⟨i, hh⟩ | hall
          · exact ⟨_, _, Step.takeNone s hl i hh hf hj h0⟩
          · rcases hrw with hr | hr
            · cases hq : s.m_results with
              | cons result rest => exact ⟨_, _, Step.wtake s hl result rest hr hf hq⟩
              | nil =>
                  exfalso
                  have hperm : List.Perm s.written (List.range p.blockCount) := by
                    rw [List.perm_iff_count]
                    intro k
                    have := hinv.flow.blocks hf k
                    rw [State.blockNumbers, hj, hhj, hq, hr, hbn] at this
                    simp only [ResultWriter.results, List.map_nil, List.nil_append] at this
                    rw [this, count_range]
                  have hlen := hperm.length_eq
                  rw [List.length_range] at hlen
                  have h1 := hinv.flow.toWrite hf
                  have h2 := (hinv.flow.live hf).mpr (by omega)
                  rw [hr] at h2
                  contradiction
            · have hw := workersDone_of hall hr
              obtain ⟨w, hwr⟩ := hinv.file.alive (by intro e he; rw [hp] at he; contradiction)
              obtain ⟨w1, hw1, _⟩ := writeHeader_eq w p.header
              exact ⟨_, _, Step.joinReturn s hl w w1 hp hw hf hwr hw1⟩
        · exact (hterm (hinv.file.final hp).2.1 (Or.inl hp)).elim
        · have := (hinv.file.gone e hp).2
          rw [hf] at this
          contradiction
      · rcases quiet_split hquiet with ⟨i, hh⟩ | hall
        · cases hjq : s.m_jobs with
          | nil => exact absurd hjq hj
          | cons job rest => exact ⟨_, _, Step.take s hl i job rest hh hf hjq⟩
        · exact absurd (queue_empty_of_done hP hinv.queue (hdone hall)) hj

/-- No deadlock: in a state that is not terminated some thread can take a step. -/
theorem step_enabled {p : Plan} {input : List Byte} {s : State} (hv : p.Valid input)
    (hinv : Inv p input s) (hexit : ExitInv s) (hnt : s.terminated = false) :
    ∃ a t, Step p s a t := by
  have hP := hinv.producer
  have hl : s.aborted = false := by
    cases hb : s.aborted with
    | false => rfl
    | true => simp [State.terminated, hb] at hnt
  rcases hashers_cases s.hashers with ⟨i, job, hh⟩ | ⟨i, b, hh⟩ | hquiet
  · exact ⟨_, _, Step.publish s hl i job hh⟩
  · exact ⟨_, _, Step.release s hl i b hh⟩
  cases hrw : s.resultWriter with
  | atWrite r => exact ⟨_, _, Step.wwriteFail s hl r hrw⟩
  | atResults =>
      cases hprod : s.producer with
      | atRead b =>
          have hloop := hP.inLoop
          rw [hprod] at hloop
          simp only at hloop
          have hb := hP.bytes hloop
          have hk := hv.offset_lt hloop
          rw [hv.inputSize_eq] at hb hk
          have hr := readNextChunk_chunk s.reader input b.data p.blockSize s.blockNumber
            hP.file_eq (hP.pos (Or.inr ⟨_, hprod⟩)) (hP.sizeRead _ hprod) hk
          rw [← hb] at hr
          exact ⟨_, _, Step.read s hl b _ _ hprod hr⟩
      | atHashPool b =>
          cases hh : s.m_hashPool.getLast? with
          | none => exact ⟨_, _, Step.getHashFresh s hl b hprod hh⟩
          | some hash => exact ⟨_, _, Step.getHashPooled s hl b hash hprod hh⟩
      | atJobs b hash => exact ⟨_, _, Step.enqueue s hl b hash hprod⟩
      | atBufferPool =>
          exact step_enabled_quiet hv hinv hexit hnt hquiet (Or.inl hrw) (Or.inl hprod)
      | atJoin =>
          exact step_enabled_quiet hv hinv hexit hnt hquiet (Or.inl hrw) (Or.inr (Or.inl hprod))
      | returned =>
          exact step_enabled_quiet hv hinv hexit hnt hquiet (Or.inl hrw)
            (Or.inr (Or.inr (Or.inl hprod)))
      | thrown e =>
          exact step_enabled_quiet hv hinv hexit hnt hquiet (Or.inl hrw)
            (Or.inr (Or.inr (Or.inr ⟨e, hprod⟩)))
  | exited =>
      cases hprod : s.producer with
      | atRead b =>
          have hloop := hP.inLoop
          rw [hprod] at hloop
          simp only at hloop
          have hb := hP.bytes hloop
          have hk := hv.offset_lt hloop
          rw [hv.inputSize_eq] at hb hk
          have hr := readNextChunk_chunk s.reader input b.data p.blockSize s.blockNumber
            hP.file_eq (hP.pos (Or.inr ⟨_, hprod⟩)) (hP.sizeRead _ hprod) hk
          rw [← hb] at hr
          exact ⟨_, _, Step.read s hl b _ _ hprod hr⟩
      | atHashPool b =>
          cases hh : s.m_hashPool.getLast? with
          | none => exact ⟨_, _, Step.getHashFresh s hl b hprod hh⟩
          | some hash => exact ⟨_, _, Step.getHashPooled s hl b hash hprod hh⟩
      | atJobs b hash => exact ⟨_, _, Step.enqueue s hl b hash hprod⟩
      | atBufferPool =>
          exact step_enabled_quiet hv hinv hexit hnt hquiet (Or.inr hrw) (Or.inl hprod)
      | atJoin =>
          exact step_enabled_quiet hv hinv hexit hnt hquiet (Or.inr hrw) (Or.inr (Or.inl hprod))
      | returned =>
          exact step_enabled_quiet hv hinv hexit hnt hquiet (Or.inr hrw)
            (Or.inr (Or.inr (Or.inl hprod)))
      | thrown e =>
          exact step_enabled_quiet hv hinv hexit hnt hquiet (Or.inr hrw)
            (Or.inr (Or.inr (Or.inr ⟨e, hprod⟩)))

/-- Every run from a state of a valid plan can be completed: some continuation of the
schedule brings every thread to its end. -/
theorem run_completes {p : Plan} {input : List Byte} (hv : p.Valid input) :
    ∀ (n : Nat) (s : State), s.weight p = n → Inv p input s →
      ∃ sched t, run p sched s = some t ∧ t.terminated = true := by
  intro n
  induction n using Nat.strong_induction_on with
  | _ n ih =>
      intro s hn hinv
      cases hterm : s.terminated with
      | true => exact ⟨[], s, rfl, hterm⟩
      | false =>
          obtain ⟨a, t, hst⟩ := step_enabled hv hinv hinv.exit hterm
          have hw := weight_step hv hinv.producer hst
          obtain ⟨sched, u, hrun, hu⟩ := ih (t.weight p) (hn ▸ hw) t rfl (inv_step hv hinv hst)
          refine ⟨a :: sched, u, ?_, hu⟩
          simp only [run, step_complete hst]
          exact hrun

/-- No run is longer than the weight of the state it starts in. -/
theorem run_length_le {p : Plan} {input : List Byte} (hv : p.Valid input) :
    ∀ (sched : List Action) {s t : State}, Inv p input s → run p sched s = some t →
      sched.length + t.weight p ≤ s.weight p
  | [], s, t, _, h => by
      simp only [run, Option.some.injEq] at h
      subst h
      simp
  | a :: rest, s, t, hi, h => by
      simp only [run] at h
      split at h
      · contradiction
      · rename_i s1 hs1
        have hst := step_sound hs1
        have h1 := weight_step hv hi.producer hst
        have h2 := run_length_le hv rest (inv_step hv hi hst) h
        simp only [List.length_cons]
        omega

theorem launch_of_run {env : Env} {p : Plan} {input : List Byte} {sched : List Action}
    {s : State} (hval : validate env = .ok (p, input)) (hctor : env.ctorFault = none)
    (halloc : env.allocFault = false)
    (hrun : run p sched (initialState p input ⟨⟨[], 0⟩, false⟩) = some s)
    (hterm : s.terminated = true) :
    launch env sched = some ⟨s.result, s.output, true, some s⟩ := by
  simp only [launch, hval, hctor, OutputFileWriter.create, OutputFileWriter.afterReopen,
    halloc, hrun, hterm, if_true]
  rfl

/-- Every partial run of a call extends to a complete one, and every call has a complete
run. -/
theorem launch_completes {env : Env} (hwf : env.WellFormed) (hctor : env.ctorFault = none) :
    (∀ p input sched s, validate env = .ok (p, input) → env.allocFault = false →
      run p sched (initialState p input ⟨⟨[], 0⟩, false⟩) = some s →
      ∃ rest out, launch env (sched ++ rest) = some out) ∧
    ∃ sched out, launch env sched = some out := by
  have h1 : ∀ p input sched s, validate env = .ok (p, input) → env.allocFault = false →
      run p sched (initialState p input ⟨⟨[], 0⟩, false⟩) = some s →
      ∃ rest out, launch env (sched ++ rest) = some out := by
    intro p input sched s hval halloc hrun
    have hv := validate_valid hwf hval
    have hinv := Inv.of_run hv sched (Inv.init hv) hrun
    obtain ⟨rest, t, hrest, hterm⟩ := run_completes hv _ s rfl hinv
    refine ⟨rest, _, launch_of_run hval hctor halloc ?_ hterm⟩
    rw [run_append, hrun]
    exact hrest
  refine ⟨h1, ?_⟩
  cases hval : validate env with
  | error e =>
      exact ⟨[], ⟨.error e, env.output, false, none⟩, by simp only [launch, hval]⟩
  | ok pi =>
      obtain ⟨p, input⟩ := pi
      cases halloc : env.allocFault with
      | true =>
          exact ⟨[], ⟨.error .bad_alloc, none, true, none⟩, by
            simp only [launch, hval, hctor, OutputFileWriter.create, halloc, if_true]⟩
      | false =>
          obtain ⟨rest, out, h⟩ := h1 p input [] _ hval halloc rfl
          exact ⟨_, out, h⟩

/-! ## The outcome of a call -/

/-- C6: when a step of the constructor of the writer throws, the destructor of the writer
does not run and what the constructor created stays at the output path: `launch` raises the
error and leaves the one-byte placeholder if `resize_file` fails (line 68), the placeholder
resized to the preset length if the second `open` fails (line 70).  If the first `open`
fails nothing was created and the path is as it was before the call. -/
theorem launch_constructor_fault (env : Env) (sched : List Action) (p : Plan)
    (input : List Byte) (hval : validate env = .ok (p, input)) :
    (env.ctorFault = some .resize →
      launch env sched = some ⟨.error .filesystem_error, some [120], false, none⟩) ∧
    (env.ctorFault = some .secondOpen →
      launch env sched
        = some ⟨.error .ios_failure,
            some (vresize [120] ((32 + p.digestSize * p.blockCount) % U64)), false, none⟩) ∧
    (env.ctorFault = some .firstOpen →
      launch env sched = some ⟨.error .ios_failure, env.output, false, none⟩) := by
  refine ⟨fun hc => ?_, fun hc => ?_, fun hc => ?_⟩ <;>
    simp only [launch, hval, hc, OutputFileWriter.create] <;> rfl

/-- C6, witness: in the worked call, with no file at the output path before, a failing
`resize_file` leaves the one-byte placeholder and a failing second `open` leaves a file of
44 bytes, the placeholder byte and 43 zero bytes. -/
theorem launch_constructor_fault_witness :
    validate { sampleEnv with ctorFault := some .resize } = .ok (samplePlan, sampleInput) ∧
    ({ sampleEnv with ctorFault := some .resize } : Env).output = none ∧
    launch { sampleEnv with ctorFault := some .resize } []
      = some { result := .error .filesystem_error, output := some [120],
               writerConstructed := false, final := none } ∧
    launch { sampleEnv with ctorFault := some .secondOpen } []
      = some { result := .error .ios_failure, output := some (120 :: List.replicate 43 0),
               writerConstructed := false, final := none } :=
  ⟨rfl, rfl,
    (launch_constructor_fault { sampleEnv with ctorFault := some .resize } [] samplePlan
      sampleInput rfl).1 rfl,
    by decide⟩

/-- When `close()` throws in the destructor of the writer the process ends and the output
file, which the destructor would have removed, is still there. -/
theorem launch_close_fault_leaves_file :
    launch sampleEnv sampleCloseFailSchedule = some sampleCloseFailOutcome ∧
    launch { sampleEnv with allocFault := true } [.closeFail]
      = some { result := .terminate, output := some [], writerConstructed := true,
               final := none } :=
  ⟨by decide, by decide⟩

theorem flag_unset_step {p : Plan} {s t : State} {a : Action} (h : Step p s a t)
    (ha : a.isWorkerFault = false ∧ a.isProducerFault = false) (hf : s.m_badFlag = false) :
    t.m_badFlag = false := by
  cases h <;> first
    | exact hf
    | (simp [Action.isWorkerFault, Action.isProducerFault] at ha)

theorem flag_unset_run {p : Plan} :
    ∀ (sched : List Action) {s t : State}, run p sched s = some t →
      (∀ a ∈ sched, a.isWorkerFault = false ∧ a.isProducerFault = false) →
      s.m_badFlag = false → t.m_badFlag = false
  | [], s, t, h, _, hf => by
      simp only [run, Option.some.injEq] at h
      subst h
      exact hf
  | a :: rest, s, t, h, ha, hf => by
      simp only [run] at h
      split at h
      · contradiction
      · rename_i s1 hs1
        exact flag_unset_run rest h (fun b hb => ha b (List.mem_cons_of_mem _ hb))
          (flag_unset_step (step_sound hs1) (ha a (List.mem_cons_self _ _)) hf)

/-- C10: in every state the pipeline reaches, the identities of the input buffers in the
pool, in the producer's hands, in the job queue, in the hashers' hands and freed (destroyed
with a failing thread's job or local) are a permutation of the `2 * hasherThreadCount`
buffers allocated, so each buffer is in exactly one place; while the failure flag is unset
nothing has been freed, so the four live places hold exactly `2 * hasherThreadCount`
buffers; the flag is unset in every run made of the steps of the claim alone (acquire, read,
take a digest slot, enqueue; dequeue, publish, release; the steps of the result writer; the
join), that is a run without a step that throws.  The job queue never holds more than
`2 * hasherThreadCount` jobs.  When the producer takes a buffer, it takes the last one of a
non-empty pool, and with an empty pool and the flag unset its step is not enabled. -/
theorem pipeline_buffers (env : Env) (p : Plan) (input : List Byte) (sched : List Action)
    (s : State) (hwf : env.WellFormed) (hval : validate env = .ok (p, input))
    (hrun : run p sched (initialState p input ⟨⟨[], 0⟩, false⟩) = some s) :
    List.Perm
      ((s.m_memoryBufferPool ++ s.producer.buffers ++ s.queuedBuffers ++ s.hasherBuffers
          ++ s.freed).map Buf.id)
      (List.range (2 * p.hasherThreadCount)) ∧
    (s.m_badFlag = false → s.freed = [] ∧
      List.Perm
        ((s.m_memoryBufferPool ++ s.producer.buffers ++ s.queuedBuffers
            ++ s.hasherBuffers).map Buf.id)
        (List.range (2 * p.hasherThreadCount))) ∧
    ((∀ a ∈ sched, a.isWorkerFault = false ∧ a.isProducerFault = false) →
      s.m_badFlag = false) ∧
    s.m_memoryBufferPool.length + s.producer.buffers.length + s.m_jobs.length
        + s.hasherBuffers.length + s.freed.length = 2 * p.hasherThreadCount ∧
    s.m_jobs.length ≤ 2 * p.hasherThreadCount ∧
    (∀ t b, step p .acquire s = some t → t.producer = .atRead b →
      s.m_memoryBufferPool = t.m_memoryBufferPool ++ [b]) ∧
    (s.m_memoryBufferPool = [] → s.m_badFlag = false → step p .acquire s = none) := by
  have hv := validate_valid hwf hval
  have hinv := Inv.of_run hv sched (Inv.init hv) hrun
  have hcount : p.bufferCount = 2 * p.hasherThreadCount := by
    unfold Plan.bufferCount
    rw [Nat.mod_eq_of_lt hv.threads_lt, Nat.mul_comm]
  have hperm : List.Perm
      ((s.m_memoryBufferPool ++ s.producer.buffers ++ s.queuedBuffers ++ s.hasherBuffers
          ++ s.freed).map Buf.id)
      (List.range (2 * p.hasherThreadCount)) := by
    rw [List.perm_iff_count]
    intro i
    have := hinv.buffer.ids i
    rw [State.allBuffers, hcount] at this
    rw [this, count_range]
  have hlen := hperm.length_eq
  simp only [List.length_map, List.length_append, State.queuedBuffers, List.length_range]
    at hlen
  refine ⟨hperm, fun hf => ⟨hinv.freed hf, ?_⟩,
    fun hno => flag_unset_run sched hrun hno rfl, hlen, by omega, ?_, ?_⟩
  · have := hperm
    rwa [hinv.freed hf, List.append_nil] at this
  · intro t b ht hb
    have hs := step_sound ht
    cases hs
    case acquireThrow => simp at hb
    case acquire buffer hp hf hbuf =>
      simp only [Producer.atRead.injEq] at hb
      subst hb
      exact (List.dropLast_append_getLast? _ hbuf).symm
  · intro hnil hf
    cases hst : step p .acquire s with
    | none => rfl
    | some t =>
        have hs := step_sound hst
        cases hs
        case acquireThrow hp hf1 => rw [hf] at hf1; contradiction
        case acquire buffer hp hf1 hbuf => rw [hnil] at hbuf; simp at hbuf

/-- C10, witness: in the worked call with one hasher there are two buffers; after block 0 is
dequeued and the producer has taken the other buffer, the pool is empty, buffer 0 is with the
producer and buffer 1 with the hasher, and a further `acquire` is not enabled. -/
theorem pipeline_buffers_witness :
    sampleEnv.WellFormed ∧ validate sampleEnv = .ok (samplePlan, sampleInput) ∧
    run samplePlan sampleMidSchedule (initialState samplePlan sampleInput ⟨⟨[], 0⟩, false⟩)
      = some sampleMid ∧
    sampleMid.m_memoryBufferPool = [] ∧ sampleMid.producer.buffers.map Buf.id = [0] ∧
    sampleMid.hasherBuffers.map Buf.id = [1] ∧
    step samplePlan .acquire sampleMid = none ∧
    List.Perm
      ((sampleMid.m_memoryBufferPool ++ sampleMid.producer.buffers ++ sampleMid.queuedBuffers
          ++ sampleMid.hasherBuffers ++ sampleMid.freed).map Buf.id)
      (List.range (2 * samplePlan.hasherThreadCount)) :=
  ⟨sampleEnv_wellFormed, sampleEnv_validate, by decide, rfl, rfl, rfl, by decide,
    (pipeline_buffers sampleEnv samplePlan sampleInput sampleMidSchedule sampleMid
      sampleEnv_wellFormed sampleEnv_validate (by decide)).1⟩

/-! ## The counter of blocks to hash -/

/-- What `hashedAt` records at a `publish` is the block of the result the step queues. -/
theorem hashedAt_publish {p : Plan} {s t : State} {i : Nat}
    (h : step p (.publish i) s = some t) :
    ∃ job, s.hashers[i]? = some (.atDigest job) ∧
      hashedAt (.publish i) s = [job.blockNumber] ∧
      t.m_results = s.m_results
        ++ [(p.hasher.createDigest job.buffer.data job.hash, job.blockNumber)] := by
  have hs := step_sound h
  cases hs
  case publish job hh => exact ⟨job, hh, by simp only [hashedAt, hh], rfl⟩

/-- What `receivedAt` records at a `wtake` is the result the result writer then holds. -/
theorem receivedAt_wtake {p : Plan} {s t : State} (h : step p .wtake s = some t)
    (hf : t.m_badFlag = false) :
    ∃ r, receivedAt .wtake s = [r] ∧ s.m_results = r :: t.m_results ∧
      t.resultWriter = .atWrite r := by
  have hs := step_sound h
  cases hs
  case wtakeFlag hr hf0 => simp [hf0] at hf
  case wtake result rest hr hf0 hq =>
    exact ⟨result, by simp [receivedAt, hr, hf0, hq], hq, rfl⟩

/-- A quantity that every step with the flag unset conserves is conserved by every run that
ends with the flag unset. -/
theorem count_observe {α : Type} [DecidableEq α] {p : Plan} (f : Action → State → List α)
    (g h : State → List α)
    (hstep : ∀ (a : Action) (s t : State), Step p s a t → t.m_badFlag = false →
      ∀ k, List.count k (f a s) + List.count k (h t) + List.count k (g s)
        = List.count k (h s) + List.count k (g t)) :
    ∀ (sched : List Action) (s t : State), run p sched s = some t → t.m_badFlag = false →
      ∀ k, List.count k (observe p f sched s) + List.count k (h t) + List.count k (g s)
        = List.count k (h s) + List.count k (g t)
  | [], s, t, hr, _, k => by
      simp only [run, Option.some.injEq] at hr
      subst hr
      simp only [observe, List.count_nil]
      omega
  | a :: rest, s, t, hr, hf, k => by
      simp only [run] at hr
      split at hr
      · contradiction
      · rename_i s1 hs1
        have ih := count_observe f g h hstep rest s1 t hr hf k
        have hf1 : s1.m_badFlag = false := by
          cases hs : s1.m_badFlag with
          | false => rfl
          | true => rw [flag_run rest hr (Or.inl hs)] at hf; contradiction
        have h1 := hstep a s s1 (step_sound hs1) hf1 k
        simp only [observe, hs1, List.count_append]
        omega

theorem hashed_step {p : Plan} {a : Action} {s t : State} (h : Step p s a t)
    (hf : t.m_badFlag = false) (k : Nat) :
    List.count k (hashedAt a s) + List.count k (t.hasherJobs.map job_t.blockNumber)
        + List.count k s.dequeued
      = List.count k (s.hasherJobs.map job_t.blockNumber) + List.count k t.dequeued := by
  have hset := fun (new : Hasher) =>
    count_flatMap_set (fun h : Hasher => h.jobs.map job_t.blockNumber) k new s.hashers
  simp only [State.hasherJobs, List.map_flatMap]
  cases h
  case take i job rest hh hf0 hj =>
    have := hset (.atDigest job) i _ hh
    simp only [hasher_jobs_atJobs, hasher_jobs_atDigest, List.map_nil, List.map_cons,
      List.count_nil, List.count_singleton] at this
    simp only [hashedAt, List.count_nil, List.count_append, List.count_singleton]
    omega
  case publish i job hh =>
    have := hset (.atRelease job.buffer) i _ hh
    simp only [hasher_jobs_atRelease, hasher_jobs_atDigest, List.map_nil, List.map_cons,
      List.count_nil, List.count_singleton] at this
    simp only [hashedAt, hh, List.count_singleton]
    omega
  case release i data hh =>
    have := hset .atJobs i _ hh
    simp only [hasher_jobs_atRelease, hasher_jobs_atJobs, List.map_nil, List.count_nil] at this
    simp only [hashedAt, List.count_nil]
    omega
  case takeFlag i hh hf0 => simp [hf0] at hf
  case takeNone i hh hf0 hj hb =>
    have := hset .exited i _ hh
    simp only [hasher_jobs_exited, hasher_jobs_atJobs, List.map_nil, List.count_nil] at this
    simp only [hashedAt, List.count_nil]
    omega
  case digestFail => simp at hf
  all_goals simp [hashedAt]

theorem map_observe {α β : Type} {p : Plan} (f : Action → State → List α) (m : α → β) :
    ∀ (sched : List Action) (s : State),
      (observe p f sched s).map m = observe p (fun a s => (f a s).map m) sched s
  | [], _ => rfl
  | a :: rest, s => by
      simp only [observe]
      cases step p a s with
      | none => rfl
      | some s1 =>
          simp only [List.map_append]
          rw [map_observe f m rest s1]

theorem received_step {p : Plan} {a : Action} {s t : State} (h : Step p s a t)
    (hf : t.m_badFlag = false) (k : Nat) :
    List.count k ((receivedAt a s).map Prod.snd) + List.count k ([] : List Nat)
        + List.count k (s.resultWriter.results.map Prod.snd ++ s.written)
      = List.count k ([] : List Nat)
        + List.count k (t.resultWriter.results.map Prod.snd ++ t.written) := by
  cases h
  case wtake result rest hr hf0 hq =>
    simp only [receivedAt, hr, hf0, hq, resultWriter_results_atResults,
      resultWriter_results_atWrite, List.head?_cons, Option.toList, List.map_cons,
      List.map_nil, List.count_nil, List.count_append, List.nil_append, Bool.false_eq_true,
      if_false]
    omega
  case wwrite result w w1 hr hwr hh =>
    have hres : (if (s.blocksToWrite + U64 - 1) % U64 > 0 then ResultWriter.atResults
        else ResultWriter.exited).results = [] := by
      split <;> rfl
    simp only [hres, hr, resultWriter_results_atWrite, receivedAt, List.map_nil,
      List.map_cons, List.count_nil, List.count_append, List.count_singleton,
      List.count_cons]
    omega
  case wtakeFlag hr hf0 => simp [hf0] at hf
  case wwriteFail => simp at hf
  all_goals simp [receivedAt]

theorem blocksToHash_step {p : Plan} {input : List Byte} {s t : State} {a : Action}
    (hv : p.Valid input) (hP : ProducerInv p input s) (hQ : QueueInv p s)
    (h : Step p s a t) :
    (t.m_blocksToHash = s.m_blocksToHash ∧ t.dequeued = s.dequeued) ∨
      (0 < s.m_blocksToHash ∧ t.m_blocksToHash = s.m_blocksToHash - 1 ∧
        ∃ job rest i, a = .take i ∧ s.m_jobs = job :: rest ∧ t.m_jobs = rest ∧
          t.dequeued = s.dequeued ++ [job.blockNumber]) := by
  have hle := hv.blockCount_le
  have hlt64 := hv.inputSize_lt
  have hbn := hP.le
  have hth := hQ.toHash
  cases h
  case take i job rest hh hf hj =>
    have hlen := congrArg List.length hQ.order
    simp only [hj, List.length_append, List.length_map, List.length_cons,
      List.length_range] at hlen
    have hpos : 0 < s.m_blocksToHash := by omega
    refine Or.inr ⟨hpos, ?_, job, rest, i, rfl, hj, rfl, rfl⟩
    simp only
    unfold U64 at *
    omega
  all_goals exact Or.inl ⟨rfl, rfl⟩

theorem hasher_exit_step {p : Plan} {s t : State} {a : Action} (h : Step p s a t)
    (hf : t.m_badFlag = false) {i : Nat} (hs : s.hashers[i]? ≠ some .exited)
    (ht : t.hashers[i]? = some .exited) :
    a = .take i ∧ s.m_badFlag = false ∧ s.m_jobs = [] ∧ s.m_blocksToHash = 0 := by
  have hset : ∀ (j : Nat) (x : Hasher), (s.hashers.set j x)[i]? = some .exited →
      j = i ∧ x = .exited := by
    intro j x hx
    rw [List.getElem?_set] at hx
    split at hx
    · rename_i hji
      refine ⟨hji, ?_⟩
      split at hx
      · exact Option.some.inj hx
      · contradiction
    · exact absurd hx hs
  cases h
  case takeFlag j hh hf0 => simp [hf0] at hf
  case takeNone j hh hf0 hj hb =>
    obtain ⟨hji, _⟩ := hset j _ ht
    exact ⟨by rw [hji], hf0, hj, hb⟩
  case take j job rest hh hf0 hj =>
    obtain ⟨_, hx⟩ := hset j _ ht
    contradiction
  case publish j job hh =>
    obtain ⟨_, hx⟩ := hset j _ ht
    contradiction
  case release j data hh =>
    obtain ⟨_, hx⟩ := hset j _ ht
    contradiction
  case digestFail => simp at hf
  all_goals exact absurd ht hs

theorem written_perm {p : Plan} {s : State} (hF : FlowInv p s)
    (hbn : s.blockNumber = p.blockCount) (hw : s.workersDone = true)
    (hf : s.m_badFlag = false) : s.written.Perm (List.range p.blockCount) := by
  have hcount : ∀ k, List.count k s.written ≤ if k < p.blockCount then 1 else 0 := by
    intro k
    have h1 := hF.blocks hf k
    rw [count_blockNumbers, hbn] at h1
    omega
  have hnodup : s.written.Nodup := by
    rw [List.nodup_iff_count_le_one]
    intro k
    have := hcount k
    split at this <;> omega
  have hsub : s.written ⊆ List.range p.blockCount := by
    intro k hk
    have h1 := hcount k
    have h2 : 0 < List.count k s.written := List.count_pos_iff.mpr hk
    rw [List.mem_range]
    by_contra hlt
    simp only [hlt, if_false] at h1
    omega
  have hlen : s.written.length = p.blockCount := by
    have h1 := hF.toWrite hf
    have h2 := (hF.live hf).mp (workersDone_resultWriter hw)
    omega
  exact (List.subperm_of_subset hnodup hsub).perm_of_length_le
    (by rw [List.length_range, hlen])

/-- Once the workers are through with the flag unset, every block was enqueued and dequeued,
in order, and the queues are empty. -/
theorem dequeued_complete {p : Plan} {input : List Byte} {s : State} (hv : p.Valid input)
    (hi : Inv p input s) (hw : s.workersDone = true) (hf : s.m_badFlag = false) :
    s.blockNumber = p.blockCount ∧ s.dequeued = List.range p.blockCount ∧ s.m_jobs = [] ∧
      s.m_blocksToHash = 0 := by
  have hpos := hv.threads_pos
  have hlen := hi.buffer.threads
  have hex : Hasher.exited ∈ s.hashers := by
    cases hh : s.hashers with
    | nil => rw [hh] at hlen; simp at hlen; omega
    | cons x rest =>
        have hx : s.hashers[0]? = some x := by rw [hh]; simp
        rw [← workersDone_hasher hw hx]
        exact List.mem_cons_self _ _
  have h0 := hi.exit hf hex
  have hj := queue_empty_of_done hi.producer hi.queue h0
  have hth := hi.queue.toHash
  have hord := hi.queue.order
  rw [hj, List.map_nil, List.append_nil] at hord
  have hl := congrArg List.length hord
  rw [List.length_range] at hl
  have hbn : s.blockNumber = p.blockCount := by omega
  exact ⟨hbn, by rw [hord, hbn], hj, h0⟩

theorem sampleEnv2_validate : validate sampleEnv2 = .ok (samplePlan2, sampleInput) := by
  rfl

/-- C11: in every state the pipeline reaches, `m_blocksToHash` is `blockCount` minus the
number of jobs dequeued so far, with at most `blockCount` jobs dequeued; every step either
leaves the counter and the history of dequeued jobs as they are or is the dequeue of the
first job of the queue by a hasher, which finds the counter positive and lowers it by
exactly one, so the 64-bit decrement never wraps.  A step after which hasher `i` has
returned and the failure flag is unset is a `take` that found the flag unset, the job queue
empty and `m_blocksToHash = 0`; hence in every reachable state with the flag unset and a
returned hasher the queue is empty and the counter is zero.  In a run that ends with all
workers returned and the flag unset (so the flag was unset throughout), the jobs dequeued
are the blocks `0 .. blockCount - 1` in this order, the blocks hashed are a permutation of
`0 .. blockCount - 1`, and the result writer received exactly `blockCount` results, one for
each block number. -/
theorem blocksToHash_accounting (env : Env) (p : Plan) (input : List Byte)
    (sched : List Action) (s : State) (hwf : env.WellFormed)
    (hval : validate env = .ok (p, input))
    (hrun : run p sched (initialState p input ⟨⟨[], 0⟩, false⟩) = some s) :
    (s.m_blocksToHash = p.blockCount - s.dequeued.length ∧
      s.dequeued.length ≤ p.blockCount) ∧
    (∀ a t, step p a s = some t →
      (t.m_blocksToHash = s.m_blocksToHash ∧ t.dequeued = s.dequeued) ∨
      (0 < s.m_blocksToHash ∧ t.m_blocksToHash = s.m_blocksToHash - 1 ∧
        ∃ job rest i, a = .take i ∧ s.m_jobs = job :: rest ∧ t.m_jobs = rest ∧
          t.dequeued = s.dequeued ++ [job.blockNumber])) ∧
    (∀ a t i, step p a s = some t → t.m_badFlag = false →
      s.hashers[i]? ≠ some .exited → t.hashers[i]? = some .exited →
      a = .take i ∧ s.m_badFlag = false ∧ s.m_jobs = [] ∧ s.m_blocksToHash = 0) ∧
    (s.m_badFlag = false → Hasher.exited ∈ s.hashers →
      s.m_jobs = [] ∧ s.m_blocksToHash = 0) ∧
    (s.workersDone = true → s.m_badFlag = false →
      s.dequeued = List.range p.blockCount ∧
      (hashed p sched (initialState p input ⟨⟨[], 0⟩, false⟩)).Perm
        (List.range p.blockCount) ∧
      ((received p sched (initialState p input ⟨⟨[], 0⟩, false⟩)).map Prod.snd).Perm
        (List.range p.blockCount) ∧
      (received p sched (initialState p input ⟨⟨[], 0⟩, false⟩)).length = p.blockCount) := by
  have hv := validate_valid hwf hval
  have hinv := Inv.of_run hv sched (Inv.init hv) hrun
  have hth := hinv.queue.toHash
  refine ⟨⟨by omega, by omega⟩,
    fun a t ht => blocksToHash_step hv hinv.producer hinv.queue (step_sound ht),
    fun a t i ht hf hs hx => hasher_exit_step (step_sound ht) hf hs hx,
    fun hf hex => ?_, fun hw hf => ?_⟩
  · have h0 := hinv.exit hf hex
    exact ⟨queue_empty_of_done hinv.producer hinv.queue h0, h0⟩
  · obtain ⟨hbn, hdeq, _, _⟩ := dequeued_complete hv hinv hw hf
    have hrecv : ((received p sched (initialState p input ⟨⟨[], 0⟩, false⟩)).map
        Prod.snd).Perm (List.range p.blockCount) := by
      refine List.Perm.trans ?_ (written_perm hinv.flow hbn hw hf)
      rw [List.perm_iff_count]
      intro k
      have h1 := count_observe (fun a s => (receivedAt a s).map Prod.snd)
        (fun s => s.resultWriter.results.map Prod.snd ++ s.written) (fun _ => [])
        (fun a s t hst hft k => received_step hst hft k) sched _ s hrun hf k
      have hrw : s.resultWriter.results = [] := by
        rw [workersDone_resultWriter hw]; rfl
      have hin : (initialState p input ⟨⟨[], 0⟩, false⟩).resultWriter.results = [] := by
        simp only [initialState]
        split <;> rfl
      have hwr : (initialState p input ⟨⟨[], 0⟩, false⟩).written = [] := rfl
      simp only [hrw, hin, hwr, List.map_nil, List.append_nil, List.nil_append,
        List.count_nil] at h1
      rw [received, map_observe]
      omega
    refine ⟨hdeq, ?_, hrecv, ?_⟩
    · rw [List.perm_iff_count]
      intro k
      have h1 := count_observe hashedAt State.dequeued
        (fun s => s.hasherJobs.map job_t.blockNumber)
        (fun a s t hst hft k => hashed_step hst hft k) sched _ s hrun hf k
      have hin : (initialState p input ⟨⟨[], 0⟩, false⟩).hasherJobs = [] :=
        replicate_flatMap_nil _ _ _ rfl
      have hdq : (initialState p input ⟨⟨[], 0⟩, false⟩).dequeued = [] := rfl
      simp only [workersDone_hasherJobs hw, hin, hdq, List.map_nil, List.count_nil] at h1
      rw [hashed, ← hdeq]
      omega
    · have := hrecv.length_eq
      rwa [List.length_map, List.length_range] at this

/-- C11, witness: the worked call with two hashers, where block 1 is hashed before block 0.
The run ends with the flag unset; the jobs were dequeued in the order 0, 1, 2, hashed in the
order 1, 0, 2, and the result writer received three results. -/
theorem blocksToHash_accounting_witness :
    sampleEnv2.WellFormed ∧ validate sampleEnv2 = .ok (samplePlan2, sampleInput) ∧
    run samplePlan2 sampleSchedule2 (initialState samplePlan2 sampleInput ⟨⟨[], 0⟩, false⟩)
      = some sampleFinal2 ∧
    sampleFinal2.workersDone = true ∧ sampleFinal2.m_badFlag = false ∧
    hashed samplePlan2 sampleSchedule2 (initialState samplePlan2 sampleInput ⟨⟨[], 0⟩, false⟩)
      = [1, 0, 2] ∧
    (sampleFinal2.dequeued = List.range samplePlan2.blockCount ∧
      (hashed samplePlan2 sampleSchedule2
        (initialState samplePlan2 sampleInput ⟨⟨[], 0⟩, false⟩)).Perm
        (List.range samplePlan2.blockCount) ∧
      ((received samplePlan2 sampleSchedule2
        (initialState samplePlan2 sampleInput ⟨⟨[], 0⟩, false⟩)).map Prod.snd).Perm
        (List.range samplePlan2.blockCount) ∧
      (received samplePlan2 sampleSchedule2
        (initialState samplePlan2 sampleInput ⟨⟨[], 0⟩, false⟩)).length
        = samplePlan2.blockCount) :=
  ⟨sampleEnv2_wellFormed, sampleEnv2_validate, by decide, rfl, rfl, by decide,
    (blocksToHash_accounting sampleEnv2 samplePlan2 sampleInput sampleSchedule2 sampleFinal2
      sampleEnv2_wellFormed sampleEnv2_validate (by decide)).2.2.2.2 rfl rfl⟩

/-! ## Monotonicity of the failure flag -/

/-- C12: the failure flag is false in the state the pipeline starts from; every transition
of the producer, of a hasher or of the result writer leaves the flag as it is or sets it to
true; so a transition taken with the flag set leaves it set, and in every run from the
initial state a flag that is set in one state is set in every later state. -/
theorem failure_flag_monotonic (p : Plan) (input : List Byte) (writer : OutputFileWriter) :
    (initialState p input writer).m_badFlag = false ∧
    (∀ (a : Action) (s t : State), step p a s = some t →
      t.m_badFlag = s.m_badFlag ∨ t.m_badFlag = true) ∧
    (∀ (a : Action) (s t : State), step p a s = some t → s.m_badFlag = true →
      t.m_badFlag = true) ∧
    (∀ (pre post : List Action) (s t : State),
      run p pre (initialState p input writer) = some s → run p post s = some t →
      s.m_badFlag = true → t.m_badFlag = true) := by
  refine ⟨rfl, fun a s t h => ?_, fun a s t h hs => (flag_step (step_sound h)).1 hs,
    fun pre post s t _ h hs => flag_run post h (Or.inl hs)⟩
  cases hs : s.m_badFlag with
  | true => exact Or.inl ((flag_step (step_sound h)).1 hs)
  | false =>
      cases ht : t.m_badFlag with
      | true => exact Or.inr rfl
      | false => exact Or.inl rfl

/-- C12, witness: in the worked call the hasher fails on block 0 and sets the flag; the
producer and the result writer then see it and stop, and the flag is still set. -/
theorem failure_flag_monotonic_witness :
    run samplePlan sampleFlagSchedule (initialState samplePlan sampleInput ⟨⟨[], 0⟩, false⟩)
      = some sampleFlagged ∧
    run samplePlan [.acquire, .wtake] sampleFlagged = some sampleFailed ∧
    (initialState samplePlan sampleInput ⟨⟨[], 0⟩, false⟩).m_badFlag = false ∧
    sampleFlagged.m_badFlag = true ∧ sampleFailed.m_badFlag = true :=
  ⟨by decide, by decide,
    (failure_flag_monotonic samplePlan sampleInput ⟨⟨[], 0⟩, false⟩).1, rfl,
    (failure_flag_monotonic samplePlan sampleInput ⟨⟨[], 0⟩, false⟩).2.2.2
      sampleFlagSchedule [.acquire, .wtake] sampleFlagged sampleFailed (by decide) (by decide)
      rfl⟩

end VeeamTestTask
